import Mathlib

/-!
# RayLibAnts: `neural.h` and `world.h`

A shallow embedding of the network code of `neural.h` (construction, weight codec,
initialiser, mutator, forward pass) and of the sensor and motion code of `world.h`
(`get_rays`, `cartesian_move`), with the properties of them that the specification states.

Conventions of the embedding.

* `float` is an arbitrary type `F` carrying the operations a function uses.  The forward pass
  only needs `0`, `+` and `*` and is stated without any algebraic law, so that the order of the
  additions is the one of the source.  The initialiser, the sensor and the motion model are
  stated over a linear ordered field: arithmetic is exact, rounding is not modelled.  The
  conversion `(int)v` is truncation toward zero (`toInt`).
* The mutator is stated over the `float` and `double` operations its two expressions perform
  (`FloatArith`: the conversions, the `float` division, the `double` addition, subtraction and
  comparison, the literals `0.3` and `0.5`), of which nothing is assumed.  `ieeeArith` is the
  IEEE 754 reading of these operations on the rationals: binary32 and binary64, round to
  nearest, ties to even (`roundTo`); the exponent range (overflow, subnormal numbers) is not
  modelled.
* A C array is a list; reading or writing outside of it, and calling a `NULL` function pointer,
  is undefined behaviour and makes the embedded function return `none`.
* `int` counts (`amount_of_neurons`, `amount_of_layers`) are natural numbers.
* State that the C code keeps outside of its arguments is passed explicitly: the generator
  behind `rand()` is the sequence of the values it is going to return, and the files behind
  `fopen` are a map from names to contents.  A file is the sequence of the `float` values
  written to it, `fwrite` writes all it is asked to, and a file that has been written can be
  opened for reading.  The static tables of `world.h` (`cached_background`, the two
  trigonometry tables, `ray_sensors`) are arguments of the functions that use them.
* The graphics library is not part of the program.  An image is the function that gives the
  colour `GetImageColor` returns at every pair of `int` coordinates, on the Obstacle Mask and
  outside of it.
* A function that stores through `net->weights` returns the network after the call; a function
  that only reads it returns no network.

The loops of the source are kept as loops (`forLoop`, `forUntil`); each `forLoop` is then shown
to be a traversal (`traverseFrom`) of the list it runs over, and the properties are proved on
the traversals.
-/

namespace RayLibAnts

/-! ## Loops -/

/-- The loop `for (int i = start; i < start + n; i++) body`, run on the state `s`; the result is
`none` as soon as one iteration has undefined behaviour. -/
def forLoopFrom {σ : Type} (body : Nat → σ → Option σ) : Nat → Nat → σ → Option σ
  | _, 0, s => some s
  | i, n + 1, s => (body i s).bind (forLoopFrom body (i + 1) n)

/-- The loop `for (int i = 0; i < n; i++) body`. -/
def forLoop {σ : Type} (n : Nat) (body : Nat → σ → Option σ) (s : σ) : Option σ :=
  forLoopFrom body 0 n s

/-! ## Data model (`struct Layer`, `struct Network`) -/

/-- The C `struct Layer`: a neuron count and an activation function pointer (`none` is `NULL`). -/
structure Layer (F : Type) where
  amount_of_neurons : Nat
  activation : Option (F → F)

/-- The jagged array behind `float ***weights`: `weights[layer][output_neuron][input_neuron]`. -/
abbrev Tensor (F : Type) := List (List (List F))

/-- The C `struct Network`. -/
structure Network (F : Type) where
  amount_of_layers : Nat
  layers : List (Layer F)
  weights : Tensor F

/-- The read `weights[layer][output_neuron][input_neuron]`. -/
def readWeight {F : Type} (w : Tensor F) (layer output_neuron input_neuron : Nat) : Option F := do
  let group ← w[layer]?
  let row ← group[output_neuron]?
  row[input_neuron]?

/-- The store `weights[layer][output_neuron][input_neuron] = v`. -/
def writeWeight {F : Type} (w : Tensor F) (layer output_neuron input_neuron : Nat) (v : F) :
    Option (Tensor F) := do
  let group ← w[layer]?
  let row ← group[output_neuron]?
  if input_neuron < row.length then
    some (w.set layer (group.set output_neuron (row.set input_neuron v)))
  else none

/-- The row lengths of a weight tensor, group by group. -/
def shapeOf {F : Type} (w : Tensor F) : List (List Nat) :=
  w.map (fun group => group.map List.length)

/-- The shape section 3 of the specification gives to the tensor of a network with neuron counts
`counts`: group `i` has `counts[i+1]` rows of `counts[i] + 1` entries. -/
def expectedShape (counts : List Nat) : List (List Nat) :=
  List.zipWith (fun n_in n_out => List.replicate n_out (n_in + 1)) counts counts.tail

/-- The neuron counts `n_0, n_1, ...` of a layer sequence. -/
def neuronCounts {F : Type} (layers : List (Layer F)) : List Nat :=
  layers.map (fun l => l.amount_of_neurons)

/-- A network as the program builds it: `amount_of_layers` is the length of the layer array and
the tensor has the shape of the layer sequence. -/
def WellFormed {F : Type} (net : Network F) : Prop :=
  net.amount_of_layers = net.layers.length ∧
    shapeOf net.weights = expectedShape (neuronCounts net.layers)

instance {F : Type} (net : Network F) : Decidable (WellFormed net) := by
  unfold WellFormed; infer_instance

/-! ## Files -/

/-- The files `fopen` sees.  A file is the sequence of the `float` values stored in it;
`files name = none` when `fopen(name, "rb")` fails, `writable name = false` when
`fopen(name, "wb")` fails. -/
structure FileSystem (F : Type) where
  files : String → Option (List F)
  writable : String → Bool

/-- The file system after `name` has been opened with `"wb"`, written with `data` and closed. -/
def FileSystem.store {F : Type} (fs : FileSystem F) (name : String) (data : List F) :
    FileSystem F :=
  { fs with files := fun p => if p = name then some data else fs.files p }

/-- The call `fread(row, sizeof(float), count, file)` on a stream with the values `file` left:
the values read replace the first entries of `row`, the rest of `row` is untouched.  The result
is the new row and the rest of the stream. -/
def fread {F : Type} (row : List F) (count : Nat) (file : List F) : Option (List F × List F) :=
  if (file.take count).length ≤ row.length then
    some (file.take count ++ row.drop (file.take count).length, file.drop count)
  else none

/-- The call `fwrite(row, sizeof(float), count, file)`, `file` being what was written so far. -/
def fwrite {F : Type} (row : List F) (count : Nat) (file : List F) : Option (List F) :=
  if count ≤ row.length then some (file ++ row.take count) else none

/-! ## `neural.h` -/

/-- `loadWeights` of `neural.h`: the returned `int` and the network after the call. -/
def loadWeights {F : Type} (net : Network F) (fs : FileSystem F) (filename : String) :
    Option (Int × Network F) :=
  match fs.files filename with
  | none => some (0, net)
  | some file => do
    let (weights, _) ← forLoop (net.amount_of_layers - 1) (fun layer st => do
      let next ← net.layers[layer + 1]?
      forLoop next.amount_of_neurons (fun output_neuron st => do
        let group ← st.1[layer]?
        let row ← group[output_neuron]?
        let cur ← net.layers[layer]?
        let (row, file) ← fread row (cur.amount_of_neurons + 1) st.2
        some (st.1.set layer (group.set output_neuron row), file)) st) (net.weights, file)
    some (1, { net with weights := weights })

/-- `saveWeights` of `neural.h`: the returned `int` and the file system after the call. -/
def saveWeights {F : Type} (net : Network F) (fs : FileSystem F) (filename : String) :
    Option (Int × FileSystem F) :=
  if fs.writable filename = false then some (0, fs)
  else do
    let file ← forLoop (net.amount_of_layers - 1) (fun layer file => do
      let next ← net.layers[layer + 1]?
      forLoop next.amount_of_neurons (fun output_neuron file => do
        let group ← net.weights[layer]?
        let row ← group[output_neuron]?
        let cur ← net.layers[layer]?
        fwrite row (cur.amount_of_neurons + 1) file) file) []
    some (1, fs.store filename file)

/-- The state of the generator behind `rand()`: the values the coming calls return. -/
abbrev RandState := Nat → Nat

/-- One call of `rand()`. -/
def rand (rng : RandState) : Nat × RandState := (rng 0, fun k => rng (k + 1))

/-- `randomizeWeights` of `neural.h`.  `sqrtf` and `RAND_MAX` come from the C library. -/
def randomizeWeights {F : Type} [LinearOrderedField F] (sqrtf : F → F) (RAND_MAX : Nat)
    (net : Network F) (rng : RandState) : Option (Network F × RandState) := do
  let (weights, rng) ← forLoop (net.amount_of_layers - 1) (fun layer st => do
    let cur ← net.layers[layer]?
    let next ← net.layers[layer + 1]?
    let scale := sqrtf (2 / ((cur.amount_of_neurons + next.amount_of_neurons : Nat) : F))
    forLoop next.amount_of_neurons (fun output_neuron st =>
      forLoop (cur.amount_of_neurons + 1) (fun input_neuron st => do
        let (r, rng) := rand st.2
        let random_weight := (r : F) / (RAND_MAX : F) * 2 - 1
        let weights ← writeWeight st.1 layer output_neuron input_neuron (random_weight * scale)
        some (weights, rng)) st) st) (net.weights, rng)
  some ({ net with weights := weights }, rng)

/-- The arithmetic of `mutateWeights` on `float` values (`F`) and on `double` values (`D`).
The two expressions of the function are

* `(float)rand() / RAND_MAX < 0.3`: both operands of `/` are converted to `float` and divided
  in `float`; the quotient is converted to `double` and compared with the `double` literal;
* `w += ((float)rand() / RAND_MAX) - 0.5`: the `float` quotient is converted to `double`, the
  literal is subtracted in `double`, `w` is converted to `double` and the sum is taken in
  `double`; the store converts the sum to `float`. -/
structure FloatArith (F D : Type) where
  /-- The conversion `int` to `float`. -/
  ofInt : Nat → F
  /-- The division `/` of two `float` values. -/
  divF : F → F → F
  /-- The conversion `float` to `double`. -/
  promote : F → D
  /-- The conversion `double` to `float`. -/
  demote : D → F
  /-- The addition `+` of two `double` values. -/
  addD : D → D → D
  /-- The subtraction `-` of two `double` values. -/
  subD : D → D → D
  /-- The comparison `<` of two `double` values. -/
  ltD : D → D → Bool
  /-- The `double` literal `0.3`. -/
  c03 : D
  /-- The `double` literal `0.5`. -/
  c05 : D

/-- `mutateWeights` of `neural.h`.  `RAND_MAX` comes from the C library. -/
def mutateWeights {F D : Type} (A : FloatArith F D) (RAND_MAX : Nat)
    (net : Network F) (rng : RandState) : Option (Network F × RandState) := do
  let (weights, rng) ← forLoop (net.amount_of_layers - 1) (fun layer st => do
    let next ← net.layers[layer + 1]?
    forLoop next.amount_of_neurons (fun output_neuron st => do
      let cur ← net.layers[layer]?
      forLoop (cur.amount_of_neurons + 1) (fun input_neuron st =>
        let (r, rng) := rand st.2
        if A.ltD (A.promote (A.divF (A.ofInt r) (A.ofInt RAND_MAX))) A.c03 = true then do
          let (r2, rng) := rand rng
          let old ← readWeight st.1 layer output_neuron input_neuron
          let weights ← writeWeight st.1 layer output_neuron input_neuron
            (A.demote (A.addD (A.promote old)
              (A.subD (A.promote (A.divF (A.ofInt r2) (A.ofInt RAND_MAX))) A.c05)))
          some (weights, rng)
        else some (st.1, rng)) st) st) (net.weights, rng)
  some ({ net with weights := weights }, rng)

/-! ### IEEE 754 arithmetic on the rationals -/

/-- The integer nearest to `q`; of the two nearest ones the even one. -/
def roundNearestEven (q : ℚ) : ℤ :=
  if q - (⌊q⌋ : ℚ) < 1 / 2 then ⌊q⌋
  else if 1 / 2 < q - (⌊q⌋ : ℚ) then ⌊q⌋ + 1
  else if ⌊q⌋ % 2 = 0 then ⌊q⌋ else ⌊q⌋ + 1

/-- The exponent `e` of the binade of a nonzero `x`, `2 ^ e ≤ |x| < 2 ^ (e + 1)`: the difference
of the bit lengths of numerator and denominator, or one less. -/
def binaryExponent (x : ℚ) : ℤ :=
  if (2 : ℚ) ^ ((Nat.log 2 x.num.natAbs : ℤ) - (Nat.log 2 x.den : ℤ)) ≤ |x| then
    (Nat.log 2 x.num.natAbs : ℤ) - (Nat.log 2 x.den : ℤ)
  else (Nat.log 2 x.num.natAbs : ℤ) - (Nat.log 2 x.den : ℤ) - 1

/-- Rounding to the binary floating-point format with `p` significant bits (24 for `float`, 53
for `double`), to nearest, ties to even: `x` is rounded to a multiple of the unit in the last
place `2 ^ (e - (p - 1))` of its binade. -/
def roundTo (p : ℕ) (x : ℚ) : ℚ :=
  if x = 0 then 0
  else (roundNearestEven (x / 2 ^ (binaryExponent x - ((p : ℤ) - 1))) : ℚ) *
    2 ^ (binaryExponent x - ((p : ℤ) - 1))

/-- The operations of `mutateWeights` in IEEE 754 arithmetic, `float` being binary32 and
`double` binary64; a value of either type is the rational it stands for. -/
def ieeeArith : FloatArith ℚ ℚ :=
  { ofInt := fun n => roundTo 24 (n : ℚ)
    divF := fun a b => roundTo 24 (a / b)
    promote := fun a => a
    demote := fun a => roundTo 24 a
    addD := fun a b => roundTo 53 (a + b)
    subD := fun a b => roundTo 53 (a - b)
    ltD := fun a b => decide (a < b)
    c03 := roundTo 53 (3 / 10)
    c05 := roundTo 53 (1 / 2) }

/-- `initNetwork` of `neural.h`.  `malloc` does not initialise: the values found in the row
allocated for `(layer, output_neuron)` are `junk layer output_neuron 0, 1, ...`.  A pointer slot
that has not been assigned yet is shown as an empty list. -/
def initNetwork {F : Type} (junk : Nat → Nat → Nat → F) (layers : List (Layer F))
    (amount_of_layers : Nat) : Option (Network F) := do
  let weights : Tensor F := List.replicate (amount_of_layers - 1) []
  let weights ← forLoop (amount_of_layers - 1) (fun layer weights => do
    let next ← layers[layer + 1]?
    if layer < weights.length then
      let weights := weights.set layer (List.replicate next.amount_of_neurons [])
      forLoop next.amount_of_neurons (fun output_neuron weights => do
        let cur ← layers[layer]?
        let group ← weights[layer]?
        if output_neuron < group.length then
          some (weights.set layer (group.set output_neuron
            ((List.range (cur.amount_of_neurons + 1)).map (junk layer output_neuron))))
        else none) weights
    else none) weights
  some { amount_of_layers := amount_of_layers, layers := layers, weights := weights }

/-- `tanh_func` of `neural.h`; `tanhf` comes from the C library. -/
def tanh_func {F : Type} (tanhf : F → F) (x : F) : F := tanhf x

/-- `feed_forward` of `neural.h`: the vector the returned pointer points to. -/
def feed_forward {F : Type} [Zero F] [Add F] [Mul F] (net : Network F) (input : List F) :
    Option (List F) := do
  let first ← net.layers[0]?
  if first.amount_of_neurons ≤ input.length then
    let current_layer := input.take first.amount_of_neurons
    forLoop (net.amount_of_layers - 1) (fun layer current_layer => do
      let next ← net.layers[layer + 1]?
      let next_layer : List F := List.replicate next.amount_of_neurons 0
      forLoop next.amount_of_neurons (fun output_neuron next_layer => do
        let cur ← net.layers[layer]?
        let next_layer ← forLoop cur.amount_of_neurons (fun input_neuron next_layer => do
          let acc ← next_layer[output_neuron]?
          let x ← current_layer[input_neuron]?
          let w ← readWeight net.weights layer output_neuron input_neuron
          some (next_layer.set output_neuron (acc + x * w))) next_layer
        let activation ← next.activation
        let acc ← next_layer[output_neuron]?
        let bias ← readWeight net.weights layer output_neuron cur.amount_of_neurons
        some (next_layer.set output_neuron (activation (acc + bias)))) next_layer) current_layer
  else none

/-! ## Specification-side definitions and loop summaries -/

/-- A pass over a list from left to right that rewrites each element and threads a state:
`op i x s` is the new value of the element `x` at index `i` and the state after it. -/
def traverseFrom {α σ : Type} (op : Nat → α → σ → α × σ) : Nat → List α → σ → List α × σ
  | _, [], s => ([], s)
  | i, x :: xs, s =>
    ((op i x s).1 :: (traverseFrom op (i + 1) xs (op i x s).2).1,
      (traverseFrom op (i + 1) xs (op i x s).2).2)

/-- The weights in save order: ascending layer, ascending output neuron, row index order. -/
def flatWeights {F : Type} (w : Tensor F) : List F := w.flatten.flatten

/-- The number `sum over l of n_{l+1} * (n_l + 1)` of weights of a network with neuron counts
`counts`. -/
def weightCount (counts : List Nat) : Nat :=
  (List.zipWith (fun n_in n_out => n_out * (n_in + 1)) counts counts.tail).sum

/-- Specification of one neuron's weighted input: the sum over `i < n` of
`current[i] * row[i]`, the terms being added to `0` in index order. -/
def weightedSum {F : Type} [Zero F] [Add F] [Mul F] (current row : List F) (n : Nat) : F :=
  (List.range n).foldl (fun acc i => acc + current.getD i 0 * row.getD i 0) 0

/-- Specification of one entry of the next vector:
`activation(sum over i < n of current[i] * row[i] + row[n])`, `row[n]` being the bias slot. -/
def specNeuron {F : Type} [Zero F] [Add F] [Mul F] (activation : F → F) (current row : List F)
    (n : Nat) : F :=
  activation (weightedSum current row n + row.getD n 0)

/-- Specification of one connection: the vector of length `n_out` whose entry `j` is computed
from row `j` of the connection group. -/
def specLayer {F : Type} [Zero F] [Add F] [Mul F] (activation : F → F) (n_in n_out : Nat)
    (group : List (List F)) (current : List F) : List F :=
  (List.range n_out).map (fun j => specNeuron activation current (group.getD j []) n_in)

/-- Specification of the forward pass: start from the input and, for each connection
`l = 0 .. L-2` in order, replace the current vector by the one `specLayer` gives with the
activation of layer `l + 1`. -/
def specForward {F : Type} [Zero F] [Add F] [Mul F] (n : Nat → Nat) (act : Nat → F → F)
    (w : Tensor F) (L : Nat) (input : List F) : List F :=
  (List.range (L - 1)).foldl
    (fun current l => specLayer (act (l + 1)) (n l) (n (l + 1)) (w.getD l []) current) input

/-! ## Example data -/

/-- The architecture `[3, 4, 2]` with a pass-through hidden activation and a doubling output
activation; the input layer has no activation, as in `main`. -/
def exLayers : List (Layer Int) :=
  [⟨3, none⟩, ⟨4, some (fun x => x)⟩, ⟨2, some (fun x => 2 * x)⟩]

/-- A network of architecture `[3, 4, 2]` over the integers. -/
def exNet : Network Int :=
  { amount_of_layers := 3
    layers := exLayers
    weights := [[[0, 1, 2, 3], [10, 11, 12, 13], [20, 21, 22, 23], [30, 31, 32, 33]],
      [[100, 101, 102, 103, 104], [110, 111, 112, 113, 114]]] }

/-- The neuron counts of `exNet`. -/
def exCounts (l : Nat) : Nat := [3, 4, 2].getD l 0

/-- The activations of the layers of `exNet`. -/
def exAct (l : Nat) : Int → Int := if l = 1 then (fun x => x) else (fun x => 2 * x)

/-- A file system with no file yet, in which every file can be created. -/
def exFs : FileSystem Int := ⟨fun _ => none, fun _ => true⟩

/-- The file `saveWeights` writes for `exNet`. -/
def exFile : List Int :=
  [0, 1, 2, 3, 10, 11, 12, 13, 20, 21, 22, 23, 30, 31, 32, 33,
    100, 101, 102, 103, 104, 110, 111, 112, 113, 114]

/-- The network `initNetwork` builds for `exLayers` when `malloc` returns zeroed rows. -/
def exFresh : Network Int :=
  { amount_of_layers := 3
    layers := exLayers
    weights := [[[0, 0, 0, 0], [0, 0, 0, 0], [0, 0, 0, 0], [0, 0, 0, 0]],
      [[0, 0, 0, 0, 0], [0, 0, 0, 0, 0]]] }

/-- A network of architecture `[1, 2]` over the rationals, with zero weights. -/
def exNetQ : Network ℚ :=
  { amount_of_layers := 2
    layers := [⟨1, none⟩, ⟨2, some (fun x => x)⟩]
    weights := [[[0, 0], [0, 0]]] }

/-- A generator that returns `0, 1, ..., 10, 0, 1, ...`, for `RAND_MAX = 10`. -/
def exRng : RandState := fun k => k % 11

/-- A rational stand-in for `sqrtf`: the integer square root taken on thousandths. -/
def exSqrt (x : ℚ) : ℚ := (Nat.sqrt (x * 1000000).floor.toNat : ℚ) / 1000

/-- The value of `RAND_MAX` in the GNU C library, `2 ^ 31 - 1`. -/
def exRandMax : Nat := 2147483647

/-- A network of architecture `[1, 1]` whose weight is the `float` value `2 ^ 23 + 1` and whose
bias is `0`. -/
def exNetLarge : Network ℚ :=
  { amount_of_layers := 2
    layers := [⟨1, none⟩, ⟨1, some (fun x => x)⟩]
    weights := [[[8388609, 0]]] }

/-- A generator that returns `0` and then `RAND_MAX` for ever. -/
def exRngLarge : RandState := fun k => if k = 0 then 0 else 2147483647

/-- What one `fread` of a whole row does: the values the stream still has replace the first
entries of the row; the result is the new row and the rest of the stream. -/
def loadRow {F : Type} (row file : List F) : List F × List F :=
  (file.take row.length ++ row.drop file.length, file.drop row.length)

/-- The group `initNetwork` allocates for connection `l`: `counts[l+1]` rows of
`counts[l] + 1` entries, holding whatever `malloc` returned. -/
def initGroup {F : Type} (junk : Nat → Nat → Nat → F) (counts : List Nat) (l : Nat) :
    List (List F) :=
  (List.range (counts.getD (l + 1) 0)).map
    (fun o => (List.range (counts.getD l 0 + 1)).map (junk l o))

/-- The tensor and the rest of the stream after the rows of the tensor have been read from the
stream one after the other. -/
def loadTensor {F : Type} (w : Tensor F) (file : List F) : Tensor F × List F :=
  traverseFrom (fun _ g file => traverseFrom (fun _ => loadRow) 0 g file) 0 w file

/-- An operation that fills a container from the stream, seen through the flattening `fl`. -/
def IsLoader {α F : Type} (fl : α → List F) (op : α → List F → α × List F) : Prop :=
  ∀ x file, fl (op x file).1 = file.take (fl x).length ++ (fl x).drop file.length ∧
    (op x file).2 = file.drop (fl x).length


/-- The network that differs from `net` only in `layers[0].activation`, which is
`activation` (`none` for `NULL`). -/
def withInputActivation {F : Type} (activation : Option (F → F)) (net : Network F) :
    Network F :=
  { net with
    layers := match net.layers with
      | [] => []
      | first :: rest => { first with activation := activation } :: rest }

/-- The scale factor `sqrtf(2 / (n_l + n_{l+1}))` of connection `l`. -/
def xavierScale {F : Type} [LinearOrderedField F] (sqrtf : F → F) (counts : List Nat)
    (l : Nat) : F :=
  sqrtf (2 / ((counts.getD l 0 + counts.getD (l + 1) 0 : Nat) : F))

/-- What one iteration of the innermost loop of `randomizeWeights` stores, and the generator
after it: one draw `r`, mapped to `r / RAND_MAX * 2 - 1` and multiplied by the scale. -/
def randomizeEntry {F : Type} [LinearOrderedField F] (RAND_MAX : Nat) (scale : F)
    (rng : RandState) : F × RandState :=
  ((((rand rng).1 : F) / (RAND_MAX : F) * 2 - 1) * scale, (rand rng).2)

/-- The tensor and the generator after `randomizeWeights`. -/
def randomizeTensor {F : Type} [LinearOrderedField F] (sqrtf : F → F) (RAND_MAX : Nat)
    (counts : List Nat) (w : Tensor F) (rng : RandState) : Tensor F × RandState :=
  traverseFrom (fun l g s =>
    traverseFrom (fun _ r s =>
      traverseFrom (fun _ _ s => randomizeEntry RAND_MAX (xavierScale sqrtf counts l) s)
        0 r s) 0 g s) 0 w rng

/-- The test `(float)r / RAND_MAX < 0.3` of `mutateWeights` on the draw `r`. -/
def selectionTest {F D : Type} (A : FloatArith F D) (RAND_MAX r : Nat) : Bool :=
  A.ltD (A.promote (A.divF (A.ofInt r) (A.ofInt RAND_MAX))) A.c03

/-- The term `((float)r / RAND_MAX) - 0.5` that `mutateWeights` adds for the draw `r`, a
`double`. -/
def mutationTerm {F D : Type} (A : FloatArith F D) (RAND_MAX r : Nat) : D :=
  A.subD (A.promote (A.divF (A.ofInt r) (A.ofInt RAND_MAX))) A.c05

/-- What one iteration of the innermost loop of `mutateWeights` makes of the weight `old`, and
the generator after it: a selection draw `r`; when the test `(float)r / RAND_MAX < 0.3` holds a
second draw `r2` and the `float` stored for `old + ((float)r2 / RAND_MAX - 0.5)`, otherwise the
weight as it was. -/
def mutateEntry {F D : Type} (A : FloatArith F D) (RAND_MAX : Nat) (old : F)
    (rng : RandState) : F × RandState :=
  if A.ltD (A.promote (A.divF (A.ofInt (rand rng).1) (A.ofInt RAND_MAX))) A.c03 = true then
    (A.demote (A.addD (A.promote old)
      (A.subD (A.promote (A.divF (A.ofInt (rand (rand rng).2).1) (A.ofInt RAND_MAX))) A.c05)),
      (rand (rand rng).2).2)
  else (old, (rand rng).2)

/-- The tensor and the generator after `mutateWeights`. -/
def mutateTensor {F D : Type} (A : FloatArith F D) (RAND_MAX : Nat) (w : Tensor F)
    (rng : RandState) : Tensor F × RandState :=
  traverseFrom (fun _ g s =>
    traverseFrom (fun _ r s => traverseFrom (fun _ => mutateEntry A RAND_MAX) 0 r s) 0 g s)
    0 w rng

/-- The generator states met during a run are the original sequence of draws, shifted. -/
def IsShiftOf (rng : RandState) (s : RandState) : Prop := ∃ c, ∀ j, s j = rng (c + j)


/-! ## `world.c` and `world.h` -/

/-- `SCREEN_WIDTH` of `world.c`. -/
def SCREEN_WIDTH : Nat := 1200

/-- `SCREEN_HEIGHT` of `world.c`. -/
def SCREEN_HEIGHT : Nat := 800

/-- `AMOUNT_OF_RAYS` of `world.c`. -/
def AMOUNT_OF_RAYS : Nat := 20

/-- `RAYS_RADIUS` of `world.c`. -/
def RAYS_RADIUS : Nat := 100

/-- `AMOUNT_OF_ANTS` of `world.c`. -/
def AMOUNT_OF_ANTS : Nat := 3000

/-- `MAX_SPEED` of `world.c`. -/
def MAX_SPEED : Nat := 1

/-- The colour type of the graphics library: four channels. -/
structure Color where
  r : Nat
  g : Nat
  b : Nat
  a : Nat
  deriving DecidableEq

/-- The colour `WHITE` of the graphics library. -/
def WHITE : Color := ⟨255, 255, 255, 255⟩

/-- The colour `BLACK` of the graphics library. -/
def BLACK : Color := ⟨0, 0, 0, 255⟩

/-- `ColorIsEqual` of the graphics library. -/
def ColorIsEqual (c1 c2 : Color) : Bool := decide (c1 = c2)

/-- The image behind `cached_background`, as the graphics library's `GetImageColor` sees it:
the colour it returns for every pair of `int` coordinates.  The Obstacle Mask is its part on
`0 ≤ x < SCREEN_WIDTH`, `0 ≤ y < SCREEN_HEIGHT`. -/
abbrev Image := Int → Int → Color

/-- `GetImageColor(image, x, y)`. -/
def GetImageColor (image : Image) (x y : Int) : Color := image x y

/-- The conversion `(int)v` of a `float`: truncation toward zero. -/
def toInt {F : Type} [LinearOrderedField F] [FloorRing F] (v : F) : Int :=
  if 0 ≤ v then ⌊v⌋ else ⌈v⌉

/-- The C `struct Ant`. -/
structure Ant (F : Type) where
  network : Network F
  x : F
  y : F

/-- `init_trigonometry_tables` of `world.h`: the two tables after the call.  `cos`, `sin` and
`PI` come from the C library. -/
def init_trigonometry_tables {F : Type} [LinearOrderedField F] (cos sin : F → F) (PI : F) :
    List F × List F :=
  let RAY_ANGLE_INCREMENT : F := PI * 2 / (AMOUNT_OF_RAYS : F)
  ((List.range AMOUNT_OF_RAYS).map (fun ray_index => cos ((ray_index : F) * RAY_ANGLE_INCREMENT)),
    (List.range AMOUNT_OF_RAYS).map (fun ray_index => sin ((ray_index : F) * RAY_ANGLE_INCREMENT)))

/-- The loop `for (i = start; i < start + n; i++) { if (stop i) break; }`: the value of `i`
after it. -/
def forUntil (stop : Nat → Bool) : Nat → Nat → Nat
  | i, 0 => i
  | i, n + 1 => if stop i then i else forUntil stop (i + 1) n

/-- The body of the inner loop of `get_rays` at step `ray_length`: `true` when it reaches
`break`.  The mask is only looked up when the bounds test of the source passes. -/
def ray_hit {F : Type} [LinearOrderedField F] [FloorRing F] (cached_background : Image)
    (pos_x pos_y : Int) (ray_dir_x ray_dir_y : F) (ray_length : Nat) : Bool :=
  let ray_x := ray_dir_x * (ray_length : F)
  let ray_y := ray_dir_y * (ray_length : F)
  if (pos_x : F) + ray_x > 0 ∧ (pos_x : F) + ray_x < (SCREEN_WIDTH : F) ∧
      (pos_y : F) + ray_y > 0 ∧ (pos_y : F) + ray_y < (SCREEN_HEIGHT : F) then
    !ColorIsEqual
      (GetImageColor cached_background (toInt ((pos_x : F) + ray_x)) (toInt ((pos_y : F) + ray_y)))
      WHITE
  else false

/-- `get_rays` of `world.h`.  `ray_sensors` is the static table of readings; the result is the
row the returned pointer points to and the table after the call. -/
def get_rays {F : Type} [LinearOrderedField F] [FloorRing F] (cached_background : Image)
    (ray_cos_table ray_sin_table : List F) (ray_sensors : List (List F)) (ant_index : Nat)
    (pos_x pos_y : Int) : Option (List F × List (List F)) := do
  let ray_distances ← ray_sensors[ant_index]?
  let ray_distances ← forLoop AMOUNT_OF_RAYS (fun ray_index ray_distances => do
    let ray_dir_x ← ray_cos_table[ray_index]?
    let ray_dir_y ← ray_sin_table[ray_index]?
    let ray_length :=
      forUntil (ray_hit cached_background pos_x pos_y ray_dir_x ray_dir_y) 0 RAYS_RADIUS
    if ray_index < ray_distances.length then
      some (ray_distances.set ray_index
        (((RAYS_RADIUS - ray_length : Nat) : F) / (RAYS_RADIUS : F)))
    else none) ray_distances
  some (ray_distances, ray_sensors.set ant_index ray_distances)

/-- The first statements of `cartesian_move`: the candidate position
`position + movement[0..1] * MAX_SPEED`, clamped by `fmaxf(0, fminf(., SCREEN_...))`. -/
def clamped_candidate {F : Type} [LinearOrderedField F] (ant : Ant F) (movement : List F) :
    Option (F × F) := do
  let m0 ← movement[0]?
  let m1 ← movement[1]?
  let new_x := ant.x + m0 * (MAX_SPEED : F)
  let new_y := ant.y + m1 * (MAX_SPEED : F)
  some (max 0 (min new_x (SCREEN_WIDTH : F)), max 0 (min new_y (SCREEN_HEIGHT : F)))

/-- `cartesian_move` of `world.h`: the ant after the call. -/
def cartesian_move {F : Type} [LinearOrderedField F] [FloorRing F] (cached_background : Image)
    (ant : Ant F) (movement : List F) : Option (Ant F) := do
  let (new_x, new_y) ← clamped_candidate ant movement
  if ColorIsEqual (GetImageColor cached_background (toInt new_x) (toInt new_y)) WHITE then
    some { ant with x := new_x, y := new_y }
  else some ant

/-- Successive ticks of one ant: `cartesian_move` with each of the output vectors in turn. -/
def moves {F : Type} [LinearOrderedField F] [FloorRing F] (cached_background : Image)
    (ant : Ant F) : List (List F) → Option (Ant F)
  | [] => some ant
  | movement :: rest =>
    (cartesian_move cached_background ant movement).bind
      (fun ant => moves cached_background ant rest)

/-- The integer point `(x, y)` is a pixel of the Obstacle Mask. -/
def onMask (x y : Int) : Prop :=
  0 ≤ x ∧ x < (SCREEN_WIDTH : Int) ∧ 0 ≤ y ∧ y < (SCREEN_HEIGHT : Int)

instance (x y : Int) : Decidable (onMask x y) := by
  unfold onMask; infer_instance

/-- The number of steps the inner loop of `get_rays` takes for ray `k`: the value of
`ray_length` after the loop. -/
def ray_steps {F : Type} [LinearOrderedField F] [FloorRing F] (cached_background : Image)
    (ray_cos_table ray_sin_table : List F) (pos_x pos_y : Int) (k : Nat) : Nat :=
  forUntil (ray_hit cached_background pos_x pos_y (ray_cos_table.getD k 0)
    (ray_sin_table.getD k 0)) 0 RAYS_RADIUS

/-- The readings `get_rays` stores: `(RAYS_RADIUS - steps) / RAYS_RADIUS` for every ray. -/
def ray_readings {F : Type} [LinearOrderedField F] [FloorRing F] (cached_background : Image)
    (ray_cos_table ray_sin_table : List F) (pos_x pos_y : Int) : List F :=
  (List.range AMOUNT_OF_RAYS).map (fun k =>
    ((RAYS_RADIUS - ray_steps cached_background ray_cos_table ray_sin_table pos_x pos_y k : Nat)
      : F) / (RAYS_RADIUS : F))

/-- The position of the ant lies in the screen rectangle, borders included. -/
def inScreen {F : Type} [LinearOrderedField F] (ant : Ant F) : Prop :=
  0 ≤ ant.x ∧ ant.x ≤ (SCREEN_WIDTH : F) ∧ 0 ≤ ant.y ∧ ant.y ≤ (SCREEN_HEIGHT : F)


/-- A mask that is white except for one black pixel at `(0, 5)`. -/
def exMask : Image := fun x y => if x = 0 ∧ y = 5 then BLACK else WHITE

/-- A mask that is white except for a black wall in column `0`. -/
def exWall : Image := fun x _ => if x = 0 then BLACK else WHITE

/-- A table of twenty cosines, to three decimals. -/
def exCos : List ℚ :=
  [1, 951 / 1000, 809 / 1000, 588 / 1000, 309 / 1000, 0, -309 / 1000, -588 / 1000,
    -809 / 1000, -951 / 1000, -1, -951 / 1000, -809 / 1000, -588 / 1000, -309 / 1000, 0,
    309 / 1000, 588 / 1000, 809 / 1000, 951 / 1000]

/-- A table of twenty sines, to three decimals. -/
def exSin : List ℚ :=
  [0, 309 / 1000, 588 / 1000, 809 / 1000, 951 / 1000, 1, 951 / 1000, 809 / 1000,
    588 / 1000, 309 / 1000, 0, -309 / 1000, -588 / 1000, -809 / 1000, -951 / 1000, -1,
    -951 / 1000, -809 / 1000, -588 / 1000, -309 / 1000]

/-- The static table of readings at start-up: zeros. -/
def exSensors : List (List ℚ) := List.replicate AMOUNT_OF_ANTS (List.replicate AMOUNT_OF_RAYS 0)

/-- An ant half a pixel from the right border of the screen. -/
def exAnt : Ant ℚ := ⟨exNetQ, 2399 / 2, 400⟩

/-- An ant at the centre of the screen, where `main` places it. -/
def exCentre : Ant ℚ := ⟨exNetQ, ((SCREEN_WIDTH / 2 : Nat) : ℚ), ((SCREEN_HEIGHT / 2 : Nat) : ℚ)⟩

/-- An image that is white on the mask and black outside of it. -/
def exEdge : Image := fun x y => if onMask x y then WHITE else BLACK


/-! ## Lists -/

theorem set_of_getElem? {α : Type} : ∀ {xs : List α} {i : Nat} {x : α}, xs[i]? = some x →
    xs.set i x = xs := by
  intro xs
  induction xs with
  | nil => intro i x h; simp
  | cons y ys ih =>
    intro i x h
    cases i with
    | zero => simp at h; simp [h]
    | succ i => simp at h; simp [ih h]

theorem lt_of_getElem? {α : Type} {xs : List α} {i : Nat} {x : α} (h : xs[i]? = some x) :
    i < xs.length := (List.getElem?_eq_some.mp h).1

theorem getElem?_append_cons_length {α : Type} (pre suf : List α) (x : α) :
    (pre ++ x :: suf)[pre.length]? = some x := by
  rw [List.getElem?_append_right (Nat.le_refl _)]; simp

theorem getElem?_eq_some_getD {α : Type} {xs : List α} {i : Nat} (h : i < xs.length) (d : α) :
    xs[i]? = some (xs.getD i d) := by
  simp [List.getD, List.getElem?_eq_getElem h]

theorem getD_of_getElem? {α : Type} {xs : List α} {i : Nat} {x : α} (h : xs[i]? = some x)
    (d : α) : xs.getD i d = x := by
  simp [List.getD, h]

/-! ## Traversals -/

theorem traverseFrom_length {α σ : Type} (op : Nat → α → σ → α × σ) (xs : List α) :
    ∀ (i : Nat) (s : σ), (traverseFrom op i xs s).1.length = xs.length := by
  induction xs with
  | nil => intro i s; rfl
  | cons x xs ih => intro i s; simp [traverseFrom, ih]

/-- When the state after an element does not depend on its index, the final state of a
traversal is a left fold. -/
theorem traverseFrom_snd_eq_foldl {α σ : Type} (op : Nat → α → σ → α × σ) (f : σ → α → σ)
    (hop : ∀ i x s, (op i x s).2 = f s x) (xs : List α) :
    ∀ (i : Nat) (s : σ), (traverseFrom op i xs s).2 = xs.foldl f s := by
  induction xs with
  | nil => intro i s; rfl
  | cons x xs ih => intro i s; simp [traverseFrom, ih, hop]

/-- When the new value of an element only depends on its index, the traversal is a map over
the indices. -/
theorem traverseFrom_fst_eq_map {α σ : Type} (op : Nat → α → σ → α × σ) (v : Nat → α)
    (hop : ∀ i x s, (op i x s).1 = v i) (xs : List α) :
    ∀ (i : Nat) (s : σ),
      (traverseFrom op i xs s).1 = (List.range xs.length).map (fun k => v (i + k)) := by
  induction xs with
  | nil => intro i s; rfl
  | cons x xs ih =>
    intro i s
    simp only [traverseFrom, hop, ih, List.length_cons, List.range_succ_eq_map, List.map_cons,
      List.map_map, Nat.add_zero]
    congr 1
    apply List.map_congr_left
    intro k _
    simp [Nat.add_assoc, Nat.add_comm 1 k]

/-! ## Loops as traversals -/

/-- The loop that rewrites the elements of a list one after the other is a traversal.  `P` is
what is known of the element found at an index, `Inv` what is known of the state there. -/
theorem forLoopFrom_traverse {α σ τ : Type} (body : Nat → τ → Option τ)
    (embed : List α → σ → τ) (op : Nat → α → σ → α × σ) (P : Nat → α → Prop)
    (Inv : Nat → σ → Prop) (N : Nat)
    (hbody : ∀ i xs s x, xs.length = N → xs[i]? = some x → P i x → Inv i s →
      body i (embed xs s) = some (embed (xs.set i (op i x s).1) (op i x s).2) ∧
        Inv (i + 1) (op i x s).2) :
    ∀ (suf pre : List α) (s : σ), pre.length + suf.length = N →
      (∀ k x, suf[k]? = some x → P (pre.length + k) x) → Inv pre.length s →
      forLoopFrom body pre.length suf.length (embed (pre ++ suf) s) =
          some (embed (pre ++ (traverseFrom op pre.length suf s).1)
            (traverseFrom op pre.length suf s).2) ∧
        Inv (pre.length + suf.length) (traverseFrom op pre.length suf s).2 := by
  intro suf
  induction suf with
  | nil => intro pre s _ _ hI; simpa [forLoopFrom, traverseFrom] using hI
  | cons x suf ih =>
    intro pre s hN hP hI
    have hx : (pre ++ x :: suf)[pre.length]? = some x := getElem?_append_cons_length pre suf x
    obtain ⟨hstep, hI1⟩ := hbody pre.length (pre ++ x :: suf) s x (by simpa using hN) hx
      (by simpa using hP 0 x (by simp)) hI
    have hset : (pre ++ x :: suf).set pre.length (op pre.length x s).1 =
        (pre ++ [(op pre.length x s).1]) ++ suf := by simp
    rw [hset] at hstep
    obtain ⟨hrec, hI2⟩ := ih (pre ++ [(op pre.length x s).1]) (op pre.length x s).2
      (by simp at hN ⊢; omega)
      (by
        intro k y hk
        have := hP (k + 1) y (by simpa using hk)
        simpa [Nat.add_assoc, Nat.add_comm 1 k] using this)
      (by simpa using hI1)
    simp only [List.length_append, List.length_singleton] at hrec hI2
    constructor
    · simp only [List.length_cons, forLoopFrom, hstep, Option.some_bind, traverseFrom]
      rw [hrec]
      simp
    · simpa [traverseFrom, Nat.add_assoc, Nat.add_comm 1 suf.length] using hI2

/-- The loop over a whole list, started on the list itself. -/
theorem forLoop_traverse_inv {α σ τ : Type} (body : Nat → τ → Option τ)
    (embed : List α → σ → τ) (op : Nat → α → σ → α × σ) (P : Nat → α → Prop)
    (Inv : Nat → σ → Prop) (xs : List α)
    (hbody : ∀ i ys s x, ys.length = xs.length → ys[i]? = some x → P i x → Inv i s →
      body i (embed ys s) = some (embed (ys.set i (op i x s).1) (op i x s).2) ∧
        Inv (i + 1) (op i x s).2)
    (hP : ∀ k x, xs[k]? = some x → P k x) (s : σ) (hI : Inv 0 s) :
    forLoop xs.length body (embed xs s) =
        some (embed (traverseFrom op 0 xs s).1 (traverseFrom op 0 xs s).2) ∧
      Inv xs.length (traverseFrom op 0 xs s).2 := by
  have h := forLoopFrom_traverse body embed op P Inv xs.length hbody xs [] s (by simp)
    (by simpa using hP) (by simpa using hI)
  simpa [forLoop] using h

/-- The loop over a whole list when nothing has to be known of the state. -/
theorem forLoop_traverse {α σ τ : Type} (body : Nat → τ → Option τ)
    (embed : List α → σ → τ) (op : Nat → α → σ → α × σ) (P : Nat → α → Prop) (xs : List α)
    (hbody : ∀ i ys s x, ys.length = xs.length → ys[i]? = some x → P i x →
      body i (embed ys s) = some (embed (ys.set i (op i x s).1) (op i x s).2))
    (hP : ∀ k x, xs[k]? = some x → P k x) (s : σ) :
    forLoop xs.length body (embed xs s) =
      some (embed (traverseFrom op 0 xs s).1 (traverseFrom op 0 xs s).2) :=
  (forLoop_traverse_inv body embed op P (fun _ _ => True) xs
    (fun i ys s x h1 h2 h3 _ => ⟨hbody i ys s x h1 h2 h3, trivial⟩) hP s trivial).1

theorem readWeight_eq {F : Type} {w : Tensor F} {l o : Nat} {g : List (List F)} {r : List F}
    (hg : w[l]? = some g) (hr : g[o]? = some r) (i : Nat) : readWeight w l o i = r[i]? := by
  simp [readWeight, hg, hr]

theorem writeWeight_eq {F : Type} {w : Tensor F} {l o i : Nat} {g : List (List F)} {r : List F}
    (hg : w[l]? = some g) (hr : g[o]? = some r) (hi : i < r.length) (v : F) :
    writeWeight w l o i v = some (w.set l (g.set o (r.set i v))) := by
  simp [writeWeight, hg, hr, hi]

/-- A loop that rewrites the entries of the row `(l, o)` one after the other. -/
theorem entries_loop {F σ : Type} (l o : Nat) (body : Nat → Tensor F × σ → Option (Tensor F × σ))
    (entryOp : Nat → F → σ → F × σ)
    (hbody : ∀ i w g r x s, w[l]? = some g → g[o]? = some r → r[i]? = some x →
      body i (w, s) = some (w.set l (g.set o (r.set i (entryOp i x s).1)), (entryOp i x s).2))
    (w : Tensor F) (g : List (List F)) (r : List F) (s : σ)
    (hg : w[l]? = some g) (hr : g[o]? = some r) :
    forLoop r.length body (w, s) =
      some (w.set l (g.set o (traverseFrom entryOp 0 r s).1), (traverseFrom entryOp 0 r s).2) := by
  have hl := lt_of_getElem? hg
  have ho := lt_of_getElem? hr
  have h := forLoop_traverse body (fun (ys : List F) (s : σ) => (w.set l (g.set o ys), s))
    entryOp (fun _ _ => True) r
    (by
      intro i ys s x _ hx _
      have := hbody i (w.set l (g.set o ys)) (g.set o ys) ys x s
        (by simp [hl]) (by simp [ho]) hx
      simpa [List.set_set] using this)
    (fun _ _ _ => trivial) s
  simpa [set_of_getElem? hr, set_of_getElem? hg] using h

/-- A loop that rewrites the rows of the group `l` one after the other. -/
theorem rows_loop {F σ : Type} (l : Nat) (body : Nat → Tensor F × σ → Option (Tensor F × σ))
    (rowOp : Nat → List F → σ → List F × σ) (P : Nat → List F → Prop)
    (hbody : ∀ o w g r s, w[l]? = some g → g[o]? = some r → P o r →
      body o (w, s) = some (w.set l (g.set o (rowOp o r s).1), (rowOp o r s).2))
    (w : Tensor F) (g : List (List F)) (s : σ)
    (hg : w[l]? = some g) (hP : ∀ o r, g[o]? = some r → P o r) :
    forLoop g.length body (w, s) =
      some (w.set l (traverseFrom rowOp 0 g s).1, (traverseFrom rowOp 0 g s).2) := by
  have hl := lt_of_getElem? hg
  have h := forLoop_traverse body (fun (ys : List (List F)) (s : σ) => (w.set l ys, s))
    rowOp P g
    (by
      intro o ys s r _ hr hPr
      have := hbody o (w.set l ys) ys r s (by simp [hl]) hr hPr
      simpa [List.set_set] using this)
    hP s
  simpa [set_of_getElem? hg] using h

/-- A loop that rewrites the groups of a tensor one after the other. -/
theorem groups_loop {F σ : Type} (body : Nat → Tensor F × σ → Option (Tensor F × σ))
    (groupOp : Nat → List (List F) → σ → List (List F) × σ) (P : Nat → List (List F) → Prop)
    (hbody : ∀ l w g s, w[l]? = some g → P l g →
      body l (w, s) = some (w.set l (groupOp l g s).1, (groupOp l g s).2))
    (w : Tensor F) (s : σ) (hP : ∀ l g, w[l]? = some g → P l g) :
    forLoop w.length body (w, s) =
      some ((traverseFrom groupOp 0 w s).1, (traverseFrom groupOp 0 w s).2) :=
  forLoop_traverse body (fun (ys : Tensor F) (s : σ) => (ys, s)) groupOp P w
    (fun l ys s g _ hg hPg => hbody l ys g s hg hPg) hP s

/-! ## The shape of a well-formed tensor -/

theorem expectedShape_getElem? (counts : List Nat) (l : Nat) (a b : Nat)
    (ha : counts[l]? = some a) (hb : counts[l + 1]? = some b) :
    (expectedShape counts)[l]? = some (List.replicate b (a + 1)) := by
  simp [expectedShape, List.getElem?_zipWith, ha, hb]

theorem expectedShape_length (counts : List Nat) :
    (expectedShape counts).length = counts.length - 1 := by
  simp [expectedShape]

theorem shape_length {F : Type} {layers : List (Layer F)} {w : Tensor F}
    (h : shapeOf w = expectedShape (neuronCounts layers)) : w.length = layers.length - 1 := by
  have := congrArg List.length h
  simpa [shapeOf, expectedShape, neuronCounts] using this

theorem layers_lookup {F : Type} (layers : List (Layer F)) (l : Nat)
    (hl : l < layers.length - 1) :
    ∃ a b, layers[l]? = some a ∧ layers[l + 1]? = some b :=
  ⟨layers[l], layers[l + 1], List.getElem?_eq_getElem (by omega),
    List.getElem?_eq_getElem (by omega)⟩

/-- What the shape says of the group found at index `l`. -/
theorem shape_group {F : Type} {layers : List (Layer F)} {w : Tensor F}
    (h : shapeOf w = expectedShape (neuronCounts layers)) {l : Nat} {g : List (List F)}
    (hg : w[l]? = some g) {a b : Layer F} (ha : layers[l]? = some a)
    (hb : layers[l + 1]? = some b) :
    g.length = b.amount_of_neurons ∧ ∀ (o : Nat) (r : List F), g[o]? = some r → r.length = a.amount_of_neurons + 1 := by
  have h1 : (shapeOf w)[l]? = some (g.map List.length) := by simp [shapeOf, hg]
  have h2 := expectedShape_getElem? (neuronCounts layers) l a.amount_of_neurons
    b.amount_of_neurons (by simp [neuronCounts, ha]) (by simp [neuronCounts, hb])
  rw [h, h2] at h1
  have h3 : List.replicate b.amount_of_neurons (a.amount_of_neurons + 1) = g.map List.length :=
    Option.some.inj h1
  constructor
  · have := congrArg List.length h3
    simpa using this.symm
  · intro o r hr
    have h4 : (g.map List.length)[o]? = some r.length := by simp [hr]
    rw [← h3, List.getElem?_replicate] at h4
    split at h4
    · exact (Option.some.inj h4).symm
    · cases h4

/-- The group of a well-formed network at a connection index. -/
theorem wellFormed_group {F : Type} {net : Network F} (hwf : WellFormed net) {l : Nat}
    (hl : l < net.amount_of_layers - 1) :
    ∃ a b g, net.layers[l]? = some a ∧ net.layers[l + 1]? = some b ∧
      net.weights[l]? = some g ∧ g.length = b.amount_of_neurons ∧
      ∀ (o : Nat) (r : List F), g[o]? = some r → r.length = a.amount_of_neurons + 1 := by
  obtain ⟨hlen, hshape⟩ := hwf
  rw [hlen] at hl
  obtain ⟨a, b, ha, hb⟩ := layers_lookup net.layers l hl
  have hw : l < net.weights.length := by rw [shape_length hshape]; exact hl
  refine ⟨a, b, net.weights[l], ha, hb, List.getElem?_eq_getElem hw, ?_⟩
  exact shape_group hshape (List.getElem?_eq_getElem hw) ha hb

/-! ## The forward pass -/

/-- Where addition is associative and commutative, the weighted input of a neuron is the sum
over `i < n` of `current[i] * row[i]`. -/
theorem weightedSum_eq_sum {F : Type} [Semiring F] (current row : List F) (n : Nat) :
    weightedSum current row n =
      ∑ i in Finset.range n, current.getD i 0 * row.getD i 0 := by
  induction n with
  | zero => simp [weightedSum]
  | succ n ih =>
    unfold weightedSum at ih ⊢
    rw [List.range_succ, List.foldl_append, ih, Finset.sum_range_succ]
    rfl

/-- The innermost loop of `feed_forward` leaves the weighted sum in `next_layer[o]`. -/
theorem feed_forward_sum_loop {F : Type} [Zero F] [Add F] [Mul F] (w : Tensor F) (l o n : Nat)
    (g : List (List F)) (row cur ys : List F) (hg : w[l]? = some g) (hr : g[o]? = some row)
    (hrow : row.length = n + 1) (hcur : cur.length = n) (hy : ys[o]? = some 0) :
    forLoop n (fun input_neuron next_layer => do
        let acc ← next_layer[o]?
        let x ← cur[input_neuron]?
        let wv ← readWeight w l o input_neuron
        some (next_layer.set o (acc + x * wv))) ys =
      some (ys.set o (weightedSum cur row n)) := by
  have ho := lt_of_getElem? hy
  have h := forLoop_traverse
    (fun input_neuron next_layer => do
        let acc ← next_layer[o]?
        let x ← cur[input_neuron]?
        let wv ← readWeight w l o input_neuron
        some (next_layer.set o (acc + x * wv)))
    (fun (_ : List Nat) (acc : F) => ys.set o acc)
    (fun _ (x : Nat) (acc : F) => (x, acc + cur.getD x 0 * row.getD x 0))
    (fun i x => x = i ∧ i < n) (List.range n)
    (by
      rintro i zs acc x - - ⟨rfl, hi⟩
      have h1 : (ys.set o acc)[o]? = some acc := by simp [ho]
      have h2 : cur[x]? = some (cur.getD x 0) := getElem?_eq_some_getD (by omega) 0
      have h3 : readWeight w l o x = some (row.getD x 0) := by
        rw [readWeight_eq hg hr]; exact getElem?_eq_some_getD (by omega) 0
      simp only [h1, h2, h3, Option.bind_eq_bind, Option.some_bind, List.set_set])
    (by
      intro k x hk
      have hk1 : k < n := by simpa using lt_of_getElem? hk
      rw [List.getElem?_range hk1] at hk
      exact ⟨(Option.some.inj hk).symm, hk1⟩)
    0
  simp only [List.length_range, set_of_getElem? hy] at h
  rw [h, traverseFrom_snd_eq_foldl _ (fun acc i => acc + cur.getD i 0 * row.getD i 0)
    (fun _ _ _ => rfl)]
  rfl

/-- The loop of `feed_forward` over the output neurons of one connection computes
`specLayer`. -/
theorem feed_forward_layer_loop {F : Type} [Zero F] [Add F] [Mul F] (net : Network F) (l : Nat)
    (a b : Layer F) (act : F → F) (g : List (List F)) (cur : List F)
    (ha : net.layers[l]? = some a) (hact : b.activation = some act)
    (hg : net.weights[l]? = some g) (hlen : g.length = b.amount_of_neurons)
    (hrows : ∀ (o : Nat) (r : List F), g[o]? = some r → r.length = a.amount_of_neurons + 1)
    (hcur : cur.length = a.amount_of_neurons) :
    forLoop b.amount_of_neurons (fun output_neuron next_layer => do
        let cur' ← net.layers[l]?
        let next_layer ← forLoop cur'.amount_of_neurons (fun input_neuron next_layer => do
          let acc ← next_layer[output_neuron]?
          let x ← cur[input_neuron]?
          let wv ← readWeight net.weights l output_neuron input_neuron
          some (next_layer.set output_neuron (acc + x * wv))) next_layer
        let activation ← b.activation
        let acc ← next_layer[output_neuron]?
        let bias ← readWeight net.weights l output_neuron cur'.amount_of_neurons
        some (next_layer.set output_neuron (activation (acc + bias))))
        (List.replicate b.amount_of_neurons 0) =
      some (specLayer act a.amount_of_neurons b.amount_of_neurons g cur) := by
  have h := forLoop_traverse
    (fun output_neuron next_layer => do
        let cur' ← net.layers[l]?
        let next_layer ← forLoop cur'.amount_of_neurons (fun input_neuron next_layer => do
          let acc ← next_layer[output_neuron]?
          let x ← cur[input_neuron]?
          let wv ← readWeight net.weights l output_neuron input_neuron
          some (next_layer.set output_neuron (acc + x * wv))) next_layer
        let activation ← b.activation
        let acc ← next_layer[output_neuron]?
        let bias ← readWeight net.weights l output_neuron cur'.amount_of_neurons
        some (next_layer.set output_neuron (activation (acc + bias))))
    (fun (ys : List F) (_ : Unit) => ys)
    (fun o (_ : F) (_ : Unit) => (specNeuron act cur (g.getD o []) a.amount_of_neurons, ()))
    (fun _ x => x = 0) (List.replicate b.amount_of_neurons (0 : F))
    (by
      rintro o ys - x hys hx rfl
      have ho : o < g.length := by
        have := lt_of_getElem? hx
        rw [hys, List.length_replicate] at this
        omega
      have hr : g[o]? = some (g.getD o []) := getElem?_eq_some_getD ho []
      have hrow := hrows o _ hr
      have hsum := feed_forward_sum_loop net.weights l o a.amount_of_neurons g (g.getD o [])
        cur ys hg hr hrow hcur hx
      have hbias : readWeight net.weights l o a.amount_of_neurons =
          some ((g.getD o []).getD a.amount_of_neurons 0) := by
        rw [readWeight_eq hg hr]; exact getElem?_eq_some_getD (by omega) 0
      have hacc : (ys.set o (weightedSum cur (g.getD o []) a.amount_of_neurons))[o]? =
          some (weightedSum cur (g.getD o []) a.amount_of_neurons) := by
        simp [lt_of_getElem? hx]
      simp only [Option.bind_eq_bind] at hsum ⊢
      simp only [ha, hsum, hact, hbias, hacc, Option.some_bind, List.set_set, specNeuron])
    (by
      intro k x hk
      rw [List.getElem?_replicate] at hk
      split at hk
      · exact (Option.some.inj hk).symm
      · cases hk)
    ()
  simp only [List.length_replicate] at h
  rw [h, traverseFrom_fst_eq_map _
    (fun o => specNeuron act cur (g.getD o []) a.amount_of_neurons) (fun _ _ _ => rfl)]
  simp [specLayer]

theorem specLayer_length {F : Type} [Zero F] [Add F] [Mul F] (act : F → F) (n_in n_out : Nat)
    (g : List (List F)) (cur : List F) : (specLayer act n_in n_out g cur).length = n_out := by
  simp [specLayer]

/-- The loop of `feed_forward` over the connections computes `specForward`, and the vector it
leaves has the length of the last layer. -/
theorem feed_forward_connections_loop {F : Type} [Zero F] [Add F] [Mul F] (net : Network F)
    (input : List F) (n : Nat → Nat) (act : Nat → F → F) (hwf : WellFormed net)
    (hn : ∀ (l : Nat) (a : Layer F), net.layers[l]? = some a → a.amount_of_neurons = n l)
    (hact : ∀ (l : Nat) (a : Layer F), 1 ≤ l → net.layers[l]? = some a →
      a.activation = some (act l))
    (hin : input.length = n 0) :
    forLoop (net.amount_of_layers - 1) (fun layer (current_layer : List F) => do
      let next ← net.layers[layer + 1]?
      let next_layer : List F := List.replicate next.amount_of_neurons 0
      forLoop next.amount_of_neurons (fun output_neuron next_layer => do
        let cur ← net.layers[layer]?
        let next_layer ← forLoop cur.amount_of_neurons (fun input_neuron next_layer => do
          let acc ← next_layer[output_neuron]?
          let x ← current_layer[input_neuron]?
          let w ← readWeight net.weights layer output_neuron input_neuron
          some (next_layer.set output_neuron (acc + x * w))) next_layer
        let activation ← next.activation
        let acc ← next_layer[output_neuron]?
        let bias ← readWeight net.weights layer output_neuron cur.amount_of_neurons
        some (next_layer.set output_neuron (activation (acc + bias)))) next_layer) input =
        some (specForward n act net.weights net.amount_of_layers input) ∧
      (specForward n act net.weights net.amount_of_layers input).length =
        n (net.amount_of_layers - 1) := by
  have h := forLoop_traverse_inv
    (fun layer (current_layer : List F) => do
      let next ← net.layers[layer + 1]?
      let next_layer : List F := List.replicate next.amount_of_neurons 0
      forLoop next.amount_of_neurons (fun output_neuron next_layer => do
        let cur ← net.layers[layer]?
        let next_layer ← forLoop cur.amount_of_neurons (fun input_neuron next_layer => do
          let acc ← next_layer[output_neuron]?
          let x ← current_layer[input_neuron]?
          let w ← readWeight net.weights layer output_neuron input_neuron
          some (next_layer.set output_neuron (acc + x * w))) next_layer
        let activation ← next.activation
        let acc ← next_layer[output_neuron]?
        let bias ← readWeight net.weights layer output_neuron cur.amount_of_neurons
        some (next_layer.set output_neuron (activation (acc + bias)))) next_layer)
    (fun (_ : List Nat) (cur : List F) => cur)
    (fun _ (x : Nat) (cur : List F) =>
      (x, specLayer (act (x + 1)) (n x) (n (x + 1)) (net.weights.getD x []) cur))
    (fun l x => x = l ∧ l < net.amount_of_layers - 1)
    (fun l cur => cur.length = n l)
    (List.range (net.amount_of_layers - 1))
    (by
      rintro l zs cur x - - ⟨rfl, hl⟩ hcur
      obtain ⟨a, b, g, ha, hb, hg, hglen, hrows⟩ := wellFormed_group hwf hl
      have hna := hn x a ha
      have hnb := hn (x + 1) b hb
      have hab := hact (x + 1) b (by omega) hb
      have hloop := feed_forward_layer_loop net x a b (act (x + 1)) g cur ha hab hg hglen hrows
        (by rw [hcur, hna])
      refine ⟨?_, by simp [specLayer_length]⟩
      simp only [Option.bind_eq_bind] at hloop ⊢
      simp only [hb, Option.some_bind]
      rw [hloop, hna, hnb, getD_of_getElem? hg])
    (by
      intro k x hk
      have hk1 : k < net.amount_of_layers - 1 := by simpa using lt_of_getElem? hk
      rw [List.getElem?_range hk1] at hk
      exact ⟨(Option.some.inj hk).symm, hk1⟩)
    input (by simpa using hin)
  simp only [List.length_range] at h
  rw [traverseFrom_snd_eq_foldl _
    (fun cur l => specLayer (act (l + 1)) (n l) (n (l + 1)) (net.weights.getD l []) cur)
    (fun _ _ _ => rfl)] at h
  exact h

/-- C1. For every well-formed network with `L ≥ 2` layers, neuron counts `n_0 .. n_{L-1}` and
activations `act_1 .. act_{L-1}` on the non-input layers, and every input vector of length
`n_0`, `feed_forward` returns the vector obtained by starting from the input and, for each
connection `l = 0 .. L-2` in order, replacing the current vector by the vector of length
`n_{l+1}` whose entry `j` is
`act_{l+1}(sum over i < n_l of current[i] * weights[l][j][i] + weights[l][j][n_l])`, the sum
being accumulated from `0` in index order; the result has length `n_{L-1}`. -/
theorem feed_forward_computes_spec {F : Type} [Zero F] [Add F] [Mul F] (net : Network F)
    (input : List F) (n : Nat → Nat) (act : Nat → F → F) (hwf : WellFormed net)
    (hL : 2 ≤ net.amount_of_layers)
    (hn : ∀ (l : Nat) (a : Layer F), net.layers[l]? = some a → a.amount_of_neurons = n l)
    (hact : ∀ (l : Nat) (a : Layer F), 1 ≤ l → net.layers[l]? = some a →
      a.activation = some (act l))
    (hin : input.length = n 0) :
    feed_forward net input = some (specForward n act net.weights net.amount_of_layers input) ∧
      (specForward n act net.weights net.amount_of_layers input).length =
        n (net.amount_of_layers - 1) := by
  have hlen := hwf.1
  have h0 : 0 < net.layers.length := by omega
  have hfirst : net.layers[0]? = some net.layers[0] := List.getElem?_eq_getElem h0
  have hn0 := hn 0 _ hfirst
  obtain ⟨hrun, hI⟩ := feed_forward_connections_loop net input n act hwf hn hact hin
  refine ⟨?_, hI⟩
  have htake : List.take (n 0) input = input := List.take_of_length_le (by omega)
  simp only [Option.bind_eq_bind] at hrun
  simp only [feed_forward, hfirst, Option.bind_eq_bind, Option.some_bind, hn0, hin,
    Nat.le_refl, if_true, htake]
  exact hrun

theorem feed_forward_computes_spec_witness :
    feed_forward exNet [1, 1, 1] = some [54200, 59500] ∧
      specForward exCounts exAct exNet.weights 3 [1, 1, 1] = [54200, 59500] := by
  have h := feed_forward_computes_spec exNet [1, 1, 1] exCounts exAct (by decide) (by decide)
    (by
      intro l a h
      rcases l with _ | _ | _ | l <;> simp [exNet, exLayers] at h <;> subst h <;> rfl)
    (by
      intro l a hl h
      rcases l with _ | _ | _ | l <;> simp [exNet, exLayers] at h hl <;> subst h <;> rfl)
    (by decide)
  have hs : specForward exCounts exAct exNet.weights 3 [1, 1, 1] = [54200, 59500] := by decide
  exact ⟨by rw [h.1]; exact congrArg some hs, hs⟩

/-! ## Zero networks and the input layer's activation -/

theorem getD_zero_of_forall {F : Type} [Zero F] (r : List F) (h : ∀ v ∈ r, v = 0) (i : Nat) :
    r.getD i 0 = 0 := by
  by_cases hi : i < r.length
  · have e := getElem?_eq_some_getD hi (0 : F)
    exact h _ (List.getElem?_mem e)
  · simp [List.getD, List.getElem?_eq_none (Nat.le_of_not_lt hi)]

theorem getD_nil_or_mem {α : Type} (xs : List (List α)) (i : Nat) :
    xs.getD i [] = [] ∨ xs.getD i [] ∈ xs := by
  by_cases hi : i < xs.length
  · exact Or.inr (List.getElem?_mem (getElem?_eq_some_getD hi []))
  · left; simp [List.getD, List.getElem?_eq_none (Nat.le_of_not_lt hi)]

/-- With zero weights the weighted sum is zero. -/
theorem weightedSum_zero {F : Type} [LinearOrderedRing F] (cur row : List F)
    (hrow : ∀ v ∈ row, v = 0) (n : Nat) : weightedSum cur row n = 0 := by
  unfold weightedSum
  have key : ∀ (is : List Nat) (acc : F),
      is.foldl (fun acc i => acc + cur.getD i 0 * row.getD i 0) acc = acc := by
    intro is
    induction is with
    | nil => intro acc; rfl
    | cons i is ih =>
      intro acc
      rw [List.foldl_cons, getD_zero_of_forall row hrow, mul_zero, add_zero, ih]
  exact key _ 0

/-- With zero weights and an activation that maps `0` to `0`, a connection gives zeros. -/
theorem specLayer_zero {F : Type} [LinearOrderedRing F] (f : F → F) (hf : f 0 = 0)
    (n_in n_out : Nat) (g : List (List F)) (hg : ∀ r ∈ g, ∀ v ∈ r, v = 0) (cur : List F) :
    specLayer f n_in n_out g cur = List.replicate n_out 0 := by
  unfold specLayer
  apply List.eq_replicate_iff.mpr
  refine ⟨by simp, ?_⟩
  intro y hy
  obtain ⟨j, _, rfl⟩ := List.mem_map.mp hy
  have hrow : ∀ v ∈ g.getD j [], v = 0 := by
    rcases getD_nil_or_mem g j with h | h
    · rw [h]; intro v hv; cases hv
    · exact hg _ h
  simp only [specNeuron, weightedSum_zero cur _ hrow, getD_zero_of_forall _ hrow, add_zero, hf]

theorem odd_map_zero {F : Type} [LinearOrderedRing F] (f : F → F)
    (hodd : ∀ x, f (-x) = -f x) : f 0 = 0 := by
  have h := hodd 0
  rw [neg_zero] at h
  exact eq_zero_of_neg_eq h.symm

/-- With zero weights and odd activations the specified forward pass gives zeros. -/
theorem specForward_zero {F : Type} [LinearOrderedRing F] (n : Nat → Nat) (act : Nat → F → F)
    (w : Tensor F) (hodd : ∀ l, 1 ≤ l → ∀ x, act l (-x) = -act l x)
    (hw : ∀ g ∈ w, ∀ r ∈ g, ∀ v ∈ r, v = 0) (L : Nat) (hL : 2 ≤ L) (input : List F) :
    specForward n act w L input = List.replicate (n (L - 1)) 0 := by
  unfold specForward
  obtain ⟨k, rfl⟩ : ∃ k, L = k + 2 := ⟨L - 2, by omega⟩
  have hg : ∀ l, ∀ r ∈ w.getD l [], ∀ v ∈ r, v = 0 := by
    intro l
    rcases getD_nil_or_mem w l with h | h
    · rw [h]; intro r hr; cases hr
    · exact hw _ h
  simp only [Nat.add_sub_cancel, show k + 2 - 1 = k + 1 from rfl, List.range_succ,
    List.foldl_append, List.foldl_cons, List.foldl_nil]
  exact specLayer_zero _ (odd_map_zero _ (hodd (k + 1) (by omega))) _ _ _ (hg k) _

/-- The activation `tanh_func` is odd as soon as the library's `tanhf` is. -/
theorem tanh_func_odd {F : Type} [LinearOrderedRing F] (tanhf : F → F)
    (h : ∀ x, tanhf (-x) = -tanhf x) (x : F) : tanh_func tanhf (-x) = -tanh_func tanhf x :=
  h x

/-- C6. For every well-formed architecture with `L ≥ 2` layers, if every weight and bias is
zero, the input vector is `n_0` zeros and the activation of every non-input layer is odd (as
`tanh_func` is), then `feed_forward` returns the vector of `n_{L-1}` zeros. -/
theorem feed_forward_zero {F : Type} [LinearOrderedRing F] (net : Network F)
    (n : Nat → Nat) (act : Nat → F → F) (hwf : WellFormed net) (hL : 2 ≤ net.amount_of_layers)
    (hn : ∀ (l : Nat) (a : Layer F), net.layers[l]? = some a → a.amount_of_neurons = n l)
    (hact : ∀ (l : Nat) (a : Layer F), 1 ≤ l → net.layers[l]? = some a →
      a.activation = some (act l))
    (hodd : ∀ l, 1 ≤ l → ∀ x, act l (-x) = -act l x)
    (hw : ∀ g ∈ net.weights, ∀ r ∈ g, ∀ v ∈ r, v = 0) :
    feed_forward net (List.replicate (n 0) 0) =
      some (List.replicate (n (net.amount_of_layers - 1)) 0) := by
  have hlen := hwf.1
  have h0 : 0 < net.layers.length := by omega
  have hfirst : net.layers[0]? = some net.layers[0] := List.getElem?_eq_getElem h0
  have hn0 := hn 0 _ hfirst
  have hrun := (feed_forward_connections_loop net (List.replicate (n 0) 0) n act hwf hn hact
    (by simp)).1
  rw [specForward_zero n act net.weights hodd hw _ hL] at hrun
  simp only [Option.bind_eq_bind] at hrun
  simp only [feed_forward, hfirst, Option.bind_eq_bind, Option.some_bind, hn0,
    List.length_replicate, Nat.le_refl, if_true, List.take_replicate, Nat.min_self]
  exact hrun

theorem feed_forward_zero_witness :
    feed_forward exFresh [0, 0, 0] = some [0, 0] :=
  feed_forward_zero exFresh exCounts exAct (by decide) (by decide)
    (by
      intro l a h
      rcases l with _ | _ | _ | l <;> simp [exFresh, exLayers] at h <;> subst h <;> rfl)
    (by
      intro l a hl h
      rcases l with _ | _ | _ | l <;> simp [exFresh, exLayers] at h hl <;> subst h <;> rfl)
    (by
      intro l _ x
      unfold exAct
      split <;> simp)
    (by decide)

/-- C7. `feed_forward` never uses the activation of the first (input) layer: replacing
`layers[0].activation` by any function pointer, `NULL` included, changes the result on no
network and no input, undefined behaviour included.  On a well-formed network whose non-input
layers have the activations `act_1 .. act_{L-1}`, the result is therefore the specified one,
in which connection `l` is passed through `act_{l+1}`, the activation of its destination layer,
and through nothing else. -/
theorem feed_forward_ignores_input_activation {F : Type} [Zero F] [Add F] [Mul F]
    (net : Network F) (activation : Option (F → F)) (input : List F) :
    feed_forward (withInputActivation activation net) input = feed_forward net input ∧
      ∀ (n : Nat → Nat) (act : Nat → F → F), WellFormed net → 2 ≤ net.amount_of_layers →
        (∀ (l : Nat) (a : Layer F), net.layers[l]? = some a → a.amount_of_neurons = n l) →
        (∀ (l : Nat) (a : Layer F), 1 ≤ l → net.layers[l]? = some a →
          a.activation = some (act l)) →
        input.length = n 0 →
        feed_forward (withInputActivation activation net) input =
          some (specForward n act net.weights net.amount_of_layers input) := by
  have key : feed_forward (withInputActivation activation net) input =
      feed_forward net input := by
    obtain ⟨L, layers, w⟩ := net
    cases layers with
    | nil => rfl
    | cons first rest =>
      simp only [feed_forward, withInputActivation, List.getElem?_cons_zero,
        List.getElem?_cons_succ, Option.bind_eq_bind, Option.some_bind]
      split
      · congr 1
        funext layer current_layer
        congr 1
        funext next
        congr 1
        funext output_neuron next_layer
        cases layer <;>
          simp only [List.getElem?_cons_zero, List.getElem?_cons_succ, Option.some_bind]
      · rfl
  refine ⟨key, ?_⟩
  intro n act hwf hL hn hact hin
  rw [key]
  have hlen := hwf.1
  have h0 : 0 < net.layers.length := by omega
  have hfirst : net.layers[0]? = some net.layers[0] := List.getElem?_eq_getElem h0
  have hn0 := hn 0 _ hfirst
  have hrun := (feed_forward_connections_loop net input n act hwf hn hact hin).1
  have htake : List.take (n 0) input = input := List.take_of_length_le (by omega)
  simp only [Option.bind_eq_bind] at hrun
  simp only [feed_forward, hfirst, Option.bind_eq_bind, Option.some_bind, hn0, hin,
    Nat.le_refl, if_true, htake]
  exact hrun

theorem feed_forward_ignores_input_activation_witness :
    feed_forward (withInputActivation (some (fun x => x + 7)) exNet) [1, 1, 1] =
        feed_forward exNet [1, 1, 1] ∧
      feed_forward (withInputActivation (some (fun x => x + 7)) exNet) [1, 1, 1] =
        some (specForward exCounts exAct exNet.weights 3 [1, 1, 1]) :=
  ⟨(feed_forward_ignores_input_activation exNet (some (fun x => x + 7)) [1, 1, 1]).1,
    (feed_forward_ignores_input_activation exNet (some (fun x => x + 7)) [1, 1, 1]).2
      exCounts exAct (by decide) (by decide)
      (by
        intro l a h
        rcases l with _ | _ | _ | l <;> simp [exNet, exLayers] at h <;> subst h <;> rfl)
      (by
        intro l a hl h
        rcases l with _ | _ | _ | l <;> simp [exNet, exLayers] at h hl <;> subst h <;> rfl)
      (by decide)⟩

/-! ## `saveWeights` -/

theorem foldl_append_flatten {α β : Type} (f : α → List β) (xs : List α) :
    ∀ (init : List β), xs.foldl (fun acc x => acc ++ f x) init = init ++ (xs.map f).flatten := by
  induction xs with
  | nil => intro init; simp
  | cons x xs ih => intro init; simp [ih, List.append_assoc]

/-- The loop of `saveWeights` over the rows of one group appends the rows to the file. -/
theorem saveWeights_rows_loop {F : Type} (net : Network F) (l : Nat) (a : Layer F)
    (g : List (List F)) (file : List F) (ha : net.layers[l]? = some a)
    (hg : net.weights[l]? = some g)
    (hrows : ∀ (o : Nat) (r : List F), g[o]? = some r → r.length = a.amount_of_neurons + 1) :
    forLoop g.length (fun output_neuron file => do
        let group ← net.weights[l]?
        let row ← group[output_neuron]?
        let cur ← net.layers[l]?
        fwrite row (cur.amount_of_neurons + 1) file) file = some (file ++ g.flatten) := by
  have h := forLoop_traverse
    (fun output_neuron file => do
        let group ← net.weights[l]?
        let row ← group[output_neuron]?
        let cur ← net.layers[l]?
        fwrite row (cur.amount_of_neurons + 1) file)
    (fun (_ : List (List F)) (file : List F) => file)
    (fun _ (r : List F) (file : List F) => (r, file ++ r))
    (fun o r => g[o]? = some r) g
    (by
      intro o ys file r _ _ hr
      have hlen := hrows o r hr
      simp only [Option.bind_eq_bind, hg, hr, ha, Option.some_bind, fwrite]
      rw [if_pos (by omega), List.take_of_length_le (by omega)])
    (fun _ _ h => h) file
  rw [h, traverseFrom_snd_eq_foldl _ (fun file r => file ++ r) (fun _ _ _ => rfl),
    foldl_append_flatten (fun r => r)]
  simp

/-- The loops of `saveWeights` write the weights in save order. -/
theorem saveWeights_loop {F : Type} (net : Network F) (hwf : WellFormed net) :
    forLoop (net.amount_of_layers - 1) (fun layer file => do
      let next ← net.layers[layer + 1]?
      forLoop next.amount_of_neurons (fun output_neuron file => do
        let group ← net.weights[layer]?
        let row ← group[output_neuron]?
        let cur ← net.layers[layer]?
        fwrite row (cur.amount_of_neurons + 1) file) file) [] =
      some (flatWeights net.weights) := by
  have hlen : net.weights.length = net.amount_of_layers - 1 := by
    rw [shape_length hwf.2, hwf.1]
  have h := forLoop_traverse
    (fun layer file => do
      let next ← net.layers[layer + 1]?
      forLoop next.amount_of_neurons (fun output_neuron file => do
        let group ← net.weights[layer]?
        let row ← group[output_neuron]?
        let cur ← net.layers[layer]?
        fwrite row (cur.amount_of_neurons + 1) file) file)
    (fun (_ : Tensor F) (file : List F) => file)
    (fun _ (g : List (List F)) (file : List F) => (g, file ++ g.flatten))
    (fun l g => net.weights[l]? = some g) net.weights
    (by
      intro l ys file g _ _ hg
      have hl : l < net.amount_of_layers - 1 := by rw [← hlen]; exact lt_of_getElem? hg
      obtain ⟨a, b, g', ha, hb, hg', hglen, hrows⟩ := wellFormed_group hwf hl
      rw [hg] at hg'
      cases hg'
      have := saveWeights_rows_loop net l a g file ha hg hrows
      simp only [Option.bind_eq_bind] at this ⊢
      simp only [hb, Option.some_bind, ← hglen, this])
    (fun _ _ h => h) []
  rw [hlen] at h
  have hf := foldl_append_flatten (fun g : List (List F) => g.flatten) net.weights []
  simp only [List.nil_append] at hf
  rw [h, traverseFrom_snd_eq_foldl _ (fun file g => file ++ g.flatten) (fun _ _ _ => rfl), hf]
  simp [flatWeights, List.flatten_flatten]

/-- On a well-formed network `saveWeights` succeeds as soon as the file opens, and the file
then holds the weights in save order. -/
theorem saveWeights_eq {F : Type} (net : Network F) (fs : FileSystem F) (filename : String)
    (hwf : WellFormed net) (hopen : fs.writable filename = true) :
    saveWeights net fs filename = some (1, fs.store filename (flatWeights net.weights)) := by
  have h := saveWeights_loop net hwf
  simp only [Option.bind_eq_bind] at h
  simp [saveWeights, hopen, h]

theorem sum_expectedShape (xs ys : List Nat) :
    (List.zipWith (fun n_in n_out => List.replicate n_out (n_in + 1)) xs ys).flatten.sum =
      (List.zipWith (fun n_in n_out => n_out * (n_in + 1)) xs ys).sum := by
  induction xs generalizing ys with
  | nil => simp
  | cons x xs ih =>
    cases ys with
    | nil => simp
    | cons y ys => simp [List.sum_append, ih]

/-- The number of weights of a tensor of the expected shape. -/
theorem flatWeights_length {F : Type} {layers : List (Layer F)} {w : Tensor F}
    (h : shapeOf w = expectedShape (neuronCounts layers)) :
    (flatWeights w).length = weightCount (neuronCounts layers) := by
  have h1 : (flatWeights w).length = (shapeOf w).flatten.sum := by
    simp [flatWeights, shapeOf, List.length_flatten, List.map_flatten]
  rw [h1, h, expectedShape, sum_expectedShape, weightCount]

/-! ## `loadWeights` -/

theorem traverseFrom_map_eq {α β σ : Type} (op : Nat → α → σ → α × σ) (f : α → β)
    (hop : ∀ i x s, f (op i x s).1 = f x) (xs : List α) :
    ∀ (i : Nat) (s : σ), (traverseFrom op i xs s).1.map f = xs.map f := by
  induction xs with
  | nil => intro i s; rfl
  | cons x xs ih => intro i s; simp [traverseFrom, ih, hop]

theorem loadRow_length {F : Type} (row file : List F) :
    (loadRow row file).1.length = row.length := by
  simp [loadRow]; omega

theorem loadRow_isLoader {F : Type} : IsLoader (fun r : List F => r) loadRow := by
  intro x file; simp [loadRow]

/-- Filling the elements of a list one after the other fills the list. -/
theorem traverse_isLoader {α F : Type} (fl : α → List F) (op : α → List F → α × List F)
    (hop : IsLoader fl op) :
    IsLoader (fun xs : List α => (xs.map fl).flatten)
      (fun xs file => traverseFrom (fun _ => op) 0 xs file) := by
  have key : ∀ (xs : List α) (i : Nat) (file : List F),
      ((traverseFrom (fun _ => op) i xs file).1.map fl).flatten =
          file.take ((xs.map fl).flatten).length ++ ((xs.map fl).flatten).drop file.length ∧
        (traverseFrom (fun _ => op) i xs file).2 = file.drop ((xs.map fl).flatten).length := by
    intro xs
    induction xs with
    | nil => intro i file; simp [traverseFrom]
    | cons x xs ih =>
      intro i file
      obtain ⟨h1, h2⟩ := hop x file
      obtain ⟨h3, h4⟩ := ih (i + 1) (op x file).2
      rw [h2] at h3 h4
      simp only [traverseFrom, List.map_cons, List.flatten_cons, h1, h3, h4, h2,
        List.length_append, List.take_add, List.drop_drop, List.length_drop,
        List.drop_append_eq_append_drop]
      refine ⟨?_, trivial⟩
      rcases Nat.le_total file.length (fl x).length with hle | hle
      · have e1 : List.drop (fl x).length file = [] := List.drop_eq_nil_of_le hle
        simp [e1, Nat.sub_eq_zero_of_le hle]
      · have e2 : List.drop file.length (fl x) = [] := List.drop_eq_nil_of_le hle
        simp [e2]
  intro xs file
  exact key xs 0 file

theorem fread_eq_loadRow {F : Type} (row file : List F) (count : Nat)
    (h : row.length = count) : fread row count file = some (loadRow row file) := by
  subst h
  have h1 : (List.take row.length file).length ≤ row.length := by simp
  simp only [fread, h1, if_true, loadRow, List.length_take]
  rcases Nat.le_total file.length row.length with hle | hle
  · rw [Nat.min_eq_right hle, if_pos hle]
  · rw [Nat.min_eq_left hle, List.drop_eq_nil_of_le (Nat.le_refl _),
      List.drop_eq_nil_of_le hle, if_pos (Nat.le_refl _)]

/-- The loops of `loadWeights` fill the rows one after the other from the stream. -/
theorem loadWeights_loop {F : Type} (net : Network F) (hwf : WellFormed net) (file : List F) :
    forLoop (net.amount_of_layers - 1) (fun layer st => do
      let next ← net.layers[layer + 1]?
      forLoop next.amount_of_neurons (fun output_neuron st => do
        let group ← st.1[layer]?
        let row ← group[output_neuron]?
        let cur ← net.layers[layer]?
        let (row, file) ← fread row (cur.amount_of_neurons + 1) st.2
        some (st.1.set layer (group.set output_neuron row), file)) st) (net.weights, file) =
      some (loadTensor net.weights file) := by
  have hlen : net.weights.length = net.amount_of_layers - 1 := by
    rw [shape_length hwf.2, hwf.1]
  rw [← hlen]
  refine groups_loop _ (fun _ g file => traverseFrom (fun _ => loadRow) 0 g file)
    (fun l g => ∃ a b : Layer F, net.layers[l]? = some a ∧ net.layers[l + 1]? = some b ∧
      g.length = b.amount_of_neurons ∧
      ∀ (o : Nat) (r : List F), g[o]? = some r → r.length = a.amount_of_neurons + 1)
    ?_ net.weights file ?_
  · rintro l w g s hg ⟨a, b, ha, hb, hglen, hrows⟩
    have := rows_loop l (fun output_neuron (st : Tensor F × List F) => do
        let group ← st.1[l]?
        let row ← group[output_neuron]?
        let cur ← net.layers[l]?
        let (row, file) ← fread row (cur.amount_of_neurons + 1) st.2
        some (st.1.set l (group.set output_neuron row), file))
      (fun _ => loadRow) (fun _ r => r.length = a.amount_of_neurons + 1)
      (by
        intro o w g r s hg hr hlen
        simp only [Option.bind_eq_bind, hg, hr, ha, Option.some_bind,
          fread_eq_loadRow r s _ hlen])
      w g s hg hrows
    simp only [Option.bind_eq_bind] at this ⊢
    simp only [hb, Option.some_bind, ← hglen, this]
  · intro l g hg
    have hl : l < net.amount_of_layers - 1 := by rw [← hlen]; exact lt_of_getElem? hg
    obtain ⟨a, b, g', ha, hb, hg', hglen, hrows⟩ := wellFormed_group hwf hl
    rw [hg] at hg'
    cases hg'
    exact ⟨a, b, ha, hb, hglen, hrows⟩

/-- `loadWeights` on a well-formed network whose file opens. -/
theorem loadWeights_eq {F : Type} (net : Network F) (fs : FileSystem F) (filename : String)
    (file : List F) (hwf : WellFormed net) (hopen : fs.files filename = some file) :
    loadWeights net fs filename =
      some (1, { net with weights := (loadTensor net.weights file).1 }) := by
  have h := loadWeights_loop net hwf file
  simp only [Option.bind_eq_bind] at h
  simp only [loadWeights, hopen, Option.bind_eq_bind, h, Option.some_bind]

theorem loadTensor_shape {F : Type} (w : Tensor F) (file : List F) :
    shapeOf (loadTensor w file).1 = shapeOf w := by
  unfold shapeOf loadTensor
  apply traverseFrom_map_eq
  intro i g s
  apply traverseFrom_map_eq
  intro j r s
  exact loadRow_length r s

/-- The weights after a load, in save order: the values of the file, followed by the old
weights the file did not reach. -/
theorem loadTensor_flat {F : Type} (w : Tensor F) (file : List F) :
    flatWeights (loadTensor w file).1 =
      file.take (flatWeights w).length ++ (flatWeights w).drop file.length := by
  have h := (traverse_isLoader _ _ (traverse_isLoader _ _ (loadRow_isLoader (F := F))) w file).1
  simpa [flatWeights, loadTensor, List.flatten_flatten] using h

/-! ## `initNetwork` -/

theorem neuronCounts_getD {F : Type} {layers : List (Layer F)} {l : Nat} {a : Layer F}
    (h : layers[l]? = some a) : (neuronCounts layers).getD l 0 = a.amount_of_neurons := by
  simp [neuronCounts, List.getD, h]

/-- The loop of `initNetwork` over the rows of one group allocates every row. -/
theorem initNetwork_rows_loop {F : Type} (junk : Nat → Nat → Nat → F) (layers : List (Layer F))
    (l : Nat) (a b : Layer F) (ha : layers[l]? = some a) (hb : layers[l + 1]? = some b)
    (ys : Tensor F) (hl : l < ys.length) :
    forLoop b.amount_of_neurons (fun output_neuron weights => do
        let cur ← layers[l]?
        let group ← weights[l]?
        if output_neuron < group.length then
          some (weights.set l (group.set output_neuron
            ((List.range (cur.amount_of_neurons + 1)).map (junk l output_neuron))))
        else none) (ys.set l (List.replicate b.amount_of_neurons [])) =
      some (ys.set l (initGroup junk (neuronCounts layers) l)) := by
  have h := forLoop_traverse
    (fun output_neuron (weights : Tensor F) => do
        let cur ← layers[l]?
        let group ← weights[l]?
        if output_neuron < group.length then
          some (weights.set l (group.set output_neuron
            ((List.range (cur.amount_of_neurons + 1)).map (junk l output_neuron))))
        else none)
    (fun (zs : List (List F)) (_ : Unit) => ys.set l zs)
    (fun o (_ : List F) (_ : Unit) => ((List.range (a.amount_of_neurons + 1)).map (junk l o), ()))
    (fun _ _ => True) (List.replicate b.amount_of_neurons ([] : List F))
    (by
      intro o zs _ x _ hx _
      have ho := lt_of_getElem? hx
      have hz : (ys.set l zs)[l]? = some zs := by simp [hl]
      simp only [Option.bind_eq_bind, ha, hz, Option.some_bind, ho, if_true, List.set_set])
    (fun _ _ _ => trivial) ()
  simp only [List.length_replicate] at h
  rw [h, traverseFrom_fst_eq_map _
    (fun o => (List.range (a.amount_of_neurons + 1)).map (junk l o)) (fun _ _ _ => rfl)]
  simp only [initGroup, neuronCounts_getD ha, neuronCounts_getD hb, List.length_replicate,
    Nat.zero_add]

/-- The tensor `initNetwork` builds. -/
theorem initNetwork_eq {F : Type} (junk : Nat → Nat → Nat → F) (layers : List (Layer F)) :
    initNetwork junk layers layers.length =
      some { amount_of_layers := layers.length, layers := layers,
             weights := (List.range (layers.length - 1)).map
               (initGroup junk (neuronCounts layers)) } := by
  have h := forLoop_traverse
    (fun layer (weights : Tensor F) => do
      let next ← layers[layer + 1]?
      if layer < weights.length then
        let weights := weights.set layer (List.replicate next.amount_of_neurons [])
        forLoop next.amount_of_neurons (fun output_neuron weights => do
          let cur ← layers[layer]?
          let group ← weights[layer]?
          if output_neuron < group.length then
            some (weights.set layer (group.set output_neuron
              ((List.range (cur.amount_of_neurons + 1)).map (junk layer output_neuron))))
          else none) weights
      else none)
    (fun (ys : Tensor F) (_ : Unit) => ys)
    (fun l (_ : List (List F)) (_ : Unit) => (initGroup junk (neuronCounts layers) l, ()))
    (fun _ _ => True) (List.replicate (layers.length - 1) ([] : List (List F)))
    (by
      intro l ys _ x hys hx _
      have hl := lt_of_getElem? hx
      have hl2 : l < layers.length - 1 := by
        rw [hys, List.length_replicate] at hl; exact hl
      obtain ⟨a, b, ha, hb⟩ := layers_lookup layers l hl2
      have := initNetwork_rows_loop junk layers l a b ha hb ys hl
      simp only [Option.bind_eq_bind] at this ⊢
      simp only [hb, Option.some_bind, hl, if_true, this])
    (fun _ _ _ => trivial) ()
  simp only [List.length_replicate] at h
  rw [traverseFrom_fst_eq_map _ (fun l => initGroup junk (neuronCounts layers) l)
    (fun _ _ _ => rfl)] at h
  simp only [Option.bind_eq_bind] at h
  simp only [initNetwork, Option.bind_eq_bind, h, Option.some_bind, List.length_replicate,
    Nat.zero_add]

theorem expectedShape_eq_map (counts : List Nat) :
    expectedShape counts = (List.range (counts.length - 1)).map
      (fun l => List.replicate (counts.getD (l + 1) 0) (counts.getD l 0 + 1)) := by
  apply List.ext_getElem?
  intro l
  by_cases hl : l < counts.length - 1
  · have ha : counts[l]? = some counts[l] := List.getElem?_eq_getElem (by omega)
    have hb : counts[l + 1]? = some counts[l + 1] := List.getElem?_eq_getElem (by omega)
    rw [expectedShape_getElem? counts l _ _ ha hb]
    simp [List.getElem?_range hl, List.getD, ha, hb]
  · have h1 : (expectedShape counts)[l]? = none := by
      apply List.getElem?_eq_none; rw [expectedShape_length]; omega
    rw [h1]
    symm
    apply List.getElem?_eq_none
    simp; omega

/-- The tensor `initNetwork` builds has the shape of the layer sequence. -/
theorem initNetwork_shape_eq {F : Type} (junk : Nat → Nat → Nat → F) (layers : List (Layer F)) :
    shapeOf ((List.range (layers.length - 1)).map (initGroup junk (neuronCounts layers))) =
      expectedShape (neuronCounts layers) := by
  rw [expectedShape_eq_map]
  simp [shapeOf, initGroup, neuronCounts, Function.comp_def]

/-! ## Save followed by load -/

theorem flatten_inj_of_lengths {α : Type} : ∀ (xs ys : List (List α)),
    xs.map List.length = ys.map List.length → xs.flatten = ys.flatten → xs = ys := by
  intro xs
  induction xs with
  | nil =>
    intro ys hlen _
    cases ys with
    | nil => rfl
    | cons y ys => simp at hlen
  | cons x xs ih =>
    intro ys hlen hflat
    cases ys with
    | nil => simp at hlen
    | cons y ys =>
      simp only [List.map_cons, List.cons.injEq] at hlen
      simp only [List.flatten_cons] at hflat
      obtain ⟨h1, h2⟩ := List.append_inj hflat hlen.1
      rw [h1, ih ys hlen.2 h2]

/-- Two tensors of the same shape that hold the same weights in save order are equal. -/
theorem tensor_eq_of_shape_of_flat {F : Type} : ∀ (w w' : Tensor F),
    shapeOf w = shapeOf w' → flatWeights w = flatWeights w' → w = w' := by
  intro w
  induction w with
  | nil =>
    intro w' hshape _
    cases w' with
    | nil => rfl
    | cons g' w' => simp [shapeOf] at hshape
  | cons g w ih =>
    intro w' hshape hflat
    cases w' with
    | nil => simp [shapeOf] at hshape
    | cons g' w' =>
      simp only [shapeOf, List.map_cons, List.cons.injEq] at hshape
      simp only [flatWeights, List.flatten_cons, List.flatten_append] at hflat
      have hlen : g.flatten.length = g'.flatten.length := by
        rw [List.length_flatten, List.length_flatten, hshape.1]
      obtain ⟨h1, h2⟩ := List.append_inj hflat hlen
      rw [flatten_inj_of_lengths g g' hshape.1 h1, ih w' hshape.2 h2]

/-- A successful `saveWeights` on a well-formed network has opened its file. -/
theorem writable_of_saveWeights {F : Type} {net : Network F} {fs fs' : FileSystem F}
    {filename : String} (h : saveWeights net fs filename = some (1, fs')) :
    fs.writable filename = true := by
  cases hw : fs.writable filename with
  | true => rfl
  | false => simp [saveWeights, hw] at h

/-- Loading a file that holds the weights of a tensor of the same shape gives that tensor. -/
theorem loadTensor_of_saved {F : Type} (w fresh : Tensor F) (hshape : shapeOf fresh = shapeOf w) :
    (loadTensor fresh (flatWeights w)).1 = w := by
  apply tensor_eq_of_shape_of_flat
  · rw [loadTensor_shape, hshape]
  · have hlen : (flatWeights fresh).length = (flatWeights w).length := by
      have e : ∀ t : Tensor F, (flatWeights t).length = (shapeOf t).flatten.sum := by
        intro t; simp [flatWeights, shapeOf, List.length_flatten, List.map_flatten]
      rw [e, e, hshape]
    rw [loadTensor_flat, hlen, List.take_of_length_le (Nat.le_refl _),
      List.drop_eq_nil_of_le (Nat.le_of_eq hlen), List.append_nil]

/-! ## The weight codec and construction: main results -/

/-- C2. Round trip: when `saveWeights` succeeds on a well-formed network and `loadWeights` is
then run on the same file name into a network freshly built by `initNetwork` from the same
layer sequence, whatever `malloc` left in its rows, `loadWeights` succeeds (returns 1) and the
loaded tensor is the saved one, bias slots included. -/
theorem save_load_round_trip {F : Type} (net fresh : Network F) (fs fs' : FileSystem F)
    (filename : String) (junk : Nat → Nat → Nat → F) (hwf : WellFormed net)
    (hsave : saveWeights net fs filename = some (1, fs'))
    (hfresh : initNetwork junk net.layers net.amount_of_layers = some fresh) :
    ∃ loaded, loadWeights fresh fs' filename = some (1, loaded) ∧
      loaded.weights = net.weights := by
  have hopen := writable_of_saveWeights hsave
  rw [saveWeights_eq net fs filename hwf hopen] at hsave
  have hfs : fs' = fs.store filename (flatWeights net.weights) := by
    simpa using hsave.symm
  rw [hwf.1, initNetwork_eq] at hfresh
  have hfr := (Option.some.inj hfresh).symm
  have hshape : shapeOf fresh.weights = shapeOf net.weights := by
    rw [hfr, hwf.2]; exact initNetwork_shape_eq junk net.layers
  have hwf' : WellFormed fresh := by
    constructor
    · rw [hfr]
    · rw [hshape, hwf.2, hfr]
  have hfile : fs'.files filename = some (flatWeights net.weights) := by
    simp [hfs, FileSystem.store]
  refine ⟨_, loadWeights_eq fresh fs' filename _ hwf' hfile, ?_⟩
  exact loadTensor_of_saved net.weights fresh.weights hshape

/-- C3. For a layer sequence with `L ≥ 2` layers and neuron counts `n_0 .. n_{L-1}`,
`initNetwork` returns a network whose tensor has exactly `L - 1` connection groups, group `i`
has exactly `n_{i+1}` rows and every row of group `i` has exactly `n_i + 1` entries; the
network is well-formed.  (The counts need not be positive for this.) -/
theorem initNetwork_tensor_shape {F : Type} (junk : Nat → Nat → Nat → F)
    (layers : List (Layer F)) (hL : 2 ≤ layers.length) :
    ∃ net, initNetwork junk layers layers.length = some net ∧ WellFormed net ∧
      net.layers = layers ∧ net.weights.length = layers.length - 1 ∧
      ∀ (i : Nat) (a b : Layer F), layers[i]? = some a → layers[i + 1]? = some b →
        ∃ g, net.weights[i]? = some g ∧ g.length = b.amount_of_neurons ∧
          ∀ r ∈ g, r.length = a.amount_of_neurons + 1 := by
  have hshape := initNetwork_shape_eq junk layers
  refine ⟨_, initNetwork_eq junk layers, ⟨rfl, hshape⟩, rfl, by simp, ?_⟩
  intro i a b ha hb
  have hi : i < layers.length - 1 := by
    have := lt_of_getElem? hb
    omega
  have hg : ((List.range (layers.length - 1)).map (initGroup junk (neuronCounts layers)))[i]? =
      some (initGroup junk (neuronCounts layers) i) := by
    simp [List.getElem?_range hi]
  refine ⟨_, hg, ?_⟩
  obtain ⟨h1, h2⟩ := shape_group hshape hg ha hb
  refine ⟨h1, ?_⟩
  intro r hr
  obtain ⟨o, ho, hro⟩ := List.getElem_of_mem hr
  exact h2 o r (by rw [List.getElem?_eq_getElem ho, hro])

/-- C4. When the file opens, `saveWeights` on a well-formed network returns 1 and the file
then holds exactly the concatenation of the weight rows, in ascending layer order and within
a layer in ascending output-neuron order, every row with its `n_layer + 1` values in index
order (bias last): `sum over l of n_{l+1} * (n_l + 1)` values, nothing before, between or
after them. -/
theorem saveWeights_file_content {F : Type} (net : Network F) (fs : FileSystem F)
    (filename : String) (hwf : WellFormed net) (hopen : fs.writable filename = true) :
    ∃ fs', saveWeights net fs filename = some (1, fs') ∧
      fs'.files filename = some (net.weights.flatten.flatten) ∧
      (net.weights.flatten.flatten).length = weightCount (neuronCounts net.layers) := by
  refine ⟨_, saveWeights_eq net fs filename hwf hopen, ?_, flatWeights_length hwf.2⟩
  simp [FileSystem.store, flatWeights]

/-- C5. When the file cannot be opened, `loadWeights` returns 0 and the network is unchanged;
`saveWeights` returns 0 when its file cannot be opened (and the files are unchanged); when its
file opens, `saveWeights` returns 1 on every well-formed network, and never returns 0. -/
theorem open_failure_codes {F : Type} (net : Network F) (fs : FileSystem F)
    (filename : String) :
    (fs.files filename = none → loadWeights net fs filename = some (0, net)) ∧
      (fs.writable filename = false → saveWeights net fs filename = some (0, fs)) ∧
      (fs.writable filename = true → WellFormed net →
        ∃ fs', saveWeights net fs filename = some (1, fs')) ∧
      (fs.writable filename = true →
        ∀ r, saveWeights net fs filename = some r → r.1 = 1) := by
  refine ⟨?_, ?_, ?_, ?_⟩
  · intro h; simp [loadWeights, h]
  · intro h; simp [saveWeights, h]
  · intro h hwf; exact ⟨_, saveWeights_eq net fs filename hwf h⟩
  · intro h r hr
    simp only [saveWeights, h, Bool.true_eq_false, if_false, Option.bind_eq_bind] at hr
    cases hloop : forLoop (net.amount_of_layers - 1) (fun layer file =>
        (net.layers[layer + 1]?).bind fun next =>
          forLoop next.amount_of_neurons (fun output_neuron file =>
            (net.weights[layer]?).bind fun group =>
              (group[output_neuron]?).bind fun row =>
                (net.layers[layer]?).bind fun cur =>
                  fwrite row (cur.amount_of_neurons + 1) file) file) [] with
    | none => rw [hloop] at hr; simp at hr
    | some file => rw [hloop] at hr; simp at hr; rw [← hr]

theorem save_load_round_trip_witness :
    saveWeights exNet exFs "adam.bin" = some (1, exFs.store "adam.bin" exFile) ∧
      initNetwork (fun _ _ _ => 0) exNet.layers exNet.amount_of_layers = some exFresh ∧
      ∃ loaded, loadWeights exFresh (exFs.store "adam.bin" exFile) "adam.bin" =
        some (1, loaded) ∧ loaded.weights = exNet.weights :=
  ⟨rfl, rfl, save_load_round_trip exNet exFresh exFs (exFs.store "adam.bin" exFile) "adam.bin"
    (fun _ _ _ => 0) (by decide) rfl rfl⟩

theorem initNetwork_tensor_shape_witness :
    ∃ net, initNetwork (fun _ _ _ => (0 : Int)) exLayers 3 = some net ∧ WellFormed net ∧
      net.layers = exLayers ∧ net.weights.length = 2 ∧
      ∀ (i : Nat) (a b : Layer Int), exLayers[i]? = some a → exLayers[i + 1]? = some b →
        ∃ g, net.weights[i]? = some g ∧ g.length = b.amount_of_neurons ∧
          ∀ r ∈ g, r.length = a.amount_of_neurons + 1 :=
  initNetwork_tensor_shape (fun _ _ _ => (0 : Int)) exLayers (by decide)

theorem saveWeights_file_content_witness :
    ∃ fs', saveWeights exNet exFs "adam.bin" = some (1, fs') ∧
      fs'.files "adam.bin" = some exFile ∧ exFile.length = 4 * (3 + 1) + 2 * (4 + 1) :=
  saveWeights_file_content exNet exFs "adam.bin" (by decide) rfl

theorem open_failure_codes_witness :
    loadWeights exNet exFs "adam.bin" = some (0, exNet) ∧
      saveWeights exNet ⟨fun _ => none, fun _ => false⟩ "adam.bin" =
        some (0, ⟨fun _ => none, fun _ => false⟩) ∧
      ∃ fs', saveWeights exNet exFs "adam.bin" = some (1, fs') :=
  ⟨(open_failure_codes exNet exFs "adam.bin").1 rfl,
    (open_failure_codes exNet ⟨fun _ => none, fun _ => false⟩ "adam.bin").2.1 rfl,
    (open_failure_codes exNet exFs "adam.bin").2.2.1 rfl (by decide)⟩

/-! ## IEEE 754 rounding -/

/-- The absolute value of a rational in terms of its numerator and denominator. -/
theorem abs_eq_natAbs_div_den (x : ℚ) : |x| = (x.num.natAbs : ℚ) / (x.den : ℚ) := by
  have h := Rat.num_div_den x
  have hd : (0 : ℚ) < (x.den : ℚ) := by exact_mod_cast x.den_pos
  conv_lhs => rw [← h]
  rw [abs_div, abs_of_pos hd]
  rw [← Int.cast_abs, Nat.cast_natAbs]

/-- The binade of a nonzero `x`: `2 ^ e ≤ |x| < 2 ^ (e + 1)` for `e = binaryExponent x`. -/
theorem binaryExponent_spec (x : ℚ) (hx : x ≠ 0) :
    (2 : ℚ) ^ binaryExponent x ≤ |x| ∧ |x| < (2 : ℚ) ^ (binaryExponent x + 1) := by
  have hn : x.num.natAbs ≠ 0 := by
    simpa [Int.natAbs_eq_zero] using hx
  have hd : x.den ≠ 0 := x.den_nz
  have hdpos : (0 : ℚ) < (x.den : ℚ) := by exact_mod_cast x.den_pos
  have h1 : ((2 : ℚ) ^ (Nat.log 2 x.num.natAbs)) ≤ (x.num.natAbs : ℚ) := by
    exact_mod_cast Nat.pow_log_le_self 2 hn
  have h2 : (x.num.natAbs : ℚ) < (2 : ℚ) ^ (Nat.log 2 x.num.natAbs + 1) := by
    exact_mod_cast Nat.lt_pow_succ_log_self (by norm_num) x.num.natAbs
  have h3 : ((2 : ℚ) ^ (Nat.log 2 x.den)) ≤ (x.den : ℚ) := by
    exact_mod_cast Nat.pow_log_le_self 2 hd
  have h4 : (x.den : ℚ) < (2 : ℚ) ^ (Nat.log 2 x.den + 1) := by
    exact_mod_cast Nat.lt_pow_succ_log_self (by norm_num) x.den
  have habs := abs_eq_natAbs_div_den x
  have h2ne : (2 : ℚ) ≠ 0 := by norm_num
  have hupper : |x| < (2 : ℚ) ^ ((Nat.log 2 x.num.natAbs : ℤ) - (Nat.log 2 x.den : ℤ) + 1) := by
    rw [habs, div_lt_iff₀ hdpos]
    have : (2 : ℚ) ^ ((Nat.log 2 x.num.natAbs : ℤ) - (Nat.log 2 x.den : ℤ) + 1) *
        (2 : ℚ) ^ (Nat.log 2 x.den) = (2 : ℚ) ^ (Nat.log 2 x.num.natAbs + 1) := by
      rw [← zpow_natCast, ← zpow_natCast, ← zpow_add₀ h2ne]
      congr 1
      push_cast
      ring
    have hstep : (2 : ℚ) ^ ((Nat.log 2 x.num.natAbs : ℤ) - (Nat.log 2 x.den : ℤ) + 1) *
        (2 : ℚ) ^ (Nat.log 2 x.den) ≤
          (2 : ℚ) ^ ((Nat.log 2 x.num.natAbs : ℤ) - (Nat.log 2 x.den : ℤ) + 1) * (x.den : ℚ) :=
      mul_le_mul_of_nonneg_left h3 (by positivity)
    exact lt_of_lt_of_le (h2.trans_le this.ge) hstep
  have hlower : (2 : ℚ) ^ ((Nat.log 2 x.num.natAbs : ℤ) - (Nat.log 2 x.den : ℤ) - 1) ≤ |x| := by
    rw [habs, le_div_iff₀ hdpos]
    have : (2 : ℚ) ^ ((Nat.log 2 x.num.natAbs : ℤ) - (Nat.log 2 x.den : ℤ) - 1) *
        (2 : ℚ) ^ (Nat.log 2 x.den + 1) = (2 : ℚ) ^ (Nat.log 2 x.num.natAbs) := by
      rw [← zpow_natCast, ← zpow_natCast, ← zpow_add₀ h2ne]
      congr 1
      push_cast
      ring
    have hstep : (2 : ℚ) ^ ((Nat.log 2 x.num.natAbs : ℤ) - (Nat.log 2 x.den : ℤ) - 1) *
        (x.den : ℚ) ≤ (2 : ℚ) ^ ((Nat.log 2 x.num.natAbs : ℤ) - (Nat.log 2 x.den : ℤ) - 1) *
          (2 : ℚ) ^ (Nat.log 2 x.den + 1) :=
      mul_le_mul_of_nonneg_left h4.le (by positivity)
    exact hstep.trans (this.le.trans h1)
  unfold binaryExponent
  split
  · rename_i h
    exact ⟨h, hupper⟩
  · rename_i h
    refine ⟨hlower, ?_⟩
    rw [sub_add_cancel]
    exact not_le.mp h

/-- The binade determines the exponent. -/
theorem binaryExponent_eq {x : ℚ} {e : ℤ} (h1 : (2 : ℚ) ^ e ≤ |x|)
    (h2 : |x| < (2 : ℚ) ^ (e + 1)) :
    binaryExponent x = e := by
  have hx : x ≠ 0 := by
    intro h
    rw [h, abs_zero] at h1
    exact absurd h1 (not_le.mpr (by positivity))
  obtain ⟨h3, h4⟩ := binaryExponent_spec x hx
  have ha : e < binaryExponent x + 1 :=
    (zpow_lt_zpow_iff_right₀ (by norm_num : (1 : ℚ) < 2)).mp (lt_of_le_of_lt h1 h4)
  have hb : binaryExponent x < e + 1 :=
    (zpow_lt_zpow_iff_right₀ (by norm_num : (1 : ℚ) < 2)).mp (lt_of_le_of_lt h3 h2)
  omega

/-- `roundNearestEven q` is an integer nearest to `q`. -/
theorem roundNearestEven_spec (q : ℚ) :
    |(roundNearestEven q : ℚ) - q| ≤ 1 / 2 ∧
      (|(roundNearestEven q : ℚ) - q| = 1 / 2 → roundNearestEven q % 2 = 0) := by
  have h0 := Int.floor_le q
  have h1 := Int.lt_floor_add_one q
  unfold roundNearestEven
  split_ifs with ha hb hc
  · constructor
    · rw [abs_le]; constructor <;> linarith
    · intro h
      rw [abs_sub_comm, abs_of_nonneg (by linarith)] at h
      linarith
  · constructor
    · rw [abs_le]; push_cast; constructor <;> linarith
    · intro h
      push_cast at h
      rw [abs_of_nonneg (by linarith)] at h
      linarith
  · constructor
    · rw [abs_le]; constructor <;> linarith
    · intro _; exact hc
  · constructor
    · rw [abs_le]; push_cast; constructor <;> linarith
    · intro _; omega

/-- Rounding a number whose binade is known. -/
theorem roundTo_of_binade {p : ℕ} {x : ℚ} {e : ℤ} {m : ℤ} (h1 : (2 : ℚ) ^ e ≤ |x|)
    (h2 : |x| < (2 : ℚ) ^ (e + 1))
    (hm : roundNearestEven (x / 2 ^ (e - ((p : ℤ) - 1))) = m) :
    roundTo p x = (m : ℚ) * 2 ^ (e - ((p : ℤ) - 1)) := by
  have hx : x ≠ 0 := by
    intro h
    rw [h, abs_zero] at h1
    exact absurd h1 (not_le.mpr (by positivity))
  rw [roundTo, if_neg hx, binaryExponent_eq h1 h2, hm]

/-- Rounding a number whose floor is known. -/
theorem roundNearestEven_eq {q : ℚ} {f : ℤ} (hf : ⌊q⌋ = f) :
    roundNearestEven q = if q - (f : ℚ) < 1 / 2 then f
      else if 1 / 2 < q - (f : ℚ) then f + 1 else if f % 2 = 0 then f else f + 1 := by
  rw [roundNearestEven, hf]

/-- Zero is rounded to zero. -/
theorem roundTo_zero (p : ℕ) : roundTo p 0 = 0 := by
  simp only [roundTo, if_true]

/-- The `float` of `RAND_MAX = 2 ^ 31 - 1` is `2 ^ 31`. -/
theorem roundTo_float_randMax : roundTo 24 2147483647 = 2147483648 := by
  rw [roundTo_of_binade (e := 30) (m := 16777216) (by norm_num [abs_of_pos])
    (by norm_num [abs_of_pos])]
  · norm_num
  · rw [roundNearestEven_eq (f := 16777215) (by rw [Int.floor_eq_iff]; norm_num)]
    norm_num

/-- One is a `float`. -/
theorem roundTo_float_one : roundTo 24 1 = 1 := by
  rw [roundTo_of_binade (e := 0) (m := 8388608) (by norm_num [abs_of_pos])
    (by norm_num [abs_of_pos])]
  · norm_num
  · rw [roundNearestEven_eq (f := 8388608) (by rw [Int.floor_eq_iff]; norm_num)]
    norm_num

/-- The `double` literal `0.3`. -/
theorem roundTo_double_c03 :
    roundTo 53 (3 / 10) = 5404319552844595 / 18014398509481984 := by
  rw [roundTo_of_binade (e := -2) (m := 5404319552844595) (by norm_num [abs_of_pos])
    (by norm_num [abs_of_pos])]
  · norm_num
  · rw [roundNearestEven_eq (f := 5404319552844595) (by rw [Int.floor_eq_iff]; norm_num)]
    norm_num

/-- The `double` literal `0.5`. -/
theorem roundTo_double_c05 : roundTo 53 (1 / 2) = 1 / 2 := by
  rw [roundTo_of_binade (e := -1) (m := 4503599627370496) (by norm_num [abs_of_pos])
    (by norm_num [abs_of_pos])]
  · norm_num
  · rw [roundNearestEven_eq (f := 4503599627370496) (by rw [Int.floor_eq_iff]; norm_num)]
    norm_num

/-- The sum `8388609 + 0.5` is a `double`. -/
theorem roundTo_double_sum : roundTo 53 (16777219 / 2) = 16777219 / 2 := by
  rw [roundTo_of_binade (e := 23) (m := 4503600432676864) (by norm_num [abs_of_pos])
    (by norm_num [abs_of_pos])]
  · norm_num
  · rw [roundNearestEven_eq (f := 4503600432676864) (by rw [Int.floor_eq_iff]; norm_num)]
    norm_num

/-- The value `8388609 = 2 ^ 23 + 1` is a `float`. -/
theorem roundTo_float_old : roundTo 24 8388609 = 8388609 := by
  rw [roundTo_of_binade (e := 23) (m := 8388609) (by norm_num [abs_of_pos])
    (by norm_num [abs_of_pos])]
  · norm_num
  · rw [roundNearestEven_eq (f := 8388609) (by rw [Int.floor_eq_iff]; norm_num)]
    norm_num

/-- The `float` of `8388609.5`, half way between the `float` values `8388609` and `8388610`,
is the one with the even significand. -/
theorem roundTo_float_sum : roundTo 24 (16777219 / 2) = 8388610 := by
  rw [roundTo_of_binade (e := 23) (m := 8388610) (by norm_num [abs_of_pos])
    (by norm_num [abs_of_pos])]
  · norm_num
  · rw [roundNearestEven_eq (f := 8388609) (by rw [Int.floor_eq_iff]; norm_num)]
    norm_num

/-- Rounding to the nearest integer is monotone. -/
theorem roundNearestEven_mono {q₁ q₂ : ℚ} (h : q₁ ≤ q₂) :
    roundNearestEven q₁ ≤ roundNearestEven q₂ := by
  by_contra hlt
  have hlt : roundNearestEven q₂ + 1 ≤ roundNearestEven q₁ := by omega
  have hq : ((roundNearestEven q₂ : ℤ) : ℚ) + 1 ≤ (roundNearestEven q₁ : ℚ) := by
    exact_mod_cast hlt
  have h1 := abs_le.mp (roundNearestEven_spec q₁).1
  have h2 := abs_le.mp (roundNearestEven_spec q₂).1
  have heq : q₁ = q₂ := le_antisymm h (by linarith [h1.2, h2.1])
  rw [heq] at hlt
  omega

/-- Rounding does not cross an integer: upper bound. -/
theorem roundNearestEven_abs_le {q : ℚ} {N : ℤ} (h : |q| ≤ (N : ℚ)) :
    |roundNearestEven q| ≤ N := by
  have h1 := abs_le.mp (roundNearestEven_spec q).1
  have h2 := abs_le.mp h
  rw [abs_le]
  constructor
  · have : (-(N : ℚ) - 1 : ℚ) < (roundNearestEven q : ℚ) := by linarith [h1.1, h2.1]
    have : ((-N - 1 : ℤ) : ℚ) < (roundNearestEven q : ℚ) := by push_cast; linarith
    have := Int.cast_lt.mp this
    omega
  · have : (roundNearestEven q : ℚ) < ((N + 1 : ℤ) : ℚ) := by push_cast; linarith [h1.2, h2.2]
    have := Int.cast_lt.mp this
    omega

/-- Rounding does not cross an integer: lower bound. -/
theorem le_roundNearestEven {q : ℚ} {N : ℤ} (h : (N : ℚ) ≤ q) : N ≤ roundNearestEven q := by
  have h1 := abs_le.mp (roundNearestEven_spec q).1
  have : ((N - 1 : ℤ) : ℚ) < (roundNearestEven q : ℚ) := by push_cast; linarith [h1.1]
  have := Int.cast_lt.mp this
  omega

/-- The value `roundTo p x` of a nonzero `x`, in terms of its binade. -/
theorem roundTo_of_ne_zero (p : ℕ) {x : ℚ} (hx : x ≠ 0) :
    roundTo p x = (roundNearestEven (x / 2 ^ (binaryExponent x - ((p : ℤ) - 1))) : ℚ) *
      2 ^ (binaryExponent x - ((p : ℤ) - 1)) := by
  rw [roundTo, if_neg hx]

/-- Rounding does not cross a power of two: upper bound. -/
theorem roundTo_abs_le {p : ℕ} (hp : 1 ≤ p) {x : ℚ} {j : ℤ} (h : |x| ≤ (2 : ℚ) ^ j) :
    |roundTo p x| ≤ (2 : ℚ) ^ j := by
  by_cases hx : x = 0
  · rw [hx, roundTo_zero, abs_zero]; positivity
  obtain ⟨h1, -⟩ := binaryExponent_spec x hx
  have hej : binaryExponent x ≤ j :=
    (zpow_le_zpow_iff_right₀ (by norm_num : (1 : ℚ) < 2)).mp (h1.trans h)
  have hu : (0 : ℚ) < 2 ^ (binaryExponent x - ((p : ℤ) - 1)) := by positivity
  have hn : (0 : ℤ) ≤ j - binaryExponent x + ((p : ℤ) - 1) := by omega
  obtain ⟨n, hn⟩ := Int.eq_ofNat_of_zero_le hn
  have hpow : (2 : ℚ) ^ j = ((2 ^ n : ℤ) : ℚ) * 2 ^ (binaryExponent x - ((p : ℤ) - 1)) := by
    push_cast
    rw [← zpow_natCast, ← zpow_add₀ (by norm_num : (2 : ℚ) ≠ 0), ← hn]
    congr 1
    ring
  have hq : |x / 2 ^ (binaryExponent x - ((p : ℤ) - 1))| ≤ ((2 ^ n : ℤ) : ℚ) := by
    rw [abs_div, abs_of_pos hu, div_le_iff₀ hu, ← hpow]
    exact h
  have hm := roundNearestEven_abs_le hq
  have hm' : |(roundNearestEven (x / 2 ^ (binaryExponent x - ((p : ℤ) - 1))) : ℚ)| ≤
      ((2 ^ n : ℤ) : ℚ) := by
    rw [← Int.cast_abs]
    exact_mod_cast hm
  rw [roundTo_of_ne_zero p hx, abs_mul, abs_of_pos hu, hpow]
  exact mul_le_mul_of_nonneg_right hm' hu.le

/-- Rounding does not cross a power of two: lower bound. -/
theorem le_roundTo {p : ℕ} (hp : 1 ≤ p) {x : ℚ} {j : ℤ} (h : (2 : ℚ) ^ j ≤ x) :
    (2 : ℚ) ^ j ≤ roundTo p x := by
  have hxpos : 0 < x := lt_of_lt_of_le (by positivity) h
  have hx : x ≠ 0 := hxpos.ne.symm
  obtain ⟨h1, h2⟩ := binaryExponent_spec x hx
  rw [abs_of_pos hxpos] at h1 h2
  have hje : j < binaryExponent x + 1 :=
    (zpow_lt_zpow_iff_right₀ (by norm_num : (1 : ℚ) < 2)).mp (lt_of_le_of_lt h h2)
  have hu : (0 : ℚ) < 2 ^ (binaryExponent x - ((p : ℤ) - 1)) := by positivity
  obtain ⟨n, hn⟩ := Nat.exists_eq_add_of_le hp
  have hpow : (2 : ℚ) ^ binaryExponent x =
      ((2 ^ n : ℤ) : ℚ) * 2 ^ (binaryExponent x - ((p : ℤ) - 1)) := by
    push_cast
    rw [← zpow_natCast, ← zpow_add₀ (by norm_num : (2 : ℚ) ≠ 0)]
    congr 1
    rw [hn]
    push_cast
    ring
  have hq : ((2 ^ n : ℤ) : ℚ) ≤ x / 2 ^ (binaryExponent x - ((p : ℤ) - 1)) := by
    rw [le_div_iff₀ hu, ← hpow]
    exact h1
  have hm := le_roundNearestEven hq
  have hm' : ((2 ^ n : ℤ) : ℚ) ≤
      (roundNearestEven (x / 2 ^ (binaryExponent x - ((p : ℤ) - 1))) : ℚ) := by
    exact_mod_cast hm
  rw [roundTo_of_ne_zero p hx]
  calc (2 : ℚ) ^ j ≤ (2 : ℚ) ^ binaryExponent x :=
        (zpow_le_zpow_iff_right₀ (by norm_num : (1 : ℚ) < 2)).mpr (by omega)
    _ = ((2 ^ n : ℤ) : ℚ) * 2 ^ (binaryExponent x - ((p : ℤ) - 1)) := hpow
    _ ≤ _ := mul_le_mul_of_nonneg_right hm' hu.le

/-- A non-negative number is rounded to a non-negative number. -/
theorem roundTo_nonneg (p : ℕ) {x : ℚ} (h : 0 ≤ x) : 0 ≤ roundTo p x := by
  by_cases hx : x = 0
  · rw [hx, roundTo_zero]
  have hu : (0 : ℚ) < 2 ^ (binaryExponent x - ((p : ℤ) - 1)) := by positivity
  have hq : ((0 : ℤ) : ℚ) ≤ x / 2 ^ (binaryExponent x - ((p : ℤ) - 1)) := by
    rw [Int.cast_zero]
    exact div_nonneg h hu.le
  have hm := le_roundNearestEven hq
  rw [roundTo_of_ne_zero p hx]
  exact mul_nonneg (by exact_mod_cast hm) hu.le

/-- Rounding is monotone on the non-negative numbers. -/
theorem roundTo_mono {p : ℕ} (hp : 1 ≤ p) {x y : ℚ} (hx : 0 ≤ x) (h : x ≤ y) :
    roundTo p x ≤ roundTo p y := by
  by_cases hx0 : x = 0
  · rw [hx0, roundTo_zero]
    exact roundTo_nonneg p (hx.trans h)
  have hxpos : 0 < x := lt_of_le_of_ne hx (Ne.symm hx0)
  have hypos : 0 < y := lt_of_lt_of_le hxpos h
  obtain ⟨hx1, hx2⟩ := binaryExponent_spec x hx0
  obtain ⟨hy1, hy2⟩ := binaryExponent_spec y hypos.ne.symm
  rw [abs_of_pos hxpos] at hx1 hx2
  rw [abs_of_pos hypos] at hy1 hy2
  have hle : binaryExponent x < binaryExponent y + 1 :=
    (zpow_lt_zpow_iff_right₀ (by norm_num : (1 : ℚ) < 2)).mp
      (lt_of_le_of_lt hx1 (lt_of_le_of_lt h hy2))
  rcases (by omega : binaryExponent x = binaryExponent y ∨
      binaryExponent x + 1 ≤ binaryExponent y) with heq | hlt
  · have hu : (0 : ℚ) < 2 ^ (binaryExponent y - ((p : ℤ) - 1)) := by positivity
    rw [roundTo_of_ne_zero p hx0, roundTo_of_ne_zero p hypos.ne.symm, heq]
    apply mul_le_mul_of_nonneg_right _ hu.le
    have := roundNearestEven_mono (div_le_div_of_nonneg_right h hu.le)
    exact_mod_cast this
  · have h1 : |roundTo p x| ≤ (2 : ℚ) ^ (binaryExponent x + 1) :=
      roundTo_abs_le hp (by rw [abs_of_pos hxpos]; exact hx2.le)
    have h2 : (2 : ℚ) ^ (binaryExponent x + 1) ≤ (2 : ℚ) ^ binaryExponent y :=
      (zpow_le_zpow_iff_right₀ (by norm_num : (1 : ℚ) < 2)).mpr hlt
    exact (le_abs_self _).trans (h1.trans (h2.trans (le_roundTo hp hy1)))

/-- The test of `mutateWeights` in IEEE 754 arithmetic. -/
theorem selectionTest_ieee (RAND_MAX r : Nat) :
    selectionTest ieeeArith RAND_MAX r =
      decide (roundTo 24 (roundTo 24 (r : ℚ) / roundTo 24 (RAND_MAX : ℚ)) <
        roundTo 53 (3 / 10)) := rfl

/-- The term `mutateWeights` adds, in IEEE 754 arithmetic. -/
theorem mutationTerm_ieee (RAND_MAX r : Nat) :
    mutationTerm ieeeArith RAND_MAX r =
      roundTo 53 (roundTo 24 (roundTo 24 (r : ℚ) / roundTo 24 (RAND_MAX : ℚ)) -
        roundTo 53 (1 / 2)) := rfl

/-- In IEEE 754 arithmetic the term `(float)r / RAND_MAX - 0.5` that `mutateWeights` adds to a
selected weight lies in `[-0.5, 0.5]`, for every `RAND_MAX ≥ 1` and every draw
`0 ≤ r ≤ RAND_MAX`. -/
theorem ieee_term_range {RAND_MAX r : Nat} (hM : 1 ≤ RAND_MAX) (hr : r ≤ RAND_MAX) :
    -(1 / 2) ≤ mutationTerm ieeeArith RAND_MAX r ∧
      mutationTerm ieeeArith RAND_MAX r ≤ 1 / 2 := by
  rw [mutationTerm_ieee]
  have ha : 0 ≤ roundTo 24 (r : ℚ) := roundTo_nonneg 24 (Nat.cast_nonneg r)
  have hab : roundTo 24 (r : ℚ) ≤ roundTo 24 (RAND_MAX : ℚ) :=
    roundTo_mono (by norm_num) (Nat.cast_nonneg r) (by exact_mod_cast hr)
  have hb : (1 : ℚ) ≤ roundTo 24 (RAND_MAX : ℚ) := by
    have := le_roundTo (p := 24) (j := 0) (x := (RAND_MAX : ℚ)) (by norm_num)
      (by rw [zpow_zero]; exact_mod_cast hM)
    rwa [zpow_zero] at this
  have hbpos : (0 : ℚ) < roundTo 24 (RAND_MAX : ℚ) := lt_of_lt_of_le one_pos hb
  have hq0 : 0 ≤ roundTo 24 (r : ℚ) / roundTo 24 (RAND_MAX : ℚ) := div_nonneg ha hbpos.le
  have hq1 : roundTo 24 (r : ℚ) / roundTo 24 (RAND_MAX : ℚ) ≤ 1 :=
    (div_le_one hbpos).mpr hab
  have hf0 := roundTo_nonneg 24 hq0
  have hf1 : |roundTo 24 (roundTo 24 (r : ℚ) / roundTo 24 (RAND_MAX : ℚ))| ≤ (2 : ℚ) ^ (0 : ℤ) :=
    roundTo_abs_le (by norm_num) (by rw [abs_of_nonneg hq0, zpow_zero]; exact hq1)
  rw [zpow_zero, abs_of_nonneg hf0] at hf1
  have ht : |roundTo 53 (roundTo 24 (roundTo 24 (r : ℚ) / roundTo 24 (RAND_MAX : ℚ)) -
      roundTo 53 (1 / 2))| ≤ (2 : ℚ) ^ (-1 : ℤ) := by
    apply roundTo_abs_le (by norm_num)
    rw [roundTo_double_c05, abs_le]
    constructor <;> norm_num <;> linarith
  rw [abs_le] at ht
  norm_num at ht
  exact ht

/-- The `float` of the least draw `r` with `r / RAND_MAX ≥ 0.3`, for `RAND_MAX = 2 ^ 31 - 1`. -/
theorem roundTo_float_threshold : roundTo 24 644245095 = 644245120 := by
  rw [roundTo_of_binade (e := 29) (m := 10066330) (by norm_num [abs_of_pos])
    (by norm_num [abs_of_pos])]
  · norm_num
  · rw [roundNearestEven_eq (f := 10066329) (by rw [Int.floor_eq_iff]; norm_num)]
    norm_num

/-- The `float` quotient of the least draw `r` with `r / RAND_MAX ≥ 0.3`: `0.30000001...`. -/
theorem roundTo_float_threshold_quotient :
    roundTo 24 (644245120 / 2147483648) = 5033165 / 16777216 := by
  rw [roundTo_of_binade (e := -2) (m := 10066330) (by norm_num [abs_of_pos])
    (by norm_num [abs_of_pos])]
  · norm_num
  · rw [roundNearestEven_eq (f := 10066330) (by rw [Int.floor_eq_iff]; norm_num)]
    norm_num

/-- In IEEE 754 arithmetic with `RAND_MAX = 2 ^ 31 - 1`, a draw `r` whose exact quotient
`r / RAND_MAX` is at least `0.3` fails the test of `mutateWeights`. -/
theorem ieee_unselected_of_exact (r : Nat)
    (h : (3 : ℚ) / 10 ≤ (r : ℚ) / ((exRandMax : Nat) : ℚ)) :
    selectionTest ieeeArith exRandMax r = false := by
  have hm : ((exRandMax : ℕ) : ℚ) = 2147483647 := by rw [exRandMax]; norm_num
  rw [hm, le_div_iff₀ (by norm_num)] at h
  have hr : (644245095 : ℚ) ≤ (r : ℚ) := by
    have h1 : (6442450941 : ℚ) ≤ 10 * (r : ℚ) := by linarith
    have h2 : (6442450941 : ℕ) ≤ 10 * r := by exact_mod_cast h1
    have h3 : 644245095 ≤ r := by omega
    exact_mod_cast h3
  have h1 : (644245120 : ℚ) ≤ roundTo 24 (r : ℚ) := by
    rw [← roundTo_float_threshold]
    exact roundTo_mono (by norm_num) (by norm_num) hr
  have h2 : (5033165 : ℚ) / 16777216 ≤ roundTo 24 (roundTo 24 (r : ℚ) / 2147483648) := by
    rw [← roundTo_float_threshold_quotient]
    exact roundTo_mono (by norm_num) (by norm_num)
      (div_le_div_of_nonneg_right h1 (by norm_num))
  rw [selectionTest_ieee, hm, roundTo_float_randMax, roundTo_double_c03, decide_eq_false_iff_not, not_lt]
  refine le_trans ?_ h2
  norm_num

/-- The `float` quotient of the draw `644245090` for `RAND_MAX = 2 ^ 31 - 1`. -/
theorem roundTo_float_below_threshold : roundTo 24 644245090 = 644245120 := by
  rw [roundTo_of_binade (e := 29) (m := 10066330) (by norm_num [abs_of_pos])
    (by norm_num [abs_of_pos])]
  · norm_num
  · rw [roundNearestEven_eq (f := 10066329) (by rw [Int.floor_eq_iff]; norm_num)]
    norm_num

/-- The test of `mutateWeights` is not the exact comparison: in IEEE 754 arithmetic with
`RAND_MAX = 2 ^ 31 - 1` the draw `644245090` has an exact quotient below `0.3` and fails the
test, its `float` quotient being `0.30000001...`. -/
theorem ieee_selection_not_exact :
    (644245090 : ℚ) / ((exRandMax : Nat) : ℚ) < 3 / 10 ∧
      selectionTest ieeeArith exRandMax 644245090 = false := by
  have hm : ((exRandMax : ℕ) : ℚ) = 2147483647 := by rw [exRandMax]; norm_num
  refine ⟨by rw [hm]; norm_num, ?_⟩
  have hc : ((644245090 : ℕ) : ℚ) = 644245090 := by norm_num
  rw [selectionTest_ieee, hm, hc, roundTo_float_randMax, roundTo_float_below_threshold,
    roundTo_float_threshold_quotient, roundTo_double_c03, decide_eq_false_iff_not, not_lt]
  norm_num

/-- In IEEE 754 arithmetic with `RAND_MAX = 2 ^ 31 - 1`, the draws `0` and `RAND_MAX` turn the
weight `8388609` into `8388610`. -/
theorem mutateEntry_ieee_selected (rng : RandState) (h0 : rng 0 = 0)
    (h1 : rng 1 = 2147483647) :
    mutateEntry ieeeArith exRandMax 8388609 rng = (8388610, (rand (rand rng).2).2) := by
  have e1 : (8388609 : ℚ) + 1 / 2 = 16777219 / 2 := by norm_num
  have e3 : (2147483648 : ℚ) / 2147483648 = 1 := by norm_num
  have e4 : (1 : ℚ) - 1 / 2 = 1 / 2 := by norm_num
  have e5 : (0 : ℚ) < 5404319552844595 / 18014398509481984 := by norm_num
  have hc0 : ((rng 0 : ℕ) : ℚ) = 0 := by rw [h0]; norm_num
  have hc1 : ((rng (0 + 1) : ℕ) : ℚ) = 2147483647 := by rw [Nat.zero_add, h1]; norm_num
  have hm : ((exRandMax : ℕ) : ℚ) = 2147483647 := by rw [exRandMax]; norm_num
  simp only [mutateEntry, rand, ieeeArith, hc0, hc1, hm, roundTo_zero, zero_div,
    roundTo_double_c03, roundTo_double_c05, roundTo_float_randMax, e3, roundTo_float_one, e4, e1,
    roundTo_double_sum, roundTo_float_sum, e5, decide_True, if_true]

/-- In IEEE 754 arithmetic with `RAND_MAX = 2 ^ 31 - 1`, the selection draw `RAND_MAX` leaves
the weight as it is. -/
theorem mutateEntry_ieee_unselected (old : ℚ) (rng : RandState) (h0 : rng 0 = 2147483647) :
    mutateEntry ieeeArith exRandMax old rng = (old, (rand rng).2) := by
  have e3 : (2147483648 : ℚ) / 2147483648 = 1 := by norm_num
  have e6 : ¬ ((1 : ℚ) < 5404319552844595 / 18014398509481984) := by norm_num
  have hc0 : ((rng 0 : ℕ) : ℚ) = 2147483647 := by rw [h0]; norm_num
  have hm : ((exRandMax : ℕ) : ℚ) = 2147483647 := by rw [exRandMax]; norm_num
  simp only [mutateEntry, rand, ieeeArith, hc0, hm, roundTo_double_c03, roundTo_float_randMax,
    e3, roundTo_float_one, e6, decide_False, Bool.false_eq_true, if_false]

/-- The tensor `mutateWeights` leaves for `exNetLarge`, whatever the arithmetic: the weight
and then the bias are rewritten by `mutateEntry`. -/
theorem mutateTensor_exNetLarge_entries {D : Type} (A : FloatArith ℚ D) (RAND_MAX : Nat)
    (rng : RandState) :
    (mutateTensor A RAND_MAX exNetLarge.weights rng).1 =
      [[[(mutateEntry A RAND_MAX 8388609 rng).1,
        (mutateEntry A RAND_MAX 0 (mutateEntry A RAND_MAX 8388609 rng).2).1]]] := rfl

/-- The tensor `mutateWeights` leaves for `exNetLarge` and the draws `0, RAND_MAX, RAND_MAX`:
the weight is selected and `0.5` is added to it, the bias is not selected. -/
theorem mutateTensor_exNetLarge :
    (mutateTensor ieeeArith exRandMax exNetLarge.weights exRngLarge).1 = [[[8388610, 0]]] := by
  have h0 : exRngLarge 0 = 0 := by simp [exRngLarge]
  have h1 : exRngLarge 1 = 2147483647 := by simp [exRngLarge]
  have h2 : (rand (rand exRngLarge).2).2 0 = 2147483647 := by simp [rand, exRngLarge]
  rw [mutateTensor_exNetLarge_entries, mutateEntry_ieee_selected exRngLarge h0 h1,
    mutateEntry_ieee_unselected 0 _ h2]

/-! ## `randomizeWeights` and `mutateWeights` -/

/-- The loops of `randomizeWeights` rewrite every weight once, in save order. -/
theorem randomizeWeights_eq {F : Type} [LinearOrderedField F] (sqrtf : F → F) (RAND_MAX : Nat)
    (net : Network F) (rng : RandState) (hwf : WellFormed net) :
    randomizeWeights sqrtf RAND_MAX net rng =
      some ({ net with weights :=
          (randomizeTensor sqrtf RAND_MAX (neuronCounts net.layers) net.weights rng).1 },
        (randomizeTensor sqrtf RAND_MAX (neuronCounts net.layers) net.weights rng).2) := by
  have hlen : net.weights.length = net.amount_of_layers - 1 := by
    rw [shape_length hwf.2, hwf.1]
  have h := groups_loop
    (fun layer (st : Tensor F × RandState) => do
      let cur ← net.layers[layer]?
      let next ← net.layers[layer + 1]?
      let scale := sqrtf (2 / ((cur.amount_of_neurons + next.amount_of_neurons : Nat) : F))
      forLoop next.amount_of_neurons (fun output_neuron st =>
        forLoop (cur.amount_of_neurons + 1) (fun input_neuron st => do
          let (r, rng) := rand st.2
          let random_weight := (r : F) / (RAND_MAX : F) * 2 - 1
          let weights ← writeWeight st.1 layer output_neuron input_neuron
            (random_weight * scale)
          some (weights, rng)) st) st)
    (fun l g s =>
      traverseFrom (fun _ r s =>
        traverseFrom (fun _ _ s =>
          randomizeEntry RAND_MAX (xavierScale sqrtf (neuronCounts net.layers) l) s)
          0 r s) 0 g s)
    (fun l g => ∃ a b : Layer F, net.layers[l]? = some a ∧ net.layers[l + 1]? = some b ∧
      g.length = b.amount_of_neurons ∧
      ∀ (o : Nat) (r : List F), g[o]? = some r → r.length = a.amount_of_neurons + 1)
    (by
      rintro l w g s hg ⟨a, b, ha, hb, hglen, hrows⟩
      have hscale : sqrtf (2 / ((a.amount_of_neurons + b.amount_of_neurons : Nat) : F)) =
          xavierScale sqrtf (neuronCounts net.layers) l := by
        simp only [xavierScale, neuronCounts_getD ha, neuronCounts_getD hb]
      have := rows_loop l
        (fun output_neuron (st : Tensor F × RandState) =>
          forLoop (a.amount_of_neurons + 1) (fun input_neuron st => do
            let (r, rng) := rand st.2
            let random_weight := (r : F) / (RAND_MAX : F) * 2 - 1
            let weights ← writeWeight st.1 l output_neuron input_neuron
              (random_weight * xavierScale sqrtf (neuronCounts net.layers) l)
            some (weights, rng)) st)
        (fun _ r s =>
          traverseFrom (fun _ _ s =>
            randomizeEntry RAND_MAX (xavierScale sqrtf (neuronCounts net.layers) l) s) 0 r s)
        (fun _ r => r.length = a.amount_of_neurons + 1)
        (by
          intro o w g r s hg hr hlen
          rw [← hlen]
          refine entries_loop l o _ _ ?_ w g r s hg hr
          intro i w g r x s hg hr hx
          simp only [Option.bind_eq_bind, writeWeight_eq hg hr (lt_of_getElem? hx),
            Option.some_bind, randomizeEntry])
        w g s hg hrows
      simp only [Option.bind_eq_bind] at this ⊢
      simp only [ha, hb, Option.some_bind, hscale]
      rw [← hglen]
      exact this)
    net.weights rng
    (by
      intro l g hg
      have hl : l < net.amount_of_layers - 1 := by rw [← hlen]; exact lt_of_getElem? hg
      obtain ⟨a, b, g', ha, hb, hg', hglen, hrows⟩ := wellFormed_group hwf hl
      rw [hg] at hg'
      cases hg'
      exact ⟨a, b, ha, hb, hglen, hrows⟩)
  rw [hlen] at h
  simp only [Option.bind_eq_bind] at h
  simp only [randomizeWeights, Option.bind_eq_bind, h, Option.some_bind, randomizeTensor]

/-- The loops of `mutateWeights` visit every weight once, in save order. -/
theorem mutateWeights_eq {F D : Type} (A : FloatArith F D) (RAND_MAX : Nat)
    (net : Network F) (rng : RandState) (hwf : WellFormed net) :
    mutateWeights A RAND_MAX net rng =
      some ({ net with weights := (mutateTensor A RAND_MAX net.weights rng).1 },
        (mutateTensor A RAND_MAX net.weights rng).2) := by
  have hlen : net.weights.length = net.amount_of_layers - 1 := by
    rw [shape_length hwf.2, hwf.1]
  have h := groups_loop
    (fun layer (st : Tensor F × RandState) => do
      let next ← net.layers[layer + 1]?
      forLoop next.amount_of_neurons (fun output_neuron st => do
        let cur ← net.layers[layer]?
        forLoop (cur.amount_of_neurons + 1) (fun input_neuron st =>
          let (r, rng) := rand st.2
          if A.ltD (A.promote (A.divF (A.ofInt r) (A.ofInt RAND_MAX))) A.c03 = true
          then do
            let (r2, rng) := rand rng
            let old ← readWeight st.1 layer output_neuron input_neuron
            let weights ← writeWeight st.1 layer output_neuron input_neuron
              (A.demote (A.addD (A.promote old)
                (A.subD (A.promote (A.divF (A.ofInt r2) (A.ofInt RAND_MAX))) A.c05)))
            some (weights, rng)
          else some (st.1, rng)) st) st)
    (fun _ g s =>
      traverseFrom (fun _ r s => traverseFrom (fun _ => mutateEntry A RAND_MAX) 0 r s) 0 g s)
    (fun l g => ∃ a b : Layer F, net.layers[l]? = some a ∧ net.layers[l + 1]? = some b ∧
      g.length = b.amount_of_neurons ∧
      ∀ (o : Nat) (r : List F), g[o]? = some r → r.length = a.amount_of_neurons + 1)
    (by
      rintro l w g s hg ⟨a, b, ha, hb, hglen, hrows⟩
      have := rows_loop l
        (fun output_neuron (st : Tensor F × RandState) => do
          let cur ← net.layers[l]?
          forLoop (cur.amount_of_neurons + 1) (fun input_neuron st =>
            let (r, rng) := rand st.2
            if A.ltD (A.promote (A.divF (A.ofInt r) (A.ofInt RAND_MAX))) A.c03 = true
          then do
              let (r2, rng) := rand rng
              let old ← readWeight st.1 l output_neuron input_neuron
              let weights ← writeWeight st.1 l output_neuron input_neuron
                (A.demote (A.addD (A.promote old)
                  (A.subD (A.promote (A.divF (A.ofInt r2) (A.ofInt RAND_MAX))) A.c05)))
              some (weights, rng)
            else some (st.1, rng)) st)
        (fun _ r s => traverseFrom (fun _ => mutateEntry A RAND_MAX) 0 r s)
        (fun _ r => r.length = a.amount_of_neurons + 1)
        (by
          intro o w g r s hg hr hlen
          simp only [Option.bind_eq_bind, ha, Option.some_bind]
          rw [← hlen]
          refine entries_loop l o _ _ ?_ w g r s hg hr
          intro i w g r x s hg hr hx
          by_cases hsel :
              A.ltD (A.promote (A.divF (A.ofInt (rand s).1) (A.ofInt RAND_MAX))) A.c03 = true
          · simp only [hsel, if_true, Option.bind_eq_bind, readWeight_eq hg hr, hx,
              writeWeight_eq hg hr (lt_of_getElem? hx), Option.some_bind, mutateEntry]
          · simp only [hsel, Bool.false_eq_true, if_false, mutateEntry, set_of_getElem? hx,
              set_of_getElem? hr,
              set_of_getElem? hg])
        w g s hg hrows
      simp only [Option.bind_eq_bind] at this ⊢
      simp only [hb, Option.some_bind, ← hglen, this])
    net.weights rng
    (by
      intro l g hg
      have hl : l < net.amount_of_layers - 1 := by rw [← hlen]; exact lt_of_getElem? hg
      obtain ⟨a, b, g', ha, hb, hg', hglen, hrows⟩ := wellFormed_group hwf hl
      rw [hg] at hg'
      cases hg'
      exact ⟨a, b, ha, hb, hglen, hrows⟩)
  rw [hlen] at h
  simp only [Option.bind_eq_bind] at h
  simp only [mutateWeights, Option.bind_eq_bind, h, Option.some_bind, mutateTensor]

/-! ## Reading a traversed tensor -/

/-- Every element of a traversed list is the value `op` gave to the element that was at the
same index, in a state that satisfies the invariant `I`. -/
theorem traverseFrom_getElem? {α σ : Type} (op : Nat → α → σ → α × σ) (I : σ → Prop)
    (hI : ∀ i x s, I s → I (op i x s).2) (xs : List α) :
    ∀ (i : Nat) (s : σ), I s →
      (∀ (k : Nat) (y : α), (traverseFrom op i xs s).1[k]? = some y →
        ∃ x s', I s' ∧ xs[k]? = some x ∧ y = (op (i + k) x s').1) ∧
      I (traverseFrom op i xs s).2 := by
  induction xs with
  | nil =>
    intro i s hs
    exact ⟨fun k y h => by simp [traverseFrom] at h, hs⟩
  | cons x xs ih =>
    intro i s hs
    obtain ⟨h1, h2⟩ := ih (i + 1) (op i x s).2 (hI i x s hs)
    refine ⟨?_, h2⟩
    intro k y hk
    cases k with
    | zero =>
      simp only [traverseFrom, List.getElem?_cons_zero, Option.some.injEq] at hk
      exact ⟨x, s, hs, by simp, hk.symm⟩
    | succ k =>
      simp only [traverseFrom, List.getElem?_cons_succ] at hk
      obtain ⟨x', s', hs', hx', hy⟩ := h1 k y hk
      refine ⟨x', s', hs', by simpa using hx', ?_⟩
      rw [hy]
      congr 2
      omega

theorem readWeight_eq_some {F : Type} {w : Tensor F} {l o i : Nat} {v : F} :
    readWeight w l o i = some v ↔
      ∃ g r, w[l]? = some g ∧ g[o]? = some r ∧ r[i]? = some v := by
  simp [readWeight, Option.bind_eq_some]

/-- Every weight of a tensor rewritten entry by entry is the value `entryOp` gave to the weight
that was at the same place, in a state that satisfies the invariant `I`. -/
theorem tensor_traverse_read {F σ : Type} (entryOp : Nat → F → σ → F × σ) (I : σ → Prop)
    (hI : ∀ l x s, I s → I (entryOp l x s).2) (w : Tensor F) (s : σ) (hs : I s) :
    (∀ (l o i : Nat) (v : F),
      readWeight (traverseFrom (fun l g s =>
        traverseFrom (fun _ r s => traverseFrom (fun _ x s => entryOp l x s) 0 r s) 0 g s)
          0 w s).1 l o i = some v →
      ∃ x s', I s' ∧ readWeight w l o i = some x ∧ v = (entryOp l x s').1) ∧
    I (traverseFrom (fun l g s =>
        traverseFrom (fun _ r s => traverseFrom (fun _ x s => entryOp l x s) 0 r s) 0 g s)
          0 w s).2 := by
  have hrow : ∀ (l : Nat) (i : Nat) (r : List F) (s : σ), I s →
      I (traverseFrom (fun _ x s => entryOp l x s) 0 r s).2 := fun l _ r s hs =>
    (traverseFrom_getElem? (fun _ x s => entryOp l x s) I (fun _ x s h => hI l x s h) r 0 s hs).2
  have hgroup : ∀ (l : Nat) (g : List (List F)) (s : σ), I s →
      I (traverseFrom (fun _ r s => traverseFrom (fun _ x s => entryOp l x s) 0 r s) 0 g s).2 :=
    fun l g s hs => (traverseFrom_getElem? _ I (fun i r s h => hrow l i r s h) g 0 s hs).2
  obtain ⟨h1, h2⟩ := traverseFrom_getElem? (fun l g s =>
      traverseFrom (fun _ r s => traverseFrom (fun _ x s => entryOp l x s) 0 r s) 0 g s) I
    hgroup w 0 s hs
  refine ⟨?_, h2⟩
  intro l o i v hv
  obtain ⟨g', r', hg', hr', hv'⟩ := readWeight_eq_some.mp hv
  obtain ⟨g, s1, hs1, hg, rfl⟩ := h1 l g' hg'
  simp only [Nat.zero_add] at hr'
  obtain ⟨r, s2, hs2, hr, rfl⟩ := (traverseFrom_getElem? _ I
    (fun i r s h => hrow l i r s h) g 0 s1 hs1).1 o r' hr'
  obtain ⟨x, s3, hs3, hx, rfl⟩ := (traverseFrom_getElem? (fun _ x s => entryOp l x s) I
    (fun _ x s h => hI l x s h) r 0 s2 hs2).1 i v hv'
  exact ⟨x, s3, hs3, readWeight_eq_some.mpr ⟨g, r, hg, hr, hx⟩, rfl⟩

/-- Rewriting a tensor entry by entry keeps its shape. -/
theorem tensor_traverse_shape {F σ : Type} (entryOp : Nat → F → σ → F × σ) (w : Tensor F)
    (s : σ) :
    shapeOf (traverseFrom (fun l g s =>
        traverseFrom (fun _ r s => traverseFrom (fun _ x s => entryOp l x s) 0 r s) 0 g s)
          0 w s).1 = shapeOf w := by
  unfold shapeOf
  apply traverseFrom_map_eq
  intro l g s
  apply traverseFrom_map_eq
  intro o r s
  exact traverseFrom_length _ r 0 s

/-- In two tensors of the same shape the same places hold a weight. -/
theorem readWeight_of_shape {F : Type} {w w' : Tensor F} (h : shapeOf w' = shapeOf w)
    {l o i : Nat} {x : F} (hx : readWeight w l o i = some x) :
    ∃ v, readWeight w' l o i = some v := by
  obtain ⟨g, r, hg, hr, hi⟩ := readWeight_eq_some.mp hx
  have h1 : (shapeOf w')[l]? = some (g.map List.length) := by rw [h]; simp [shapeOf, hg]
  simp only [shapeOf, List.getElem?_map, Option.map_eq_some'] at h1
  obtain ⟨g', hg', hgl⟩ := h1
  have h2 : (g'.map List.length)[o]? = some r.length := by rw [hgl]; simp [hr]
  simp only [List.getElem?_map, Option.map_eq_some'] at h2
  obtain ⟨r', hr', hrl⟩ := h2
  have hi' : i < r'.length := by rw [hrl]; exact lt_of_getElem? hi
  exact ⟨r'[i], readWeight_eq_some.mpr ⟨g', r', hg', hr', List.getElem?_eq_getElem hi'⟩⟩

/-! ## The initialiser and the mutator: main results -/

/-- A draw of `rand()` divided by `RAND_MAX` lies in `[0, 1]`. -/
theorem draw_unit_interval {F : Type} [LinearOrderedField F] {r RAND_MAX : Nat}
    (h : r ≤ RAND_MAX) : 0 ≤ (r : F) / (RAND_MAX : F) ∧ (r : F) / (RAND_MAX : F) ≤ 1 :=
  ⟨div_nonneg (Nat.cast_nonneg r) (Nat.cast_nonneg RAND_MAX),
    div_le_one_of_le₀ (Nat.cast_le.mpr h) (Nat.cast_nonneg RAND_MAX)⟩

theorem isShiftOf_rand {rng s : RandState} (h : IsShiftOf rng s) : IsShiftOf rng (rand s).2 := by
  obtain ⟨c, hc⟩ := h
  exact ⟨c + 1, fun j => by simp only [rand, hc]; congr 1; omega⟩

theorem isShiftOf_mutateEntry {F D : Type} (A : FloatArith F D) (RAND_MAX : Nat) (x : F)
    {rng s : RandState} (h : IsShiftOf rng s) :
    IsShiftOf rng (mutateEntry A RAND_MAX x s).2 := by
  unfold mutateEntry
  split
  · exact isShiftOf_rand (isShiftOf_rand h)
  · exact isShiftOf_rand h

theorem traverseFrom_index_irrel {α σ : Type} (op : α → σ → α × σ) (xs : List α) :
    ∀ (i j : Nat) (s : σ),
      traverseFrom (fun _ => op) i xs s = traverseFrom (fun _ => op) j xs s := by
  induction xs with
  | nil => intro i j s; rfl
  | cons x xs ih => intro i j s; simp only [traverseFrom, ih (i + 1) (j + 1)]

theorem traverseFrom_append {α σ : Type} (op : α → σ → α × σ) (xs ys : List α) :
    ∀ (i : Nat) (s : σ), traverseFrom (fun _ => op) i (xs ++ ys) s =
      ((traverseFrom (fun _ => op) 0 xs s).1 ++
          (traverseFrom (fun _ => op) 0 ys (traverseFrom (fun _ => op) 0 xs s).2).1,
        (traverseFrom (fun _ => op) 0 ys (traverseFrom (fun _ => op) 0 xs s).2).2) := by
  induction xs with
  | nil => intro i s; simp [traverseFrom, traverseFrom_index_irrel op ys i 0]
  | cons x xs ih =>
    intro i s
    show traverseFrom (fun _ => op) i (x :: (xs ++ ys)) s = _
    simp only [traverseFrom, ih (i + 1), traverseFrom_index_irrel op xs (0 + 1) 0,
      List.cons_append]

/-- Traversing the lists of a list one after the other is traversing their concatenation. -/
theorem traverseFrom_flatten {α σ : Type} (op : α → σ → α × σ) (xss : List (List α)) :
    ∀ (i : Nat) (s : σ),
      ((traverseFrom (fun _ xs s => traverseFrom (fun _ => op) 0 xs s) i xss s).1.flatten,
        (traverseFrom (fun _ xs s => traverseFrom (fun _ => op) 0 xs s) i xss s).2) =
      traverseFrom (fun _ => op) 0 xss.flatten s := by
  induction xss with
  | nil => intro i s; rfl
  | cons xs xss ih =>
    intro i s
    have h := ih (i + 1) (traverseFrom (fun _ => op) 0 xs s).2
    simp only [Prod.ext_iff] at h
    simp only [traverseFrom, List.flatten_cons, traverseFrom_append, h.1, h.2]

/-- In save order, `mutateWeights` is one pass over the weights. -/
theorem mutateTensor_flat {F D : Type} (A : FloatArith F D) (RAND_MAX : Nat) (w : Tensor F)
    (rng : RandState) :
    (flatWeights (mutateTensor A RAND_MAX w rng).1, (mutateTensor A RAND_MAX w rng).2) =
      traverseFrom (fun _ => mutateEntry A RAND_MAX) 0 (flatWeights w) rng := by
  have h1 := traverseFrom_flatten
    (fun (r : List F) s => traverseFrom (fun _ => mutateEntry A RAND_MAX) 0 r s) w 0 rng
  have h2 := traverseFrom_flatten (mutateEntry A RAND_MAX) w.flatten 0 rng
  simp only [Prod.ext_iff] at h1 h2 ⊢
  simp only [flatWeights, mutateTensor]
  rw [h1.1, h1.2]
  exact h2

/-- C8. After `randomizeWeights` on a well-formed network, whatever values in
`[0, RAND_MAX]` the random source returns, the tensor has the shape it had and every weight
`weights[l][j][i]`, bias slot included, is a draw `d = r / RAND_MAX * 2 - 1` in `[-1, 1]`
multiplied by the scale `sqrtf(2 / (n_l + n_{l+1}))`, so that its absolute value is at most that
scale.  (`sqrtf` is any function with non-negative values; arithmetic is exact.) -/
theorem randomizeWeights_bound {F : Type} [LinearOrderedField F] (sqrtf : F → F)
    (RAND_MAX : Nat) (net : Network F) (rng : RandState) (hwf : WellFormed net)
    (hsqrt : ∀ x, 0 ≤ sqrtf x) (hrng : ∀ k, rng k ≤ RAND_MAX) :
    ∃ net' rng', randomizeWeights sqrtf RAND_MAX net rng = some (net', rng') ∧
      shapeOf net'.weights = shapeOf net.weights ∧
      ∀ (l : Nat) (a b : Layer F), net.layers[l]? = some a → net.layers[l + 1]? = some b →
        ∀ (o i : Nat) (v : F), readWeight net'.weights l o i = some v →
          (∃ k, v = ((rng k : F) / (RAND_MAX : F) * 2 - 1) *
              sqrtf (2 / ((a.amount_of_neurons + b.amount_of_neurons : Nat) : F)) ∧
            -1 ≤ (rng k : F) / (RAND_MAX : F) * 2 - 1 ∧
            (rng k : F) / (RAND_MAX : F) * 2 - 1 ≤ 1) ∧
          |v| ≤ sqrtf (2 / ((a.amount_of_neurons + b.amount_of_neurons : Nat) : F)) := by
  refine ⟨_, _, randomizeWeights_eq sqrtf RAND_MAX net rng hwf, ?_, ?_⟩
  · exact tensor_traverse_shape
      (fun l _ s => randomizeEntry RAND_MAX (xavierScale sqrtf (neuronCounts net.layers) l) s)
      net.weights rng
  · intro l a b ha hb o i v hv
    obtain ⟨x, s', ⟨c, hc⟩, -, rfl⟩ := (tensor_traverse_read
      (fun l _ s => randomizeEntry RAND_MAX (xavierScale sqrtf (neuronCounts net.layers) l) s)
      (IsShiftOf rng) (fun _ _ _ h => isShiftOf_rand h) net.weights rng
      ⟨0, fun j => by simp⟩).1 l o i v hv
    obtain ⟨h0, h1⟩ := draw_unit_interval (F := F) (hrng c)
    have hd : (randomizeEntry RAND_MAX (xavierScale sqrtf (neuronCounts net.layers) l) s').1 =
        ((rng c : F) / (RAND_MAX : F) * 2 - 1) *
          sqrtf (2 / ((a.amount_of_neurons + b.amount_of_neurons : Nat) : F)) := by
      simp only [randomizeEntry, rand, hc, Nat.add_zero, xavierScale, neuronCounts_getD ha,
        neuronCounts_getD hb]
    have hlo : -1 ≤ (rng c : F) / (RAND_MAX : F) * 2 - 1 := by linarith
    have hhi : (rng c : F) / (RAND_MAX : F) * 2 - 1 ≤ 1 := by linarith
    refine ⟨⟨c, hd, hlo, hhi⟩, ?_⟩
    rw [hd, abs_mul, abs_of_nonneg (hsqrt _)]
    exact mul_le_of_le_one_left (hsqrt _) (abs_le.mpr ⟨hlo, hhi⟩)

theorem randomizeWeights_bound_witness :
    ∃ net' rng', randomizeWeights exSqrt 10 exNetQ exRng = some (net', rng') ∧
      shapeOf net'.weights = shapeOf exNetQ.weights ∧
      ∀ (l : Nat) (a b : Layer ℚ), exNetQ.layers[l]? = some a → exNetQ.layers[l + 1]? = some b →
        ∀ (o i : Nat) (v : ℚ), readWeight net'.weights l o i = some v →
          (∃ k, v = ((exRng k : ℚ) / ((10 : Nat) : ℚ) * 2 - 1) *
              exSqrt (2 / ((a.amount_of_neurons + b.amount_of_neurons : Nat) : ℚ)) ∧
            -1 ≤ (exRng k : ℚ) / ((10 : Nat) : ℚ) * 2 - 1 ∧
            (exRng k : ℚ) / ((10 : Nat) : ℚ) * 2 - 1 ≤ 1) ∧
          |v| ≤ exSqrt (2 / ((a.amount_of_neurons + b.amount_of_neurons : Nat) : ℚ)) :=
  randomizeWeights_bound exSqrt 10 exNetQ exRng (by decide)
    (fun x => div_nonneg (Nat.cast_nonneg _) (by norm_num))
    (fun k => Nat.le_of_lt_succ (Nat.mod_lt k (by decide)))

/-- C9, in the arithmetic of the code.  On a well-formed network, whatever the `float` and
`double` operations are and whatever the generator returns, `mutateWeights` makes one pass over
the weights in save order, biases included (`mutateEntry` is applied to each weight once, the
generator being handed on from one weight to the next); the shape of the tensor is kept; and
for every weight there is a selection draw `rng k` such that the weight is left exactly as it
was when the test `(float)rng k / RAND_MAX < 0.3` fails and becomes the `float` stored for
`old + t` otherwise, where `t = (float)rng (k+1) / RAND_MAX - 0.5` is computed from the next
draw and the sum is taken in `double`.  In IEEE 754 arithmetic the term `t` lies in
`[-0.5, 0.5]` for every `RAND_MAX ≥ 1` and every draw in `[0, RAND_MAX]`.  The change of the
stored weight is not bounded: the store rounds the sum. -/
theorem mutateWeights_effect {F D : Type} (A : FloatArith F D) (RAND_MAX : Nat)
    (net : Network F) (rng : RandState) (hwf : WellFormed net) :
    (∃ net' rng', mutateWeights A RAND_MAX net rng = some (net', rng') ∧
      shapeOf net'.weights = shapeOf net.weights ∧
      (flatWeights net'.weights, rng') =
        traverseFrom (fun _ => mutateEntry A RAND_MAX) 0 (flatWeights net.weights) rng ∧
      ∀ (l o i : Nat) (old : F), readWeight net.weights l o i = some old →
        ∃ (new : F) (k : Nat), readWeight net'.weights l o i = some new ∧
          new = (if selectionTest A RAND_MAX (rng k) = true
            then A.demote (A.addD (A.promote old) (mutationTerm A RAND_MAX (rng (k + 1))))
            else old)) ∧
    (1 ≤ RAND_MAX → ∀ r : Nat, r ≤ RAND_MAX →
      -(1 / 2) ≤ mutationTerm ieeeArith RAND_MAX r ∧
        mutationTerm ieeeArith RAND_MAX r ≤ 1 / 2) := by
  have hshape : shapeOf (mutateTensor A RAND_MAX net.weights rng).1 = shapeOf net.weights :=
    tensor_traverse_shape (fun _ x s => mutateEntry A RAND_MAX x s) net.weights rng
  refine ⟨⟨_, _, mutateWeights_eq A RAND_MAX net rng hwf, hshape,
    mutateTensor_flat A RAND_MAX net.weights rng, ?_⟩, fun hM r hr => ieee_term_range hM hr⟩
  intro l o i old hold
  obtain ⟨v, hv⟩ := readWeight_of_shape hshape hold
  obtain ⟨x, s', ⟨c, hc⟩, hx, hvx⟩ := (tensor_traverse_read
    (fun _ x s => mutateEntry A RAND_MAX x s) (IsShiftOf rng)
    (fun _ x _ h => isShiftOf_mutateEntry A RAND_MAX x h) net.weights rng
    ⟨0, fun j => by simp⟩).1 l o i v hv
  rw [hold] at hx
  cases hx
  refine ⟨v, c, hv, ?_⟩
  rw [hvx]
  simp only [mutateEntry, selectionTest, mutationTerm, rand, hc, Nat.add_zero]
  split <;> rfl

theorem mutateWeights_effect_witness :
    (∃ net' rng', mutateWeights ieeeArith exRandMax exNetLarge exRngLarge = some (net', rng') ∧
      shapeOf net'.weights = shapeOf exNetLarge.weights ∧
      (flatWeights net'.weights, rng') =
        traverseFrom (fun _ => mutateEntry ieeeArith exRandMax) 0
          (flatWeights exNetLarge.weights) exRngLarge ∧
      ∀ (l o i : Nat) (old : ℚ), readWeight exNetLarge.weights l o i = some old →
        ∃ (new : ℚ) (k : Nat), readWeight net'.weights l o i = some new ∧
          new = (if selectionTest ieeeArith exRandMax (exRngLarge k) = true
            then ieeeArith.demote (ieeeArith.addD (ieeeArith.promote old)
              (mutationTerm ieeeArith exRandMax (exRngLarge (k + 1))))
            else old)) ∧
    (-(1 / 2) ≤ mutationTerm ieeeArith exRandMax 2147483647 ∧
      mutationTerm ieeeArith exRandMax 2147483647 ≤ 1 / 2) :=
  ⟨(mutateWeights_effect ieeeArith exRandMax exNetLarge exRngLarge (by decide)).1,
    (mutateWeights_effect ieeeArith exRandMax exNetLarge exRngLarge (by decide)).2
      (by decide) 2147483647 (by decide)⟩

/-- C9 as it is stated, at a failing input.  In IEEE 754 arithmetic with
`RAND_MAX = 2 ^ 31 - 1`, on the well-formed network `exNetLarge` whose weight is the `float`
value `8388609 = 2 ^ 23 + 1`, the draws `0` (the weight is selected: `0 < 0.3`) and `RAND_MAX`
(the term added is `1 - 0.5`) make `mutateWeights` store `8388610`, the `float` nearest to
`8388609.5`: the weight changes by `1`, which is not in `[-0.5, 0.5]`, and it is not
`old + (r' / RAND_MAX - 0.5) = 8388609.5` either. -/
theorem mutateWeights_change_exceeds_half :
    WellFormed exNetLarge ∧ (∀ k, exRngLarge k ≤ exRandMax) ∧
      roundTo 24 8388609 = 8388609 ∧
      ∃ net' rng' old new,
        mutateWeights ieeeArith exRandMax exNetLarge exRngLarge = some (net', rng') ∧
        readWeight exNetLarge.weights 0 0 0 = some old ∧
        readWeight net'.weights 0 0 0 = some new ∧
        old = 8388609 ∧ new = 8388610 ∧ new - old = 1 ∧
        ¬ (-(1 / 2) ≤ new - old ∧ new - old ≤ 1 / 2) := by
  refine ⟨by decide, ?_, roundTo_float_old, _, _, 8388609, 8388610,
    mutateWeights_eq ieeeArith exRandMax exNetLarge exRngLarge (by decide), rfl, ?_, rfl, rfl,
    by norm_num, by norm_num⟩
  · intro k
    unfold exRngLarge exRandMax
    split <;> omega
  · show readWeight (mutateTensor ieeeArith exRandMax exNetLarge.weights exRngLarge).1 0 0 0 =
      some 8388610
    rw [mutateTensor_exNetLarge]
    rfl

/-- C10. The operations that store into the tensor keep its shape: on a well-formed network
`randomizeWeights`, `mutateWeights` and `loadWeights` (whether the file opens or not, whatever
it holds) each return a network with the same layer sequence and a tensor with the same number
of connection groups, the same number of rows in every group and the same length of every row,
hence again well-formed.  (`saveWeights` and `feed_forward` contain no store through
`net->weights`; their embeddings are functions of the network that return no network.) -/
theorem tensor_shape_preserved {F : Type} [LinearOrderedField F] (net : Network F)
    (hwf : WellFormed net) :
    (∀ (sqrtf : F → F) (RAND_MAX : Nat) (rng : RandState),
      ∃ net' rng', randomizeWeights sqrtf RAND_MAX net rng = some (net', rng') ∧
        shapeOf net'.weights = shapeOf net.weights ∧ net'.layers = net.layers ∧
        net'.amount_of_layers = net.amount_of_layers ∧ WellFormed net') ∧
    (∀ (D : Type) (A : FloatArith F D) (RAND_MAX : Nat) (rng : RandState),
      ∃ net' rng', mutateWeights A RAND_MAX net rng = some (net', rng') ∧
        shapeOf net'.weights = shapeOf net.weights ∧ net'.layers = net.layers ∧
        net'.amount_of_layers = net.amount_of_layers ∧ WellFormed net') ∧
    (∀ (fs : FileSystem F) (filename : String),
      ∃ code net', loadWeights net fs filename = some (code, net') ∧
        shapeOf net'.weights = shapeOf net.weights ∧ net'.layers = net.layers ∧
        net'.amount_of_layers = net.amount_of_layers ∧ WellFormed net') := by
  refine ⟨?_, ?_, ?_⟩
  · intro sqrtf RAND_MAX rng
    have hshape := tensor_traverse_shape
      (fun l _ s => randomizeEntry RAND_MAX (xavierScale sqrtf (neuronCounts net.layers) l) s)
      net.weights rng
    exact ⟨_, _, randomizeWeights_eq sqrtf RAND_MAX net rng hwf, hshape, rfl, rfl, hwf.1,
      hshape.trans hwf.2⟩
  · intro D A RAND_MAX rng
    have hshape :=
      tensor_traverse_shape (fun _ x s => mutateEntry A RAND_MAX x s) net.weights rng
    exact ⟨_, _, mutateWeights_eq A RAND_MAX net rng hwf, hshape, rfl, rfl, hwf.1,
      hshape.trans hwf.2⟩
  · intro fs filename
    cases hfile : fs.files filename with
    | none => exact ⟨0, net, by simp [loadWeights, hfile], rfl, rfl, rfl, hwf⟩
    | some file =>
      have hshape := loadTensor_shape net.weights file
      exact ⟨1, _, loadWeights_eq net fs filename file hwf hfile, hshape, rfl, rfl, hwf.1,
        hshape.trans hwf.2⟩

theorem tensor_shape_preserved_witness :
    (∃ net' rng', randomizeWeights exSqrt 10 exNetQ exRng = some (net', rng') ∧
        shapeOf net'.weights = [[2, 2]]) ∧
      (∃ net' rng', mutateWeights ieeeArith 10 exNetQ exRng = some (net', rng') ∧
        shapeOf net'.weights = [[2, 2]]) ∧
      (∃ code net', loadWeights exNetQ ⟨fun _ => some [5, 6, 7], fun _ => true⟩ "adam.bin" =
          some (code, net') ∧ shapeOf net'.weights = [[2, 2]]) := by
  obtain ⟨h1, h2, h3⟩ := tensor_shape_preserved exNetQ (by decide)
  refine ⟨?_, ?_, ?_⟩
  · obtain ⟨n, r, h, hs, -⟩ := h1 exSqrt 10 exRng
    exact ⟨n, r, h, hs⟩
  · obtain ⟨n, r, h, hs, -⟩ := h2 ℚ ieeeArith 10 exRng
    exact ⟨n, r, h, hs⟩
  · obtain ⟨c, n, h, hs, -⟩ := h3 ⟨fun _ => some [5, 6, 7], fun _ => true⟩ "adam.bin"
    exact ⟨c, n, h, hs⟩

/-! ## The sensor model: `get_rays` -/

theorem forUntil_le (stop : Nat → Bool) : ∀ (n i : Nat),
    i ≤ forUntil stop i n ∧ forUntil stop i n ≤ i + n := by
  intro n
  induction n with
  | zero => intro i; simp [forUntil]
  | succ n ih =>
    intro i
    unfold forUntil
    split
    · omega
    · have := ih (i + 1); omega

/-- No step before the one the loop ends at reaches `break`. -/
theorem forUntil_before (stop : Nat → Bool) : ∀ (n i j : Nat),
    i ≤ j → j < forUntil stop i n → stop j = false := by
  intro n
  induction n with
  | zero => intro i j h1 h2; simp [forUntil] at h2; omega
  | succ n ih =>
    intro i j h1 h2
    unfold forUntil at h2
    split at h2
    · omega
    · rename_i hs
      rcases Nat.eq_or_lt_of_le h1 with rfl | hlt
      · simpa using hs
      · exact ih (i + 1) j hlt h2

/-- When the loop ends before its bound, it ends at a step that reaches `break`. -/
theorem forUntil_stop (stop : Nat → Bool) : ∀ (n i : Nat),
    forUntil stop i n < i + n → stop (forUntil stop i n) = true := by
  intro n
  induction n with
  | zero => intro i h; simp [forUntil] at h
  | succ n ih =>
    intro i h
    unfold forUntil at h ⊢
    split
    · assumption
    · rename_i hs
      simp only [hs] at h
      exact ih (i + 1) (by simpa [Nat.add_assoc, Nat.add_comm 1 n] using h)

/-- The loop ends at the least step that reaches `break`. -/
theorem forUntil_eq_of_first (stop : Nat → Bool) (n i r : Nat) (hi : i ≤ r) (hr : r < i + n)
    (hstop : stop r = true) (hbefore : ∀ j, i ≤ j → j < r → stop j = false) :
    forUntil stop i n = r := by
  have h1 := forUntil_le stop n i
  rcases Nat.lt_trichotomy (forUntil stop i n) r with h | h | h
  · have := forUntil_stop stop n i (by omega)
    rw [hbefore _ h1.1 h] at this
    cases this
  · exact h
  · have := forUntil_before stop n i r hi h
    rw [hstop] at this
    cases this

/-- The loop runs to its bound when no step reaches `break`. -/
theorem forUntil_eq_of_none (stop : Nat → Bool) (n i : Nat)
    (hnone : ∀ j, i ≤ j → j < i + n → stop j = false) : forUntil stop i n = i + n := by
  have h1 := forUntil_le stop n i
  rcases Nat.eq_or_lt_of_le h1.2 with h | h
  · exact h
  · have := forUntil_stop stop n i h
    rw [hnone _ h1.1 h] at this
    cases this

/-- The loop of `get_rays` over the rays stores `ray_readings`. -/
theorem get_rays_eq {F : Type} [LinearOrderedField F] [FloorRing F] (cached_background : Image)
    (ray_cos_table ray_sin_table : List F) (ray_sensors : List (List F)) (ant_index : Nat)
    (pos_x pos_y : Int) (row : List F) (hcos : ray_cos_table.length = AMOUNT_OF_RAYS)
    (hsin : ray_sin_table.length = AMOUNT_OF_RAYS) (hrow : ray_sensors[ant_index]? = some row)
    (hlen : row.length = AMOUNT_OF_RAYS) :
    get_rays cached_background ray_cos_table ray_sin_table ray_sensors ant_index pos_x pos_y =
      some (ray_readings cached_background ray_cos_table ray_sin_table pos_x pos_y,
        ray_sensors.set ant_index
          (ray_readings cached_background ray_cos_table ray_sin_table pos_x pos_y)) := by
  have h := forLoop_traverse
    (fun ray_index (ray_distances : List F) => do
      let ray_dir_x ← ray_cos_table[ray_index]?
      let ray_dir_y ← ray_sin_table[ray_index]?
      let ray_length :=
        forUntil (ray_hit cached_background pos_x pos_y ray_dir_x ray_dir_y) 0 RAYS_RADIUS
      if ray_index < ray_distances.length then
        some (ray_distances.set ray_index
          (((RAYS_RADIUS - ray_length : Nat) : F) / (RAYS_RADIUS : F)))
      else none)
    (fun (ys : List F) (_ : Unit) => ys)
    (fun k (_ : F) (_ : Unit) =>
      (((RAYS_RADIUS - ray_steps cached_background ray_cos_table ray_sin_table pos_x pos_y k
        : Nat) : F) / (RAYS_RADIUS : F), ()))
    (fun _ _ => True) row
    (by
      intro k ys _ x hys hx _
      have hk : k < ys.length := lt_of_getElem? hx
      have hk2 : k < AMOUNT_OF_RAYS := by rw [← hlen, ← hys]; exact hk
      have h1 : ray_cos_table[k]? = some (ray_cos_table.getD k 0) :=
        getElem?_eq_some_getD (by omega) 0
      have h2 : ray_sin_table[k]? = some (ray_sin_table.getD k 0) :=
        getElem?_eq_some_getD (by omega) 0
      simp only [Option.bind_eq_bind, h1, h2, Option.some_bind, hk, if_true, ray_steps])
    (fun _ _ _ => trivial) ()
  rw [hlen] at h
  rw [traverseFrom_fst_eq_map _ (fun k =>
    ((RAYS_RADIUS - ray_steps cached_background ray_cos_table ray_sin_table pos_x pos_y k
      : Nat) : F) / (RAYS_RADIUS : F)) (fun _ _ _ => rfl)] at h
  simp only [hlen, Nat.zero_add] at h
  simp only [Option.bind_eq_bind] at h
  simp only [get_rays, hrow, Option.bind_eq_bind, Option.some_bind, h, ray_readings]

theorem ray_steps_le {F : Type} [LinearOrderedField F] [FloorRing F] (bg : Image)
    (cosT sinT : List F) (pos_x pos_y : Int) (k : Nat) :
    ray_steps bg cosT sinT pos_x pos_y k ≤ RAYS_RADIUS := by
  have := (forUntil_le (ray_hit bg pos_x pos_y (cosT.getD k 0) (sinT.getD k 0)) RAYS_RADIUS 0).2
  simpa [ray_steps] using this

theorem toInt_of_nonneg {F : Type} [LinearOrderedField F] [FloorRing F] {v : F} (h : 0 ≤ v) :
    toInt v = ⌊v⌋ := by
  simp [toInt, h]

/-- A coordinate that passes the bounds test of `get_rays` truncates to a pixel index. -/
theorem toInt_lt_of_pos_of_lt {F : Type} [LinearOrderedField F] [FloorRing F] {v : F} {n : Nat}
    (h0 : 0 < v) (h1 : v < (n : F)) : 0 ≤ toInt v ∧ toInt v < (n : Int) := by
  rw [toInt_of_nonneg (le_of_lt h0)]
  refine ⟨Int.floor_nonneg.mpr (le_of_lt h0), Int.floor_lt.mpr ?_⟩
  simpa using h1

/-- The inner loop of `get_rays` only depends on the colours of the pixels of the mask. -/
theorem ray_hit_congr {F : Type} [LinearOrderedField F] [FloorRing F] (bg bg' : Image)
    (h : ∀ x y, onMask x y → bg x y = bg' x y) (pos_x pos_y : Int) (dx dy : F) (s : Nat) :
    ray_hit bg pos_x pos_y dx dy s = ray_hit bg' pos_x pos_y dx dy s := by
  unfold ray_hit
  simp only []
  split
  · rename_i hb
    obtain ⟨hx0, hx1, hy0, hy1⟩ := hb
    have hx := toInt_lt_of_pos_of_lt hx0 hx1
    have hy := toInt_lt_of_pos_of_lt hy0 hy1
    simp only [GetImageColor, h _ _ ⟨hx.1, hx.2, hy.1, hy.2⟩]
  · rfl

/-- The reading of ray `k` is `(RAYS_RADIUS - steps) / RAYS_RADIUS`, `steps` being the least
step at which the inner loop reaches `break`, and `RAYS_RADIUS` when there is none. -/
theorem ray_readings_getElem? {F : Type} [LinearOrderedField F] [FloorRing F] (bg : Image)
    (cosT sinT : List F) (pos_x pos_y : Int) (k : Nat) (hk : k < AMOUNT_OF_RAYS) :
    (ray_readings bg cosT sinT pos_x pos_y)[k]? =
        some (((RAYS_RADIUS - ray_steps bg cosT sinT pos_x pos_y k : Nat) : F) /
          (RAYS_RADIUS : F)) ∧
      ray_steps bg cosT sinT pos_x pos_y k ≤ RAYS_RADIUS ∧
      (∀ j, j < ray_steps bg cosT sinT pos_x pos_y k →
        ray_hit bg pos_x pos_y (cosT.getD k 0) (sinT.getD k 0) j = false) ∧
      (ray_steps bg cosT sinT pos_x pos_y k < RAYS_RADIUS →
        ray_hit bg pos_x pos_y (cosT.getD k 0) (sinT.getD k 0)
          (ray_steps bg cosT sinT pos_x pos_y k) = true) := by
  refine ⟨?_, ray_steps_le bg cosT sinT pos_x pos_y k, ?_, ?_⟩
  · simp [ray_readings, List.getElem?_range hk]
  · intro j hj
    exact forUntil_before _ RAYS_RADIUS 0 j (Nat.zero_le j) hj
  · intro h
    exact forUntil_stop _ RAYS_RADIUS 0 (by simpa [ray_steps] using h)

theorem reading_unit_interval {F : Type} [LinearOrderedField F] (s : Nat) :
    0 ≤ ((RAYS_RADIUS - s : Nat) : F) / (RAYS_RADIUS : F) ∧
      ((RAYS_RADIUS - s : Nat) : F) / (RAYS_RADIUS : F) ≤ 1 :=
  ⟨div_nonneg (Nat.cast_nonneg _) (Nat.cast_nonneg _),
    div_le_one_of_le₀ (Nat.cast_le.mpr (Nat.sub_le _ _)) (Nat.cast_nonneg _)⟩

/-- C12. For every position, on the screen or not, and every mask, `get_rays` returns
`AMOUNT_OF_RAYS` readings that all lie in `[0, 1]`; and when no probe point
`position + s * direction_k` with `s < RAYS_RADIUS` that lies on the screen is a non-white
pixel, every reading is exactly `0`. -/
theorem get_rays_readings_unit_interval {F : Type} [LinearOrderedField F] [FloorRing F]
    (bg : Image) (cosT sinT : List F) (sensors : List (List F)) (ant_index : Nat)
    (pos_x pos_y : Int) (row : List F) (hcos : cosT.length = AMOUNT_OF_RAYS)
    (hsin : sinT.length = AMOUNT_OF_RAYS) (hrow : sensors[ant_index]? = some row)
    (hlen : row.length = AMOUNT_OF_RAYS) :
    ∃ readings table, get_rays bg cosT sinT sensors ant_index pos_x pos_y =
        some (readings, table) ∧
      readings.length = AMOUNT_OF_RAYS ∧ (∀ r ∈ readings, 0 ≤ r ∧ r ≤ 1) ∧
      ((∀ (k s : Nat), k < AMOUNT_OF_RAYS → s < RAYS_RADIUS →
          0 ≤ (pos_x : F) + cosT.getD k 0 * (s : F) →
          (pos_x : F) + cosT.getD k 0 * (s : F) < (SCREEN_WIDTH : F) →
          0 ≤ (pos_y : F) + sinT.getD k 0 * (s : F) →
          (pos_y : F) + sinT.getD k 0 * (s : F) < (SCREEN_HEIGHT : F) →
          bg (toInt ((pos_x : F) + cosT.getD k 0 * (s : F)))
            (toInt ((pos_y : F) + sinT.getD k 0 * (s : F))) = WHITE) →
        ∀ r ∈ readings, r = 0) := by
  refine ⟨_, _, get_rays_eq bg cosT sinT sensors ant_index pos_x pos_y row hcos hsin hrow hlen,
    by simp [ray_readings], ?_, ?_⟩
  · intro r hr
    obtain ⟨k, _, rfl⟩ := List.mem_map.mp hr
    exact reading_unit_interval _
  · intro hclear r hr
    obtain ⟨k, hk, rfl⟩ := List.mem_map.mp hr
    have hk : k < AMOUNT_OF_RAYS := List.mem_range.mp hk
    have hsteps : ray_steps bg cosT sinT pos_x pos_y k = RAYS_RADIUS := by
      have := forUntil_eq_of_none (ray_hit bg pos_x pos_y (cosT.getD k 0) (sinT.getD k 0))
        RAYS_RADIUS 0 (by
          intro s _ hs
          unfold ray_hit
          simp only []
          split
          · rename_i hb
            obtain ⟨hx0, hx1, hy0, hy1⟩ := hb
            have := hclear k s hk (by omega) (le_of_lt hx0) hx1 (le_of_lt hy0) hy1
            simp only [GetImageColor, this, ColorIsEqual, decide_True, Bool.not_true]
          · rfl)
      simpa [ray_steps] using this
    simp [hsteps]

/-- C18. Whatever the integer position, the direction and the step, when the bounds test of
`get_rays` passes, the truncated coordinates `((int)x, (int)y)` it hands to `GetImageColor`
satisfy `0 ≤ x < SCREEN_WIDTH` and `0 ≤ y < SCREEN_HEIGHT`; accordingly the result of
`get_rays` is the same for two images that agree on the pixels of the mask. -/
theorem get_rays_samples_on_mask {F : Type} [LinearOrderedField F] [FloorRing F]
    (pos_x pos_y : Int) :
    (∀ (dx dy : F) (s : Nat),
      ((pos_x : F) + dx * (s : F) > 0 ∧ (pos_x : F) + dx * (s : F) < (SCREEN_WIDTH : F) ∧
        (pos_y : F) + dy * (s : F) > 0 ∧ (pos_y : F) + dy * (s : F) < (SCREEN_HEIGHT : F)) →
      onMask (toInt ((pos_x : F) + dx * (s : F))) (toInt ((pos_y : F) + dy * (s : F)))) ∧
    (∀ (bg bg' : Image) (cosT sinT : List F) (sensors : List (List F)) (ant_index : Nat),
      (∀ x y, onMask x y → bg x y = bg' x y) →
      get_rays bg cosT sinT sensors ant_index pos_x pos_y =
        get_rays bg' cosT sinT sensors ant_index pos_x pos_y) := by
  constructor
  · rintro dx dy s ⟨hx0, hx1, hy0, hy1⟩
    have hx := toInt_lt_of_pos_of_lt hx0 hx1
    have hy := toInt_lt_of_pos_of_lt hy0 hy1
    exact ⟨hx.1, hx.2, hy.1, hy.2⟩
  · intro bg bg' cosT sinT sensors ant_index h
    have e : ∀ dx dy : F, ray_hit bg pos_x pos_y dx dy = ray_hit bg' pos_x pos_y dx dy :=
      fun dx dy => funext (ray_hit_congr bg bg' h pos_x pos_y dx dy)
    simp only [get_rays, e]

theorem toInt_intCast {F : Type} [LinearOrderedField F] [FloorRing F] (z : Int) :
    toInt ((z : Int) : F) = z := by
  unfold toInt
  split <;> simp

theorem exSensors_row (i : Nat) (h : i < AMOUNT_OF_ANTS) :
    exSensors[i]? = some (List.replicate AMOUNT_OF_RAYS 0) := by
  rw [exSensors, List.getElem?_replicate, if_pos h]

theorem get_rays_readings_unit_interval_witness :
    ∃ readings table, get_rays (fun _ _ => WHITE) exCos exSin exSensors 0 600 400 =
        some (readings, table) ∧
      readings.length = 20 ∧ (∀ r ∈ readings, 0 ≤ r ∧ r ≤ 1) ∧ ∀ r ∈ readings, r = 0 := by
  obtain ⟨readings, table, h1, h2, h3, h4⟩ := get_rays_readings_unit_interval
    (fun _ _ => WHITE) exCos exSin exSensors 0 600 400 (List.replicate AMOUNT_OF_RAYS 0)
    (by decide) (by decide) (exSensors_row 0 (by decide)) (by decide)
  exact ⟨readings, table, h1, h2, h3, h4 (fun _ _ _ _ _ _ _ _ => rfl)⟩

theorem get_rays_samples_on_mask_witness :
    onMask (toInt (((50 : Int) : ℚ) + (-1) * ((49 : Nat) : ℚ)))
        (toInt (((400 : Int) : ℚ) + 0 * ((49 : Nat) : ℚ))) ∧
      get_rays exWall exCos exSin exSensors 0 50 400 =
        get_rays (fun x y => if onMask x y then exWall x y else BLACK) exCos exSin exSensors
          0 50 400 :=
  ⟨(get_rays_samples_on_mask (F := ℚ) 50 400).1 (-1) 0 49 (by norm_num [SCREEN_WIDTH,
      SCREEN_HEIGHT]),
    (get_rays_samples_on_mask (F := ℚ) 50 400).2 exWall
      (fun x y => if onMask x y then exWall x y else BLACK) exCos exSin exSensors 0
      (fun x y h => by simp [h])⟩

/-- For a ray along the x axis the probe point at step `s` is `(pos_x + dx * s, pos_y)`. -/
theorem ray_hit_axis (bg : Image) (pos_x pos_y dx : Int) (s : Nat) :
    ray_hit bg pos_x pos_y ((dx : Int) : ℚ) 0 s =
      (if 0 < pos_x + dx * s ∧ pos_x + dx * s < SCREEN_WIDTH ∧ 0 < pos_y ∧
          pos_y < SCREEN_HEIGHT then
        !ColorIsEqual (bg (pos_x + dx * s) pos_y) WHITE
      else false) := by
  have hx : ((pos_x : Int) : ℚ) + ((dx : Int) : ℚ) * ((s : Nat) : ℚ) =
      (((pos_x + dx * (s : Int) : Int)) : ℚ) := by push_cast; ring
  have hy : ((pos_y : Int) : ℚ) + 0 * ((s : Nat) : ℚ) = ((pos_y : Int) : ℚ) := by ring
  unfold ray_hit
  simp only [hx, hy, toInt_intCast, GetImageColor]
  have e1 : ((((pos_x + dx * (s : Int) : Int)) : ℚ) > 0) ↔ 0 < pos_x + dx * (s : Int) := by
    exact_mod_cast Iff.rfl
  have e2 : ((((pos_x + dx * (s : Int) : Int)) : ℚ) < ((SCREEN_WIDTH : Nat) : ℚ)) ↔
      pos_x + dx * (s : Int) < ((SCREEN_WIDTH : Nat) : Int) := by
    exact_mod_cast Iff.rfl
  have e3 : (((pos_y : Int) : ℚ) > 0) ↔ 0 < pos_y := by exact_mod_cast Iff.rfl
  have e4 : (((pos_y : Int) : ℚ) < ((SCREEN_HEIGHT : Nat) : ℚ)) ↔
      pos_y < ((SCREEN_HEIGHT : Nat) : Int) := by
    exact_mod_cast Iff.rfl
  simp only [e1, e2, e3, e4]

/-- C11, at the failing input.  The ant is at `(0, 5)` and the pixel `(0, 5)` of the mask, which
is the probe point of every ray at step 0, is black: the reading `get_rays` stores for ray 0
(direction `(1, 0)`) is `0`, where the least step with a non-white pixel is step 0 and the
reading would be `1`. -/
theorem get_rays_own_pixel_missed :
    onMask 0 5 ∧ GetImageColor exMask 0 5 ≠ WHITE ∧
      (get_rays exMask exCos exSin exSensors 0 0 5).map (fun r => r.1[0]?) = some (some 0) := by
  refine ⟨by decide, by decide, ?_⟩
  rw [get_rays_eq exMask exCos exSin exSensors 0 0 5 _ (by decide) (by decide)
    (exSensors_row 0 (by decide)) (by decide)]
  have hc : exCos.getD 0 0 = ((1 : Int) : ℚ) := by simp [exCos]
  have hs : exSin.getD 0 0 = 0 := by simp [exSin]
  have hsteps : ray_steps exMask exCos exSin 0 5 0 = RAYS_RADIUS := by
    have := forUntil_eq_of_none (ray_hit exMask 0 5 (exCos.getD 0 0) (exSin.getD 0 0))
      RAYS_RADIUS 0 (by
        intro j _ _
        rw [hc, hs, ray_hit_axis]
        by_cases hj : j = 0
        · subst hj; simp
        · simp [exMask, ColorIsEqual]
          intros; omega)
    simpa [ray_steps] using this
  have h := (ray_readings_getElem? exMask exCos exSin 0 5 0 (by decide)).1
  rw [hsteps] at h
  simp only [Option.map, h]
  simp

/-- C16, at the failing input.  The ant is at `(50, 400)` and the mask has a black wall in
column 0.  The probe point of ray 10 (direction `(-1, 0)`) at step 50 is `(0, 400)`: it is a
pixel of the mask and it is not white, yet the inner loop does not break there, and the
reading of ray 10 is `0` instead of `(100 - 50) / 100`. -/
theorem get_rays_left_wall_missed :
    onMask (toInt (((50 : Int) : ℚ) + (-1) * ((50 : Nat) : ℚ)))
        (toInt (((400 : Int) : ℚ) + 0 * ((50 : Nat) : ℚ))) ∧
      GetImageColor exWall (toInt (((50 : Int) : ℚ) + (-1) * ((50 : Nat) : ℚ)))
        (toInt (((400 : Int) : ℚ) + 0 * ((50 : Nat) : ℚ))) ≠ WHITE ∧
      ray_hit exWall 50 400 (-1 : ℚ) 0 50 = false ∧
      (get_rays exWall exCos exSin exSensors 0 50 400).map (fun r => r.1[10]?) =
        some (some 0) := by
  have hp : (((50 : Int) : ℚ) + (-1) * ((50 : Nat) : ℚ)) = ((0 : Int) : ℚ) := by norm_num
  have hq : (((400 : Int) : ℚ) + 0 * ((50 : Nat) : ℚ)) = ((400 : Int) : ℚ) := by norm_num
  have hm : (-1 : ℚ) = (((-1 : Int)) : ℚ) := by norm_num
  have hhit : ∀ j : Nat, ray_hit exWall 50 400 (-1 : ℚ) 0 j = false := by
    intro j
    rw [hm, ray_hit_axis]
    by_cases hj : (50 : Int) + -1 * (j : Int) = 0
    · simp [hj]
      intros; omega
    · simp [exWall, ColorIsEqual, hj]
      intros; omega
  refine ⟨?_, ?_, hhit 50, ?_⟩
  · rw [hp, hq, toInt_intCast, toInt_intCast]; decide
  · rw [hp, hq, toInt_intCast, toInt_intCast]; decide
  · rw [get_rays_eq exWall exCos exSin exSensors 0 50 400 _ (by decide) (by decide)
      (exSensors_row 0 (by decide)) (by decide)]
    have hc : exCos.getD 10 0 = (-1 : ℚ) := by simp [exCos]
    have hs : exSin.getD 10 0 = 0 := by simp [exSin]
    have hsteps : ray_steps exWall exCos exSin 50 400 10 = RAYS_RADIUS := by
      have := forUntil_eq_of_none (ray_hit exWall 50 400 (exCos.getD 10 0) (exSin.getD 10 0))
        RAYS_RADIUS 0 (by
          intro j _ _
          rw [hc, hs]
          exact hhit j)
      simpa [ray_steps] using this
    have h := (ray_readings_getElem? exWall exCos exSin 50 400 10 (by decide)).1
    rw [hsteps] at h
    simp only [Option.map, h]
    simp

/-! ## The motion model: `cartesian_move` -/

theorem clamped_candidate_cons {F : Type} [LinearOrderedField F] (ant : Ant F) (m0 m1 : F)
    (rest : List F) :
    clamped_candidate ant (m0 :: m1 :: rest) =
      some (max 0 (min (ant.x + m0 * (MAX_SPEED : F)) (SCREEN_WIDTH : F)),
        max 0 (min (ant.y + m1 * (MAX_SPEED : F)) (SCREEN_HEIGHT : F))) := by
  simp [clamped_candidate]

theorem two_le_length_cons {F : Type} (movement : List F) (h : 2 ≤ movement.length) :
    ∃ m0 m1 rest, movement = m0 :: m1 :: rest := by
  match movement, h with
  | m0 :: m1 :: rest, _ => exact ⟨m0, m1, rest, rfl⟩

theorem clamp_id {F : Type} [LinearOrderedField F] {v w : F} (h0 : 0 ≤ v) (h1 : v ≤ w) :
    max 0 (min v w) = v := by
  rw [min_eq_left h1, max_eq_right h0]

theorem clamp_mem {F : Type} [LinearOrderedField F] (v : F) {w : F} (hw : 0 ≤ w) :
    0 ≤ max 0 (min v w) ∧ max 0 (min v w) ≤ w :=
  ⟨le_max_left _ _, max_le hw (min_le_right _ _)⟩

/-- The move is committed when the pixel at the clamped candidate is white. -/
theorem cartesian_move_white {F : Type} [LinearOrderedField F] [FloorRing F] (bg : Image)
    (ant : Ant F) (m0 m1 : F) (rest : List F)
    (h : bg (toInt (max 0 (min (ant.x + m0 * (MAX_SPEED : F)) (SCREEN_WIDTH : F))))
      (toInt (max 0 (min (ant.y + m1 * (MAX_SPEED : F)) (SCREEN_HEIGHT : F)))) = WHITE) :
    cartesian_move bg ant (m0 :: m1 :: rest) =
      some { ant with
        x := max 0 (min (ant.x + m0 * (MAX_SPEED : F)) (SCREEN_WIDTH : F)),
        y := max 0 (min (ant.y + m1 * (MAX_SPEED : F)) (SCREEN_HEIGHT : F)) } := by
  simp only [cartesian_move, clamped_candidate_cons, Option.bind_eq_bind, Option.some_bind,
    GetImageColor, h, ColorIsEqual, decide_True, if_true]

/-- The move is dropped when the pixel at the clamped candidate is not white. -/
theorem cartesian_move_blocked {F : Type} [LinearOrderedField F] [FloorRing F] (bg : Image)
    (ant : Ant F) (m0 m1 : F) (rest : List F)
    (h : bg (toInt (max 0 (min (ant.x + m0 * (MAX_SPEED : F)) (SCREEN_WIDTH : F))))
      (toInt (max 0 (min (ant.y + m1 * (MAX_SPEED : F)) (SCREEN_HEIGHT : F)))) ≠ WHITE) :
    cartesian_move bg ant (m0 :: m1 :: rest) = some ant := by
  simp only [cartesian_move, clamped_candidate_cons, Option.bind_eq_bind, Option.some_bind,
    GetImageColor, ColorIsEqual, decide_eq_true_eq, h, if_false]

/-- One move keeps the ant in the screen rectangle. -/
theorem cartesian_move_inScreen {F : Type} [LinearOrderedField F] [FloorRing F] (bg : Image)
    (ant : Ant F) (movement : List F) (hin : inScreen ant) (hm : 2 ≤ movement.length) :
    ∃ ant', cartesian_move bg ant movement = some ant' ∧ inScreen ant' ∧
      ant'.network = ant.network := by
  obtain ⟨m0, m1, rest, rfl⟩ := two_le_length_cons movement hm
  by_cases h : bg (toInt (max 0 (min (ant.x + m0 * (MAX_SPEED : F)) (SCREEN_WIDTH : F))))
      (toInt (max 0 (min (ant.y + m1 * (MAX_SPEED : F)) (SCREEN_HEIGHT : F)))) = WHITE
  · refine ⟨_, cartesian_move_white bg ant m0 m1 rest h, ?_, rfl⟩
    have hx := clamp_mem (ant.x + m0 * (MAX_SPEED : F)) (Nat.cast_nonneg SCREEN_WIDTH)
    have hy := clamp_mem (ant.y + m1 * (MAX_SPEED : F)) (Nat.cast_nonneg SCREEN_HEIGHT)
    exact ⟨hx.1, hx.2, hy.1, hy.2⟩
  · exact ⟨_, cartesian_move_blocked bg ant m0 m1 rest h, hin, rfl⟩

/-- Any number of moves keeps the ant in the screen rectangle. -/
theorem moves_inScreen {F : Type} [LinearOrderedField F] [FloorRing F] (bg : Image)
    (ms : List (List F)) : ∀ (ant : Ant F), inScreen ant → (∀ m ∈ ms, 2 ≤ m.length) →
      ∃ ant', moves bg ant ms = some ant' ∧ inScreen ant' := by
  induction ms with
  | nil => intro ant hin _; exact ⟨ant, rfl, hin⟩
  | cons m ms ih =>
    intro ant hin hm
    obtain ⟨ant1, h1, hin1, -⟩ := cartesian_move_inScreen bg ant m hin
      (hm m (List.mem_cons_self _ _))
    obtain ⟨ant2, h2, hin2⟩ := ih ant1 hin1 (fun m' hm' => hm m' (List.mem_cons_of_mem _ hm'))
    exact ⟨ant2, by simp [moves, h1, h2], hin2⟩

/-- C13. For an ant at an in-bounds position `(old_x, old_y)` and an output vector that starts
with `(1, 0)`: when `old_x + MAX_SPEED` does not exceed the screen width and the pixel at the
destination is white, `cartesian_move` sets `x` to exactly `old_x + MAX_SPEED` and leaves `y`
equal to `old_y`.  More generally, for every position and output vector, when the pixel at the
clamped candidate is white the new position is exactly the clamped candidate
`clamp(position + output[0..1] * MAX_SPEED)`. -/
theorem cartesian_move_clear {F : Type} [LinearOrderedField F] [FloorRing F] (bg : Image)
    (ant : Ant F) :
    (∀ rest : List F, 0 ≤ ant.x → ant.x + (MAX_SPEED : F) ≤ (SCREEN_WIDTH : F) →
      0 ≤ ant.y → ant.y ≤ (SCREEN_HEIGHT : F) →
      bg (toInt (ant.x + (MAX_SPEED : F))) (toInt ant.y) = WHITE →
      cartesian_move bg ant (1 :: 0 :: rest) =
        some { ant with x := ant.x + (MAX_SPEED : F), y := ant.y }) ∧
    (∀ (m0 m1 : F) (rest : List F),
      bg (toInt (max 0 (min (ant.x + m0 * (MAX_SPEED : F)) (SCREEN_WIDTH : F))))
        (toInt (max 0 (min (ant.y + m1 * (MAX_SPEED : F)) (SCREEN_HEIGHT : F)))) = WHITE →
      cartesian_move bg ant (m0 :: m1 :: rest) =
        some { ant with
          x := max 0 (min (ant.x + m0 * (MAX_SPEED : F)) (SCREEN_WIDTH : F)),
          y := max 0 (min (ant.y + m1 * (MAX_SPEED : F)) (SCREEN_HEIGHT : F)) }) := by
  refine ⟨?_, fun m0 m1 rest h => cartesian_move_white bg ant m0 m1 rest h⟩
  intro rest hx0 hx1 hy0 hy1 hwhite
  have hs : (0 : F) ≤ (MAX_SPEED : F) := Nat.cast_nonneg _
  have ex : max 0 (min (ant.x + 1 * (MAX_SPEED : F)) (SCREEN_WIDTH : F)) =
      ant.x + (MAX_SPEED : F) := by
    rw [one_mul]; exact clamp_id (by linarith) hx1
  have ey : max 0 (min (ant.y + 0 * (MAX_SPEED : F)) (SCREEN_HEIGHT : F)) = ant.y := by
    rw [zero_mul, add_zero]; exact clamp_id hy0 hy1
  have h := cartesian_move_white bg ant 1 0 rest (by rw [ex, ey]; exact hwhite)
  rw [h, ex, ey]

theorem cartesian_move_clear_witness :
    cartesian_move (fun _ _ => WHITE) exCentre [1, 0] =
      some { exCentre with x := exCentre.x + ((MAX_SPEED : Nat) : ℚ), y := exCentre.y } :=
  (cartesian_move_clear (fun _ _ => WHITE) exCentre).1 []
    (by norm_num [exCentre]) (by norm_num [exCentre, SCREEN_WIDTH, MAX_SPEED])
    (by norm_num [exCentre]) (by norm_num [exCentre, SCREEN_HEIGHT]) rfl

/-- C14. For every position and every output vector, when the pixel sampled at the clamped
candidate point is not white, `cartesian_move` returns the ant as it was, `x` and `y`
unchanged; and whatever the pixel, the ant it returns has the network it had. -/
theorem cartesian_move_blocked_frame {F : Type} [LinearOrderedField F] [FloorRing F]
    (bg : Image) (ant : Ant F) :
    (∀ (m0 m1 : F) (rest : List F),
      bg (toInt (max 0 (min (ant.x + m0 * (MAX_SPEED : F)) (SCREEN_WIDTH : F))))
        (toInt (max 0 (min (ant.y + m1 * (MAX_SPEED : F)) (SCREEN_HEIGHT : F)))) ≠ WHITE →
      cartesian_move bg ant (m0 :: m1 :: rest) = some ant) ∧
    (∀ (movement : List F), 2 ≤ movement.length →
      ∃ ant', cartesian_move bg ant movement = some ant' ∧ ant'.network = ant.network) := by
  refine ⟨fun m0 m1 rest h => cartesian_move_blocked bg ant m0 m1 rest h, ?_⟩
  intro movement hm
  obtain ⟨m0, m1, rest, rfl⟩ := two_le_length_cons movement hm
  by_cases h : bg (toInt (max 0 (min (ant.x + m0 * (MAX_SPEED : F)) (SCREEN_WIDTH : F))))
      (toInt (max 0 (min (ant.y + m1 * (MAX_SPEED : F)) (SCREEN_HEIGHT : F)))) = WHITE
  · exact ⟨_, cartesian_move_white bg ant m0 m1 rest h, rfl⟩
  · exact ⟨_, cartesian_move_blocked bg ant m0 m1 rest h, rfl⟩

theorem cartesian_move_blocked_frame_witness :
    cartesian_move (fun _ _ => BLACK) exCentre [1, 0] = some exCentre ∧
      ∃ ant', cartesian_move exWall exCentre [1 / 2, -1] = some ant' ∧
        ant'.network = exCentre.network :=
  ⟨(cartesian_move_blocked_frame (fun _ _ => BLACK) exCentre).1 1 0 [] (by decide),
    (cartesian_move_blocked_frame exWall exCentre).2 [1 / 2, -1] (by decide)⟩

/-- C17, at the failing input.  The ant is at `(1199.5, 400)` and the output vector is
`(0.75, 0)`: the clamped candidate is `(1200, 400)` and the point handed to `GetImageColor`
is `(1200, 400)`, which is not a pixel of the mask since `1200 = SCREEN_WIDTH`.  The colour
found there decides the move: with two images that agree on every pixel of the mask, the ant
moves to `x = 1200` with one and stays at `x = 1199.5` with the other. -/
theorem cartesian_move_samples_off_mask :
    clamped_candidate exAnt [3 / 4, 0] = some (1200, 400) ∧
      toInt (1200 : ℚ) = 1200 ∧ toInt (400 : ℚ) = 400 ∧
      ¬ onMask (toInt (1200 : ℚ)) (toInt (400 : ℚ)) ∧
      (∀ x y, onMask x y → (fun _ _ => WHITE : Image) x y = exEdge x y) ∧
      (cartesian_move (fun _ _ => WHITE) exAnt [3 / 4, 0]).map (fun a => a.x) = some 1200 ∧
      (cartesian_move exEdge exAnt [3 / 4, 0]).map (fun a => a.x) = some (2399 / 2) := by
  have hx : max (0 : ℚ) (min (exAnt.x + 3 / 4 * ((MAX_SPEED : Nat) : ℚ))
      ((SCREEN_WIDTH : Nat) : ℚ)) = ((1200 : Int) : ℚ) := by
    rw [min_eq_right (by norm_num [exAnt, MAX_SPEED, SCREEN_WIDTH]),
      max_eq_right (by norm_num [SCREEN_WIDTH])]
    norm_num [SCREEN_WIDTH]
  have hy : max (0 : ℚ) (min (exAnt.y + 0 * ((MAX_SPEED : Nat) : ℚ))
      ((SCREEN_HEIGHT : Nat) : ℚ)) = ((400 : Int) : ℚ) := by
    rw [min_eq_left (by norm_num [exAnt, MAX_SPEED, SCREEN_HEIGHT]),
      max_eq_right (by norm_num [exAnt])]
    norm_num [exAnt]
  have h1200 : toInt (1200 : ℚ) = 1200 := by
    have := toInt_intCast (F := ℚ) 1200
    simpa using this
  have h400 : toInt (400 : ℚ) = 400 := by
    have := toInt_intCast (F := ℚ) 400
    simpa using this
  refine ⟨?_, h1200, h400, ?_, ?_, ?_, ?_⟩
  · rw [clamped_candidate_cons, hx, hy]; norm_num
  · rw [h1200, h400]; decide
  · intro x y h; simp [exEdge, h]
  · rw [cartesian_move_white _ exAnt (3 / 4) 0 [] rfl, Option.map, hx]; norm_num
  · rw [cartesian_move_blocked exEdge exAnt (3 / 4) 0 []
      (by rw [hx, hy, toInt_intCast, toInt_intCast]; decide)]
    rfl

/-- C20. When the position of an ant satisfies `0 ≤ x ≤ SCREEN_WIDTH` and
`0 ≤ y ≤ SCREEN_HEIGHT` before `cartesian_move`, it satisfies the same bounds afterwards, for
every output vector and every mask; so an ant that starts at the screen centre is within the
screen rectangle after any number of ticks. -/
theorem position_stays_in_screen {F : Type} [LinearOrderedField F] [FloorRing F]
    (ant : Ant F) (hin : inScreen ant) :
    (∀ (bg : Image) (movement : List F), 2 ≤ movement.length →
      ∃ ant', cartesian_move bg ant movement = some ant' ∧
        0 ≤ ant'.x ∧ ant'.x ≤ (SCREEN_WIDTH : F) ∧ 0 ≤ ant'.y ∧
        ant'.y ≤ (SCREEN_HEIGHT : F)) ∧
    (∀ (bg : Image) (network : Network F) (ms : List (List F)), (∀ m ∈ ms, 2 ≤ m.length) →
      ∃ ant', moves bg ⟨network, ((SCREEN_WIDTH / 2 : Nat) : F), ((SCREEN_HEIGHT / 2 : Nat) : F)⟩
          ms = some ant' ∧
        0 ≤ ant'.x ∧ ant'.x ≤ (SCREEN_WIDTH : F) ∧ 0 ≤ ant'.y ∧
        ant'.y ≤ (SCREEN_HEIGHT : F)) := by
  constructor
  · intro bg movement hm
    obtain ⟨ant', h, hin', -⟩ := cartesian_move_inScreen bg ant movement hin hm
    exact ⟨ant', h, hin'⟩
  · intro bg network ms hms
    have hc : inScreen (⟨network, ((SCREEN_WIDTH / 2 : Nat) : F),
        ((SCREEN_HEIGHT / 2 : Nat) : F)⟩ : Ant F) :=
      ⟨Nat.cast_nonneg _, Nat.cast_le.mpr (Nat.div_le_self _ _), Nat.cast_nonneg _,
        Nat.cast_le.mpr (Nat.div_le_self _ _)⟩
    exact moves_inScreen bg ms _ hc hms

theorem position_stays_in_screen_witness :
    (∃ ant', cartesian_move exEdge exAnt [3 / 4, 0] = some ant' ∧
        0 ≤ ant'.x ∧ ant'.x ≤ ((SCREEN_WIDTH : Nat) : ℚ) ∧ 0 ≤ ant'.y ∧
        ant'.y ≤ ((SCREEN_HEIGHT : Nat) : ℚ)) ∧
      ∃ ant', moves exWall exCentre [[1, 1], [-1, 1 / 2], [1, 0]] = some ant' ∧
        0 ≤ ant'.x ∧ ant'.x ≤ ((SCREEN_WIDTH : Nat) : ℚ) ∧ 0 ≤ ant'.y ∧
        ant'.y ≤ ((SCREEN_HEIGHT : Nat) : ℚ) :=
  ⟨(position_stays_in_screen exAnt
      (by norm_num [inScreen, exAnt, SCREEN_WIDTH, SCREEN_HEIGHT])).1 exEdge [3 / 4, 0]
      (by decide),
    (position_stays_in_screen exAnt
      (by norm_num [inScreen, exAnt, SCREEN_WIDTH, SCREEN_HEIGHT])).2 exWall exNetQ
      [[1, 1], [-1, 1 / 2], [1, 0]] (by decide)⟩

/-! ## The end-to-end scenario and loading a file of any length -/

/-- C15. End-to-end scenario: for the architecture `[3, 4, 2]` with every weight and bias zero
except the weight of the output connection from hidden neuron 0 to output neuron 0, which is
`1`, any hidden activation `h` and a pass-through activation on the output layer,
`feed_forward` on the input `[1, 1, 1]` returns `[h_0, 0]` with `h_0 = h 0`, the activation of
the first hidden neuron.  (Arithmetic is exact; the input layer's activation is arbitrary.) -/
theorem end_to_end_scenario {F : Type} [Semiring F] (h : F → F) (a0 : Option (F → F)) :
    feed_forward
      { amount_of_layers := 3
        layers := [⟨3, a0⟩, ⟨4, some h⟩, ⟨2, some (fun x => x)⟩]
        weights := [[[0, 0, 0, 0], [0, 0, 0, 0], [0, 0, 0, 0], [0, 0, 0, 0]],
          [[1, 0, 0, 0, 0], [0, 0, 0, 0, 0]]] } [1, 1, 1] = some [h 0, 0] := by
  simp [feed_forward, forLoop, forLoopFrom, readWeight]

/-- C19. `loadWeights` does not look at the length of the file: on a well-formed network,
whenever the file opens it returns 1, whatever the file holds; the shape of the tensor is
kept, and with `m` values in the file and `total = sum over l of n_{l+1} * (n_l + 1)` weights
in the network, the weights read in save order become the first `min(m, total)` values of the
file followed by the values the network had in the remaining positions. -/
theorem loadWeights_any_length {F : Type} (net : Network F) (fs : FileSystem F)
    (filename : String) (file : List F) (hwf : WellFormed net)
    (hopen : fs.files filename = some file) :
    ∃ net', loadWeights net fs filename = some (1, net') ∧
      shapeOf net'.weights = shapeOf net.weights ∧
      (flatWeights net.weights).length = weightCount (neuronCounts net.layers) ∧
      flatWeights net'.weights =
        file.take (min file.length (weightCount (neuronCounts net.layers))) ++
          (flatWeights net.weights).drop
            (min file.length (weightCount (neuronCounts net.layers))) := by
  have htotal := flatWeights_length hwf.2
  refine ⟨_, loadWeights_eq net fs filename file hwf hopen,
    loadTensor_shape net.weights file, htotal, ?_⟩
  show flatWeights (loadTensor net.weights file).1 = _
  rw [loadTensor_flat, htotal]
  rcases Nat.le_total file.length (weightCount (neuronCounts net.layers)) with hle | hle
  · rw [Nat.min_eq_left hle, List.take_of_length_le hle, List.take_of_length_le (Nat.le_refl _)]
  · rw [Nat.min_eq_right hle, List.drop_eq_nil_of_le (by rw [htotal]; exact hle),
      List.drop_eq_nil_of_le (by rw [htotal])]

theorem loadWeights_any_length_witness :
    ∃ net', loadWeights exNet (exFs.store "adam.bin" [7, 8, 9]) "adam.bin" = some (1, net') ∧
      shapeOf net'.weights = shapeOf exNet.weights ∧
      (flatWeights exNet.weights).length = 26 ∧
      flatWeights net'.weights = [7, 8, 9] ++ (flatWeights exNet.weights).drop 3 :=
  loadWeights_any_length exNet (exFs.store "adam.bin" [7, 8, 9]) "adam.bin" [7, 8, 9]
    (by decide) rfl

end RayLibAnts
